import Mathlib

/-!
# wsh: a shallow embedding of the command interpreter core

The definitions below follow `src/code/wsh.c` and `src/solution/dynamic_array.c`
function by function.  A C string is the list of its characters (bytes) before
the terminating NUL.  Everything the operating system decides (file executability,
`chdir`, `pipe`, `fork`, `waitpid`) is read from an explicit `OS` record, and the
calls the shell makes are appended to a trace kept in the session state.
Allocation failures are not modelled.
-/

namespace Wsh

/-! ## Characters and libc helpers -/

/-- `isspace` of `<ctype.h>` in the C locale. -/
def isspace (c : Char) : Bool :=
  c = ' ' || c = '\t' || c = '\n' || c = '\x0b' || c = '\x0c' || c = '\r'

/-- `strchr(s, c)` for a non-NUL `c`: the text before the first occurrence of `c`
and the text after it, or `none` when `c` does not occur. -/
def strchr (c : Char) : List Char → Option (List Char × List Char)
  | [] => none
  | x :: xs =>
    if x = c then some ([], xs)
    else match strchr c xs with
      | none => none
      | some (a, b) => some (x :: a, b)

/-- The loop `while (*p && *p == ' ') p++;`. -/
def skip_spaces : List Char → List Char
  | [] => []
  | c :: cs => if c = ' ' then skip_spaces cs else c :: cs

/-- Removal of trailing `isspace` characters. -/
def rstrip (s : List Char) : List Char :=
  (s.reverse.dropWhile isspace).reverse

/-- The successive results of `strtok(s, d)`, `strtok(NULL, d)`, ... for a
one-character delimiter: the non-empty maximal runs without the delimiter. -/
def strtok_all (d : Char) (s : List Char) : List (List Char) :=
  (s.splitOn d).filter (fun t => t ≠ [])

/-- `LONG_MAX` on an LP64 platform. -/
def LONG_MAX : Int := 9223372036854775807

/-- Value of a decimal digit. -/
def digit_val (c : Char) : Option Nat :=
  if '0' ≤ c ∧ c ≤ '9' then some (c.toNat - '0'.toNat) else none

/-- The digit loop of `strtol`: accumulated value, whether a digit was read,
and the unread rest. -/
def strtol_digits : List Char → Nat → Bool → Nat × Bool × List Char
  | [], acc, seen => (acc, seen, [])
  | c :: cs, acc, seen =>
    match digit_val c with
    | some d => strtol_digits cs (acc * 10 + d) true
    | none => (acc, seen, c :: cs)

/-- `strtol(s, &endptr, 10)`: the value (clamped to the range of `long`) and the
text `endptr` points to.  When no digit is read the value is 0 and `endptr` is `s`. -/
def strtol (s : List Char) : Int × List Char :=
  let body := s.dropWhile isspace
  let (neg, digits) :=
    match body with
    | '-' :: r => (true, r)
    | '+' :: r => (false, r)
    | r => (false, r)
  match strtol_digits digits 0 false with
  | (_, false, _) => (0, s)
  | (v, true, rest) =>
    let n : Int := if neg then -(v : Int) else (v : Int)
    (max (-LONG_MAX - 1) (min LONG_MAX n), rest)

/-! ## Tokenizer (`parseline_no_subst`) -/

/-- Result of `parseline_no_subst`: the argument vector written to `argv`
(`argc` is its length) and whether `wsh_warn(MISSING_CLOSING_QUOTE)` was called. -/
structure Parsed where
  argv : List (List Char)
  warned : Bool
deriving DecidableEq, Repr

/-- The `while (*p)` loop of `parseline_no_subst`.  `acc` is `argv[0..count)`.
Every iteration consumes at least one character, so a fuel above the length of
the text is never used up. -/
def parse_loop : Nat → List Char → List (List Char) → Parsed
  | 0, _, acc => ⟨acc, false⟩
  | _ + 1, [], acc => ⟨acc, false⟩
  | fuel + 1, c :: rest, acc =>
    if c = '\'' then
      match strchr '\'' rest with
      | none => ⟨[], true⟩
      | some (tok, p) => parse_loop fuel (skip_spaces p) (acc ++ [tok])
    else
      match strchr ' ' (c :: rest) with
      | none => ⟨acc, false⟩
      | some (tok, p) => parse_loop fuel (skip_spaces p) (acc ++ [tok])

/-- The working copy `buf`: a trailing newline becomes a space, otherwise a space
is appended. -/
def parse_buf (cmdline : List Char) : List Char :=
  if cmdline.getLast? = some '\n' then cmdline.dropLast ++ [' '] else cmdline ++ [' ']

/-- `parseline_no_subst(cmdline, argv, &argc)` for a non-NULL `cmdline`. -/
def parseline_no_subst (cmdline : List Char) : Parsed :=
  parse_loop ((parse_buf cmdline).length + 1) (skip_spaces (parse_buf cmdline)) []

/-- The vector and its terminating NULL fit the caller's `char *argv[MAX_ARGS]`
(the C code does not check this). -/
def argv_fits (MAX_ARGS : Nat) (r : Parsed) : Bool :=
  decide (r.argv.length < MAX_ARGS)

/-! ## Whitespace trimming -/

/-- `trim_whitespace(str)`: the text left in `str`. -/
def trim_whitespace (str : List Char) : List Char :=
  match str.dropWhile isspace with
  | [] => []
  | c :: rest => c :: rstrip rest

/-- `trim_inplace(s)`: the text left in `s`. -/
def trim_inplace (s : List Char) : List Char :=
  rstrip (s.dropWhile isspace)

/-- The two loops that step over leading whitespace and then over the first
whitespace-delimited word; the result is `rest`. -/
def skip_first_word (s : List Char) : List Char :=
  (s.dropWhile isspace).dropWhile (fun c => !isspace c)

/-! ## Alias store -/

/-- Modelled from the spec: `hash_map.c` is not among the sources.  The alias
store is a mapping from string keys to string values with unique keys. -/
abbrev HashMap := List (List Char × List Char)

/-- Modelled from the spec: `hm_get` returns the value registered for the key,
or NULL. -/
def hm_get (m : HashMap) (key : List Char) : Option (List Char) :=
  (m.find? (fun kv => kv.1 = key)).map (fun kv => kv.2)

/-- Modelled from the spec: `hm_delete` removes the mapping of the key; a key
that is not registered is not an error. -/
def hm_delete (m : HashMap) (key : List Char) : HashMap :=
  m.filter (fun kv => kv.1 ≠ key)

/-- Modelled from the spec: `hm_put` defines or overwrites the mapping of the key
(last write wins). -/
def hm_put (m : HashMap) (key value : List Char) : HashMap :=
  (key, value) :: hm_delete m key

/-- Byte-wise order of `strcmp`: `a` sorts before or with `b`. -/
def cstr_le : List Char → List Char → Bool
  | [], _ => true
  | _ :: _, [] => false
  | a :: as, b :: bs => a.toNat < b.toNat || (a = b && cstr_le as bs)

/-- Insertion of one mapping into a key-sorted list. -/
def insert_by_key (kv : List Char × List Char) :
    List (List Char × List Char) → List (List Char × List Char)
  | [] => [kv]
  | x :: xs => if cstr_le kv.1 x.1 then kv :: x :: xs else x :: insert_by_key kv xs

/-- Modelled from the spec: `hm_print_sorted` lists all mappings, one per line,
sorted by key.  The result is the list of mappings in the order printed. -/
def hm_print_sorted (m : HashMap) : List (List Char × List Char) :=
  m.foldr insert_by_key []

/-! ## Dynamic array (`dynamic_array.c`) -/

/-- A `char *` value held in a slot or returned by `da_get`. -/
inductive Ptr where
  | null
  | wild
  | str (s : List Char)
deriving DecidableEq, Repr

/-- `struct DynamicArray`: `data` lists the slots of the allocated block; a slot
that was never written holds `Ptr.wild`. -/
structure DynamicArray where
  data : List Ptr
  size : Nat
  capacity : Nat
deriving DecidableEq, Repr

/-- `realloc(data, sizeof(char *) * n)`: the first `n` slots are kept, new slots
are indeterminate. -/
def realloc_slots (data : List Ptr) (n : Nat) : List Ptr :=
  (data ++ List.replicate (n - data.length) Ptr.wild).take n

/-- `da_create(init_capacity)`. -/
def da_create (init_capacity : Nat) : DynamicArray :=
  { data := List.replicate init_capacity Ptr.wild, size := 0, capacity := init_capacity }

/-- `da_put(da, val)` when the store `data[size] = strdup(val)` lies inside the
block, which is the case for every array that starts from a positive capacity.
Where the store lies outside the block the C code has no defined behaviour:
`da_put_checked` tells that case apart, and this function describes the call only
where the store lies inside the block. -/
def da_put (da : DynamicArray) (val : List Char) : DynamicArray :=
  let capacity := if da.size = da.capacity then da.capacity * 2 else da.capacity
  let data := if da.size = da.capacity then realloc_slots da.data capacity else da.data
  { data := data.set da.size (Ptr.str val), size := da.size + 1, capacity := capacity }

/-- `da_put(da, val)` with the store checked against the block: `none` when
`data[size]` lies outside the block that `realloc` returned (the doubling of a
capacity 0 gives a block of 0 slots), where the call has no defined result. -/
def da_put_checked (da : DynamicArray) (val : List Char) : Option DynamicArray :=
  let capacity := if da.size = da.capacity then da.capacity * 2 else da.capacity
  let data := if da.size = da.capacity then realloc_slots da.data capacity else da.data
  if da.size < data.length then
    some { data := data.set da.size (Ptr.str val), size := da.size + 1, capacity := capacity }
  else none

/-- `da_get(da, ind)`: the content of slot `ind`, whatever `size` is.  A read
outside the allocated block yields `Ptr.wild`. -/
def da_get (da : DynamicArray) (ind : Nat) : Ptr :=
  da.data.getD ind Ptr.wild

/-- The loop `for (i = ind; i < bound; i++) data[i] = data[i + 1];` run for `n`
rounds from index `i`. -/
def shift_down (data : List Ptr) : Nat → Nat → List Ptr
  | _, 0 => data
  | i, n + 1 => shift_down (data.set i (data.getD (i + 1) Ptr.wild)) (i + 1) n

/-- `da_delete(da, ind)`.  The freed slot holds a dangling pointer (`Ptr.wild`)
until the loop overwrites it; `da->size - 1` is computed in `size_t` (64 bits).
Stores outside the allocated block are dropped, so the rounds at indices beyond
the block are not run; with an index below the size every access lies inside the
block, and the function describes the call there. -/
def da_delete (da : DynamicArray) (ind : Nat) : DynamicArray :=
  let bound := (da.size + 2 ^ 64 - 1) % 2 ^ 64
  let data := shift_down (da.data.set ind Ptr.wild) ind (min bound da.data.length - ind)
  { data := data, size := bound, capacity := da.capacity }

/-! ## Session state and operating system -/

/-- What `waitpid` stores in the status word. -/
inductive WaitStatus where
  | exited (code : Nat)
  | signaled (sig : Nat)
deriving DecidableEq, Repr

/-- `WIFEXITED(status) && WEXITSTATUS(status) == 0`. -/
def WaitStatus.ok : WaitStatus → Bool
  | .exited 0 => true
  | _ => false

/-- Answers of the operating system.  `access_x cwd path` is
`access(path, X_OK) == 0`; `chdir cwd dir` is the new working directory when
`chdir(dir)` succeeds; `pipe_ok k`, `fork_ok i` tell whether the k-th `pipe` and the
i-th `fork` of the current line succeed; `wait_fails i` whether the i-th `waitpid`
returns -1 and `wait_status i` the status word it leaves. -/
structure OS where
  access_x : List Char → List Char → Bool
  chdir : List Char → List Char → Option (List Char)
  pipe_ok : Nat → Bool
  fork_ok : Nat → Bool
  wait_fails : Nat → Bool
  wait_status : Nat → WaitStatus

/-- File descriptors that occur in the pipeline plumbing. -/
inductive Fd where
  | stdin
  | stdout
  | pipe_r (k : Nat)
  | pipe_w (k : Nat)
deriving DecidableEq, Repr

/-- How a process image ends: `_exit(code)`, `clean_exit(code)` or a call of
`execv(path, argv)`. -/
inductive ProcEnd where
  | _exit (code : Nat)
  | clean_exit (code : Int)
  | execv (path : List Char) (argv : List (List Char))
deriving DecidableEq, Repr

/-- What a forked child does, in order. -/
inductive ChildOp where
  | dup2 (src dst : Fd)
  | close (fd : Fd)
  | run (argv : List (List Char)) (fin : ProcEnd)
deriving DecidableEq, Repr

/-- Process-level calls of the shell process: `pipe k` is the successful creation
of pipe `k`, `fork i none` a failed fork, `fork i (some ops)` a fork whose child
performs `ops`. -/
inductive Sys where
  | pipe (k : Nat)
  | fork (i : Nat) (child : Option (List ChildOp))
  | close (fd : Fd)
  | waitpid (i : Nat)
deriving DecidableEq, Repr

/-- One `printf` on standard output. -/
inductive OutItem where
  | text (s : List Char)
  | alias_line (key value : List Char)
  | bad_read
deriving DecidableEq, Repr

/-- The globals `rc`, `alias_hm`, `history_da`, `suppress_history`, the process
attributes the builtins touch, the two output streams and the call trace. -/
structure Shell where
  rc : Int
  alias_hm : HashMap
  history_da : DynamicArray
  suppress_history : Int
  cwd : List Char
  env_PATH : Option (List Char)
  env_HOME : Option (List Char)
  out : List OutItem
  err : List (List Char)
  trace : List Sys
deriving DecidableEq, Repr

def EXIT_SUCCESS : Int := 0

def EXIT_FAILURE : Int := 1

def MAX_PIPE_CMDS : Nat := 128

/-- Modelled from the spec: `wsh.h` is not among the sources; the text of
`MISSING_CLOSING_QUOTE` is taken from §4.1 ("missing closing quote"). -/
def MISSING_CLOSING_QUOTE : List Char := "Missing closing quote\n".toList

/-- One write to standard output. -/
def Shell.print (sh : Shell) (item : OutItem) : Shell :=
  { sh with out := sh.out ++ [item] }

/-- One `fprintf(stderr, ...)` or `perror(...)`; for `perror` only the tag is kept. -/
def Shell.eprint (sh : Shell) (msg : List Char) : Shell :=
  { sh with err := sh.err ++ [msg] }

/-- One process-level call appended to the trace. -/
def Shell.log (sh : Shell) (e : Sys) : Shell :=
  { sh with trace := sh.trace ++ [e] }

/-- `printf("%s\n", p)`. -/
def printf_line (p : Ptr) : OutItem :=
  match p with
  | Ptr.str s => OutItem.text (s ++ ['\n'])
  | _ => OutItem.bad_read

/-- `wsh_warn(msg)`: print to stderr and set `rc`. -/
def wsh_warn (msg : List Char) (sh : Shell) : Shell :=
  { sh.eprint msg with rc := EXIT_FAILURE }

/-- `parseline_no_subst` together with its effect on the session. -/
def parseline (cmdline : List Char) (sh : Shell) : List (List Char) × Shell :=
  let r := parseline_no_subst cmdline
  (r.argv, if r.warned then wsh_warn MISSING_CLOSING_QUOTE sh else sh)

/-! ## Command classification and path search -/

/-- `builtin_is_builtin_name(name)`. -/
def builtin_is_builtin_name (name : List Char) : Bool :=
  name = "exit".toList || name = "cd".toList || name = "path".toList ||
  name = "which".toList || name = "alias".toList || name = "unalias".toList ||
  name = "history".toList

/-- The test `s[0] == '/' || (s[0] == '.' && s[1] == '/')`. -/
def is_path_like : List Char → Bool
  | '/' :: _ => true
  | '.' :: '/' :: _ => true
  | _ => false

/-- `snprintf(buf, 1024, "%s/%s", dir, cmd)`. -/
def join_path (dir cmd : List Char) : List Char :=
  (dir ++ '/' :: cmd).take 1023

/-- `find_in_path(cmd, out, 1024)`: the first candidate that is executable. -/
def find_in_path (os : OS) (sh : Shell) (cmd : List Char) : Option (List Char) :=
  match sh.env_PATH with
  | none => none
  | some path =>
    ((strtok_all ':' path).map (fun dir => join_path dir cmd)).find?
      (fun buf => os.access_x sh.cwd buf)

/-- `command_exists(argv)`. -/
def command_exists (os : OS) (sh : Shell) (argv : List (List Char)) : Bool :=
  match argv with
  | [] => false
  | [] :: _ => false
  | a0 :: _ =>
    if builtin_is_builtin_name a0 then true
    else if is_path_like a0 then os.access_x sh.cwd a0
    else (find_in_path os sh a0).isSome

/-- `execute_external_command(argv)`: how the calling process ends. -/
def execute_external_command (os : OS) (sh : Shell) (argv : List (List Char)) : ProcEnd :=
  let cmd := argv.headD []
  if is_path_like cmd then
    if os.access_x sh.cwd cmd then ProcEnd.execv cmd argv else ProcEnd._exit 127
  else
    match sh.env_PATH with
    | none => ProcEnd._exit 127
    | some path =>
      if path.length = 0 then ProcEnd._exit 127
      else
        match ((strtok_all ':' path).map (fun dir => join_path dir cmd)).find?
            (fun full => os.access_x sh.cwd full) with
        | some full => ProcEnd.execv full argv
        | none => ProcEnd._exit 127

/-! ## Builtins -/

def USAGE_CD : List Char :=
  "Incorrect usage of cd. Correct format: cd | cd directory\n".toList

def USAGE_PATH : List Char :=
  "Incorrect usage of path. Correct format: path dir1:dir2:...:dirN\n".toList

def USAGE_WHICH : List Char :=
  "Incorrect usage of which. Correct format: which name\n".toList

def USAGE_ALIAS : List Char :=
  "Incorrect usage of alias. Correct format: alias | alias name = 'command'\n".toList

def USAGE_UNALIAS : List Char :=
  "Incorrect usage of unalias. Correct format: unalias name\n".toList

def USAGE_HISTORY : List Char :=
  "Incorrect usage of history. Correct format: history | history n\n".toList

/-- `built_in_cd(argc, argv)`. -/
def built_in_cd (os : OS) (argv : List (List Char)) (sh : Shell) : Int × Shell :=
  if argv.length > 2 then (EXIT_FAILURE, sh.eprint USAGE_CD)
  else
    let dir : Option (List Char) := if argv.length = 1 then sh.env_HOME else some (argv.getD 1 [])
    match dir with
    | none => (EXIT_FAILURE, sh.eprint "cd: HOME not set\n".toList)
    | some d =>
      match os.chdir sh.cwd d with
      | none => (EXIT_FAILURE, sh.eprint "cd".toList)
      | some cwd => (EXIT_SUCCESS, { sh with cwd := cwd })

/-- `built_in_path(argc, argv)`; `setenv` is taken to succeed. -/
def built_in_path (argv : List (List Char)) (sh : Shell) : Int × Shell :=
  if argv.length > 2 then (EXIT_FAILURE, sh.eprint USAGE_PATH)
  else if argv.length = 1 then
    match sh.env_PATH with
    | some path => (EXIT_SUCCESS, sh.print (OutItem.text (path ++ ['\n'])))
    | none => (EXIT_SUCCESS, sh.print (OutItem.text ['\n']))
  else (EXIT_SUCCESS, { sh with env_PATH := some (argv.getD 1 []) })

/-- `builtin_which(argc, argv)`. -/
def builtin_which (os : OS) (argv : List (List Char)) (sh : Shell) : Int × Shell :=
  if argv.length ≠ 2 then (EXIT_FAILURE, sh.eprint USAGE_WHICH)
  else
    let name := argv.getD 1 []
    match hm_get sh.alias_hm name with
    | some aval =>
      (EXIT_SUCCESS,
        sh.print (OutItem.text (name ++ ": aliased to '".toList ++ aval ++ "'\n".toList)))
    | none =>
      if builtin_is_builtin_name name then
        (EXIT_SUCCESS, sh.print (OutItem.text (name ++ ": wsh builtin\n".toList)))
      else if is_path_like name then
        if os.access_x sh.cwd name then
          (EXIT_SUCCESS,
            sh.print (OutItem.text (name ++ ": found at ".toList ++ name ++ ['\n'])))
        else (EXIT_FAILURE, sh.print (OutItem.text (name ++ ": not found\n".toList)))
      else
        match find_in_path os sh name with
        | some full =>
          (EXIT_SUCCESS,
            sh.print (OutItem.text (name ++ ": found at ".toList ++ full ++ ['\n'])))
        | none => (EXIT_FAILURE, sh.print (OutItem.text (name ++ ": not found\n".toList)))

/-- Modelled from the spec: `utils.c` is not among the sources; `append(a, b)`
is the concatenation used to rejoin the words of an alias value. -/
def append (a b : List Char) : List Char := a ++ b

/-- The value built by `val = strdup(argv[3])` and the loop over `argv[4..argc)`. -/
def alias_join (first : List Char) (more : List (List Char)) : List Char :=
  more.foldl (fun val w => append (append val [' ']) w) first

/-- The step "if the whole value is wrapped in single quotes, strip them". -/
def alias_strip (val : List Char) : List Char :=
  if val.length ≥ 2 ∧ val.head? = some '\'' ∧ val.getLast? = some '\'' then
    (val.drop 1).dropLast
  else val

/-- `builtin_alias(argc, argv)`.  The read of the last character of an empty last
word lies outside the string; it is taken not to be a quote. -/
def builtin_alias (argv : List (List Char)) (sh : Shell) : Int × Shell :=
  if argv.length = 1 then
    (EXIT_SUCCESS,
      { sh with out := sh.out ++
          (hm_print_sorted sh.alias_hm).map (fun kv => OutItem.alias_line kv.1 kv.2) })
  else if argv.length < 3 then (EXIT_FAILURE, sh.eprint USAGE_ALIAS)
  else if argv.getD 2 [] ≠ "=".toList ∨ argv.getD 1 [] = "=".toList then
    (EXIT_FAILURE, sh.eprint USAGE_ALIAS)
  else if argv.length = 3 then
    (EXIT_SUCCESS, { sh with alias_hm := hm_put sh.alias_hm (argv.getD 1 []) [] })
  else
    let val := alias_join (argv.getD 3 []) (argv.drop 4)
    if argv.length > 4 ∧
        ((argv.getD 3 []).head? ≠ some '\'' ∨
          (argv.getD (argv.length - 1) []).getLast? ≠ some '\'') then
      (EXIT_FAILURE, sh.eprint USAGE_ALIAS)
    else
      (EXIT_SUCCESS, { sh with alias_hm := hm_put sh.alias_hm (argv.getD 1 []) (alias_strip val) })

/-- `builtin_unalias(argc, argv)`. -/
def builtin_unalias (argv : List (List Char)) (sh : Shell) : Int × Shell :=
  if argv.length ≠ 2 then (EXIT_FAILURE, sh.eprint USAGE_UNALIAS)
  else (EXIT_SUCCESS, { sh with alias_hm := hm_delete sh.alias_hm (argv.getD 1 []) })

/-- `builtin_history(argc, argv)`. -/
def builtin_history (argv : List (List Char)) (sh : Shell) : Int × Shell :=
  let effective := if sh.history_da.size > 0 then sh.history_da.size - 1 else 0
  if argv.length = 1 then
    (EXIT_SUCCESS,
      { sh with out := sh.out ++
          (List.range effective).map (fun i => printf_line (da_get sh.history_da i)) })
  else if argv.length ≠ 2 then (EXIT_FAILURE, sh.eprint USAGE_HISTORY)
  else
    let (n, endptr) := strtol (argv.getD 1 [])
    if endptr ≠ [] ∨ n < 1 ∨ n > (sh.history_da.size : Int) then
      (EXIT_FAILURE, sh.eprint "Invalid argument passed to history\n".toList)
    else
      (EXIT_SUCCESS, sh.print (printf_line (da_get sh.history_da (n - 1).toNat)))

/-! ## Pipelines -/

/-- The scan of `split_pipeline`: `in_single` is the quote flag, `cur` the text
since `seg_start`, `segs` the segments stored so far.  `none` is the return
value -1. -/
def split_loop (max_segs : Nat) :
    List Char → Bool → List Char → List (List Char) → Option (List (List Char))
  | [], _, cur, segs =>
    if segs.length ≥ max_segs then none else some (segs ++ [cur])
  | c :: rest, in_single, cur, segs =>
    let in_single := if c = '\'' then !in_single else in_single
    if c = '|' ∧ in_single = false then
      if segs.length ≥ max_segs then none
      else split_loop max_segs rest in_single [] (segs ++ [cur])
    else split_loop max_segs rest in_single (cur ++ [c]) segs

/-- `split_pipeline(line, segments, max_segs)`: the segments stored, their number
being the return value; `none` is the return value -1. -/
def split_pipeline (line : List Char) (max_segs : Nat) : Option (List (List Char)) :=
  split_loop max_segs line false [] []

/-- `expand_alias_for_segment(segment)`. -/
def expand_alias_for_segment (segment : List Char) (sh : Shell) : List Char × Shell :=
  match parseline segment sh with
  | ([], sh1) => (segment, sh1)
  | (a0 :: _, sh1) =>
    match hm_get sh1.alias_hm a0 with
    | none => (segment, sh1)
    | some aval => (aval ++ skip_first_word segment, sh1)

/-- `exec_one_command(argc, argv)` in a forked child whose copy of the session
is `sh`: how the child ends. -/
def exec_one_command (os : OS) (argv : List (List Char)) (sh : Shell) : ProcEnd :=
  match argv with
  | [] => ProcEnd._exit 127
  | a0 :: _ =>
    if builtin_is_builtin_name a0 then
      let code : Int :=
        if a0 = "cd".toList then (built_in_cd os argv sh).1
        else if a0 = "path".toList then (built_in_path argv sh).1
        else if a0 = "which".toList then (builtin_which os argv sh).1
        else if a0 = "alias".toList then (builtin_alias argv sh).1
        else if a0 = "unalias".toList then (builtin_unalias argv sh).1
        else if a0 = "history".toList then (builtin_history argv sh).1
        else if a0 = "exit".toList then EXIT_SUCCESS
        else EXIT_FAILURE
      ProcEnd._exit (if code = EXIT_SUCCESS then 0 else 1)
    else execute_external_command os sh argv

/-- Flags and vectors left by the validation loop of `run_pipeline`. -/
structure Prep where
  empty_seg : Bool
  invalid : Bool
  argvs : List (List (List Char))
deriving DecidableEq, Repr

/-- The first loop of `run_pipeline` over the raw segments still to visit. -/
def prep_loop (os : OS) :
    List (List Char) → Shell → Bool → List (List (List Char)) → Prep × Shell
  | [], sh, invalid, argvs => (⟨false, invalid, argvs⟩, sh)
  | seg :: rest, sh, invalid, argvs =>
    let raw := trim_inplace seg
    if raw = [] then (⟨true, invalid, argvs⟩, sh)
    else
      match expand_alias_for_segment raw sh with
      | (expanded, sh1) =>
        match parseline expanded sh1 with
        | ([], sh2) => (⟨true, invalid, argvs⟩, sh2)
        | (a0 :: args, sh2) =>
          if command_exists os sh2 (a0 :: args) then
            prep_loop os rest sh2 invalid (argvs ++ [a0 :: args])
          else
            prep_loop os rest
              (sh2.eprint ("Command not found or not an executable: ".toList ++ a0 ++ ['\n']))
              true (argvs ++ [a0 :: args])

/-- The loop creating the `n - 1` pipes, from pipe `k` on.  The flag tells whether
every `pipe` call succeeded; on the first failure the loop stops after `perror`. -/
def make_pipes (os : OS) : Nat → Nat → Shell → Bool × Shell
  | 0, _, sh => (true, sh)
  | m + 1, k, sh =>
    if os.pipe_ok k then make_pipes os m (k + 1) (sh.log (Sys.pipe k))
    else (false, sh.eprint "pipe".toList)

/-- Both ends of pipes `0 .. m-1`, in the order the closing loops visit them. -/
def pipe_fds (m : Nat) : List Fd :=
  (List.range m).flatMap (fun k => [Fd.pipe_r k, Fd.pipe_w k])

/-- What child `i` of `n` does after `fork` returned 0. -/
def child_ops (os : OS) (sh : Shell) (n i : Nat) (argv : List (List Char)) : List ChildOp :=
  (if i > 0 then [ChildOp.dup2 (Fd.pipe_r (i - 1)) Fd.stdin] else []) ++
  (if i < n - 1 then [ChildOp.dup2 (Fd.pipe_w i) Fd.stdout] else []) ++
  (pipe_fds (n - 1)).map ChildOp.close ++
  [ChildOp.run argv (exec_one_command os argv sh)]

/-- The fork loop, from child `i` on. -/
def fork_loop (os : OS) (n : Nat) : List (List (List Char)) → Nat → Shell → Shell
  | [], _, sh => sh
  | argv :: rest, i, sh =>
    if os.fork_ok i then
      fork_loop os n rest (i + 1) (sh.log (Sys.fork i (some (child_ops os sh n i argv))))
    else
      fork_loop os n rest (i + 1) ((sh.eprint "fork".toList).log (Sys.fork i none))

/-- `run_pipeline(line)`: the return value and the session afterwards. -/
def run_pipeline (os : OS) (line : List Char) (sh : Shell) : Int × Shell :=
  match split_pipeline line MAX_PIPE_CMDS with
  | none => (EXIT_FAILURE, sh.eprint "Empty command segment in pipeline\n".toList)
  | some segs =>
    if segs.length = 1 then (-2, sh)
    else
      match prep_loop os segs sh false [] with
      | (prep, sh1) =>
        if prep.empty_seg then
          (EXIT_FAILURE, sh1.eprint "Empty command segment in pipeline\n".toList)
        else if prep.invalid then (EXIT_FAILURE, sh1)
        else
          let n := segs.length
          match make_pipes os (n - 1) 0 sh1 with
          | (false, sh2) => (EXIT_FAILURE, sh2)
          | (true, sh2) =>
            let sh3 := fork_loop os n prep.argvs 0 sh2
            let sh4 := { sh3 with trace := sh3.trace ++ (pipe_fds (n - 1)).map Sys.close ++
                            (List.range n).map Sys.waitpid }
            let status := os.wait_status (n - 1)
            (if status.ok then EXIT_SUCCESS else EXIT_FAILURE, sh4)

/-! ## Command processing -/

/-- The quote-aware scan for `|` in `process_command`. -/
def has_bar_loop : List Char → Bool → Bool
  | [], _ => false
  | c :: rest, in_single =>
    if c = '\'' then has_bar_loop rest (!in_single)
    else if c = '|' ∧ in_single = false then true
    else has_bar_loop rest in_single

/-- The flag `has_bar`. -/
def has_bar (line : List Char) : Bool := has_bar_loop line false

/-- The statement `if (!suppress_history) da_put(history_da, line);`. -/
def log_history (line : List Char) (sh : Shell) : Shell :=
  if sh.suppress_history = 0 then { sh with history_da := da_put sh.history_da line } else sh

/-- How a call of `process_command` ends: it returns, or the process terminates
through `clean_exit(code)`. -/
inductive Outcome where
  | returned (sh : Shell)
  | exited (code : Int) (sh : Shell)
deriving DecidableEq, Repr

/-- The fork-and-wait tail of `process_command` for an external command. -/
def run_external (os : OS) (argv : List (List Char)) (sh : Shell) : Shell :=
  if os.fork_ok 0 then
    let sh1 := (sh.log (Sys.fork 0
      (some [ChildOp.run argv (execute_external_command os sh argv)]))).log (Sys.waitpid 0)
    if os.wait_fails 0 then { sh1.eprint "waitpid".toList with rc := EXIT_FAILURE }
    else if (os.wait_status 0).ok then { sh1 with rc := EXIT_SUCCESS }
    else { sh1 with rc := EXIT_FAILURE }
  else { (sh.eprint "fork".toList).log (Sys.fork 0 none) with rc := EXIT_FAILURE }

/-- `process_command(cmdline)` for a non-NULL `cmdline`.  The fuel bounds the
depth of the re-entry through alias expansion; `none` means the depth was
exceeded. -/
def process_command (os : OS) : Nat → List Char → Shell → Option Outcome
  | 0, _, _ => none
  | fuel + 1, cmdline, sh =>
    let line := trim_whitespace cmdline
    if line.length = 0 then some (Outcome.returned sh)
    else
      match parseline line sh with
      | ([], sh1) => some (Outcome.returned sh1)
      | (a0 :: args, sh1) =>
        if has_bar line then
          match run_pipeline os line (log_history line sh1) with
          | (res, sh2) =>
            some (Outcome.returned { sh2 with rc := if res = -2 then sh2.rc else res })
        else
          let sh2 := log_history line sh1
          let argv := a0 :: args
          if a0 = "exit".toList then
            if argv.length > 1 then
              some (Outcome.returned
                { sh2.eprint "Incorrect usage of exit. Too many arguments\n".toList with
                  rc := EXIT_FAILURE })
            else some (Outcome.exited sh2.rc sh2)
          else if a0 = "cd".toList then
            match built_in_cd os argv sh2 with
            | (code, sh3) => some (Outcome.returned { sh3 with rc := code })
          else if a0 = "path".toList then
            match built_in_path argv sh2 with
            | (code, sh3) => some (Outcome.returned { sh3 with rc := code })
          else if a0 = "which".toList then
            match builtin_which os argv sh2 with
            | (code, sh3) => some (Outcome.returned { sh3 with rc := code })
          else if a0 = "alias".toList then
            match builtin_alias argv sh2 with
            | (code, sh3) => some (Outcome.returned { sh3 with rc := code })
          else if a0 = "unalias".toList then
            match builtin_unalias argv sh2 with
            | (code, sh3) => some (Outcome.returned { sh3 with rc := code })
          else if a0 = "history".toList then
            match builtin_history argv sh2 with
            | (code, sh3) => some (Outcome.returned { sh3 with rc := code })
          else
            match hm_get sh2.alias_hm a0 with
            | some aval =>
              match process_command os fuel (aval ++ skip_first_word line)
                  { sh2 with suppress_history := sh2.suppress_history + 1 } with
              | none => none
              | some (Outcome.exited code sh3) => some (Outcome.exited code sh3)
              | some (Outcome.returned sh3) =>
                some (Outcome.returned
                  { sh3 with suppress_history := sh3.suppress_history - 1 })
            | none => some (Outcome.returned (run_external os argv sh2))

/-- The session `main` sets up before the first line is read. -/
def initial_shell (cwd : List Char) (home : Option (List Char)) : Shell :=
  { rc := 0, alias_hm := [], history_da := da_create 10, suppress_history := 0,
    cwd := cwd, env_PATH := some "/bin".toList, env_HOME := home,
    out := [], err := [], trace := [] }


/-! ## Specification-side vocabulary for the tokenizer claims -/

/-- A word as it is written on a line: its text and whether it is wrapped in
single quotes (`true`) or written bare (`false`). -/
def render_word (w : List Char × Bool) : List Char :=
  if w.2 then '\'' :: w.1 ++ ['\''] else w.1

/-- The written words joined by single spaces. -/
def render_line : List (List Char × Bool) → List Char
  | [] => []
  | [w] => render_word w
  | w :: v :: ws => render_word w ++ ' ' :: render_line (v :: ws)

/-- Every written word followed by one space, and then the text `t`. -/
def words_then : List (List Char × Bool) → List Char → List Char
  | [], t => t
  | w :: ws, t => render_word w ++ ' ' :: words_then ws t

/-- A word that can be written: its text holds no single quote, and it is written
bare only when it is non-empty and holds neither a space nor a newline. -/
def word_ok (w : List Char × Bool) : Prop :=
  '\'' ∉ w.1 ∧ (w.2 = false → w.1 ≠ [] ∧ ' ' ∉ w.1 ∧ '\n' ∉ w.1)

instance (w : List Char × Bool) : Decidable (word_ok w) := by
  unfold word_ok; infer_instance

/-- The maximal runs of non-space characters of a text, in order. -/
def space_runs (s : List Char) : List (List Char) :=
  (s.splitOn ' ').filter (fun t => t ≠ [])

/-- The text with one trailing newline, if present, replaced by a space. -/
def newline_as_space (s : List Char) : List Char :=
  if s.getLast? = some '\n' then s.dropLast ++ [' '] else s

/-! ## Specification-side vocabulary for the pipeline claims -/

/-- The text holds an odd number of single quotes. -/
def quote_odd (s : List Char) : Bool :=
  decide (s.count '\'' % 2 = 1)

/-- The number of pipe characters of the line that are preceded by an even number
of single quotes. -/
def unquoted_pipes (line : List Char) : Nat :=
  (List.range line.length).countP
    (fun i => decide (line.getD i ' ' = '|') && !quote_odd (line.take i))

/-- The segments joined with `|`. -/
def join_bar : List (List Char) → List Char
  | [] => []
  | [s] => s
  | s :: t :: ts => s ++ '|' :: join_bar (t :: ts)

/-- The pieces into which a text falls at its pipes read outside quotes, when the
scan starts with quote flag `q`. -/
def pieces_from : Bool → List Char → List (List Char)
  | _, [] => [[]]
  | q, c :: rest =>
    if c = '\'' then (pieces_from (!q) rest).modifyHead (fun s => c :: s)
    else if c = '|' ∧ q = false then [] :: pieces_from q rest
    else (pieces_from q rest).modifyHead (fun s => c :: s)

/-- The number of pipes of a text read outside quotes, when the scan starts with
quote flag `q`. -/
def pipes_from (q : Bool) (rest : List Char) : Nat :=
  (List.range rest.length).countP
    (fun i => decide (rest.getD i ' ' = '|') && !(q != quote_odd (rest.take i)))

/-- The command vector `run_pipeline` builds for one raw segment: trim, one
alias expansion, tokenize. -/
def stage_argv (sh : Shell) (seg : List Char) : List (List Char) :=
  (parseline (expand_alias_for_segment (trim_inplace seg) sh).1 sh).1

/-- Two sessions that differ at most in `rc` and in the diagnostics printed. -/
def diag_eq (a b : Shell) : Prop :=
  { a with rc := 0, err := [] } = { b with rc := 0, err := [] }

/-- A system for the examples: exactly the listed paths are executable, `chdir`
fails, every `pipe`, `fork` and `waitpid` succeeds, and the i-th `waitpid` leaves
the i-th listed status (a normal exit with code 0 beyond the list). -/
def example_os (execs : List (List Char)) (statuses : List WaitStatus) : OS :=
  { access_x := fun _ path => decide (path ∈ execs),
    chdir := fun _ _ => none,
    pipe_ok := fun _ => true,
    fork_ok := fun _ => true,
    wait_fails := fun _ => false,
    wait_status := fun i => statuses.getD i (WaitStatus.exited 0) }

/-- The stage numbers of the children a trace records as forked, in order. -/
def spawned (tr : List Sys) : List Nat :=
  tr.filterMap (fun e =>
    match e with
    | Sys.fork i (some _) => some i
    | _ => none)

/-- The function applied to the last element of a list. -/
def map_last {α : Type} (f : α → α) : List α → List α
  | [] => []
  | [x] => [f x]
  | x :: y :: l => x :: map_last f (y :: l)

/-- The array holds exactly the given entries: `size` is their number and the
slots below `size` point to them, in order. -/
def da_holds (da : DynamicArray) (entries : List (List Char)) : Prop :=
  da.size = entries.length ∧ da.data.take da.size = entries.map Ptr.str

instance (da : DynamicArray) (entries : List (List Char)) : Decidable (da_holds da entries) := by
  unfold da_holds; infer_instance

/-- The loop of `batch_main` and `interactive_main`: each line read is handed to
`process_command`, until one of them terminates the process. -/
def run_lines (os : OS) (fuel : Nat) : List (List Char) → Shell → Option Outcome
  | [], sh => some (Outcome.returned sh)
  | l :: ls, sh =>
    match process_command os fuel l sh with
    | some (Outcome.returned sh1) => run_lines os fuel ls sh1
    | r => r

/-- What standard output holds when the processing returns. -/
def output_after (r : Option Outcome) : Option (List OutItem) :=
  match r with
  | some (Outcome.returned sh) => some sh.out
  | _ => none

/-! ## Specification-side vocabulary for the builtin claims -/

/-- A decimal digit. -/
def is_digit (c : Char) : Bool :=
  decide ('0' ≤ c ∧ c ≤ '9')

/-- The word is a decimal integer: an optional sign followed by one or more
decimal digits, and nothing else. -/
def is_decimal (w : List Char) : Bool :=
  match w with
  | '-' :: r => !r.isEmpty && r.all is_digit
  | '+' :: r => !r.isEmpty && r.all is_digit
  | r => !r.isEmpty && r.all is_digit

/-- The number a string of decimal digits denotes. -/
def decimal_value (digits : List Char) : Nat :=
  digits.foldl (fun acc c => acc * 10 + (c.toNat - '0'.toNat)) 0

/-- The entry number `history` reads from its argument word: leading whitespace
and one plus sign are passed over, and what follows must be one or more decimal
digits up to the end of the word. -/
def history_index (w : List Char) : Option Nat :=
  let digits :=
    match w.dropWhile isspace with
    | '+' :: r => r
    | r => r
  if digits ≠ [] ∧ digits.all is_digit = true then some (decimal_value digits) else none

/-- The value of `rc` when the processing returns. -/
def status_after (r : Option Outcome) : Option Int :=
  match r with
  | some (Outcome.returned sh) => some sh.rc
  | _ => none

/-- The directories of the colon-separated `PATH`, in listed order: its non-empty
fields; none when `PATH` is unset. -/
def path_dirs (path : Option (List Char)) : List (List Char) :=
  match path with
  | none => []
  | some p => (p.splitOn ':').filter (fun d => d ≠ [])

/-- The word begins with `/` or with `./`. -/
def path_prefixed (w : List Char) : Prop :=
  w.take 1 = ['/'] ∨ w.take 2 = ['.', '/']

instance (w : List Char) : Decidable (path_prefixed w) := by
  unfold path_prefixed; infer_instance

/-- The candidate `d/cmd`, cut to the 1023 bytes its buffer holds. -/
def candidate (d cmd : List Char) : List Char :=
  (d ++ '/' :: cmd).take 1023

/-- The seven builtin names. -/
def builtin_names : List (List Char) :=
  ["exit".toList, "cd".toList, "path".toList, "which".toList, "alias".toList,
    "unalias".toList, "history".toList]

/-! ## Specification-side vocabulary for the history claims -/

/-- The part of the session the history claims speak about: the log and the
suppression counter. -/
def hist_of (sh : Shell) : DynamicArray × Int :=
  (sh.history_da, sh.suppress_history)

/-- The array is in a state `da_create` with a positive capacity and `da_put`
lead to: the block has `capacity` slots, `capacity` is positive and `size` does
not exceed it. -/
def da_wf (da : DynamicArray) : Prop :=
  da.data.length = da.capacity ∧ 0 < da.capacity ∧ da.size ≤ da.capacity

instance (da : DynamicArray) : Decidable (da_wf da) := by
  unfold da_wf; infer_instance

/-- The session `main` sets up, in directory `/` without `HOME`, with the given
alias store. -/
def alias_session (aliases : HashMap) : Shell :=
  { initial_shell "/".toList none with alias_hm := aliases }

/-- A word as the tokenizer can meet it before the end of a line: written in
quotes, its text holds no single quote; written bare, it is non-empty, holds no
space and does not begin with a single quote (a quote further on is allowed). -/
def written_ok (w : List Char × Bool) : Prop :=
  if w.2 then '\'' ∉ w.1 else w.1 ≠ [] ∧ ' ' ∉ w.1 ∧ w.1.head? ≠ some '\''

instance (w : List Char × Bool) : Decidable (written_ok w) := by
  unfold written_ok; infer_instance

/-! ## Specification-side vocabulary for the dynamic array claims -/

/-- The array after `da_create(init_capacity)` and one `da_put` for each value,
in order. -/
def da_puts (init_capacity : Nat) (vals : List (List Char)) : DynamicArray :=
  vals.foldl da_put (da_create init_capacity)

/-- The same sequence of calls with every store checked against the block: `none`
as soon as one store lies outside it. -/
def da_puts_checked (init_capacity : Nat) (vals : List (List Char)) : Option DynamicArray :=
  vals.foldlM da_put_checked (da_create init_capacity)

/-! ## Specification-side vocabulary for the pipe wiring claim -/

/-- The pipes a trace records as created, in order. -/
def pipes_made (tr : List Sys) : List Nat :=
  tr.filterMap (fun e =>
    match e with
    | Sys.pipe k => some k
    | _ => none)

/-! ## Specification-side vocabulary for the alias cycle claim -/

/-- The line the inline expansion of `process_command` re-enters with, for the
alias value `v`: the value followed by what follows the first word of the trimmed
line. -/
def reexpand (v line : List Char) : List Char :=
  v ++ skip_first_word (trim_whitespace line)

/-- A text that can follow a bare name on a line without touching it: it is
empty or begins with a space, and holds neither quote nor pipe. -/
def tail_ok (t : List Char) : Prop :=
  (t = [] ∨ t.head? = some ' ') ∧ '\'' ∉ t ∧ '|' ∉ t

instance (t : List Char) : Decidable (tail_ok t) := by
  unfold tail_ok; infer_instance

/-! ## Tokenizer: auxiliary facts -/

theorem strchr_some_eq {c : Char} {s a b : List Char} (h : strchr c s = some (a, b)) :
    s = a ++ c :: b ∧ c ∉ a := by
  induction s generalizing a b with
  | nil => simp [strchr] at h
  | cons x xs ih =>
    unfold strchr at h
    by_cases hx : x = c
    · simp [hx] at h
      obtain ⟨rfl, rfl⟩ := h
      simp [hx]
    · simp only [hx, if_false] at h
      cases hr : strchr c xs with
      | none => simp [hr] at h
      | some ab =>
        obtain ⟨a', b'⟩ := ab
        simp [hr] at h
        obtain ⟨rfl, rfl⟩ := h
        obtain ⟨h1, h2⟩ := ih hr
        refine ⟨by rw [h1]; simp, ?_⟩
        simp
        exact ⟨fun e => hx e.symm, h2⟩

theorem strchr_append {c : Char} (a b : List Char) (h : c ∉ a) :
    strchr c (a ++ c :: b) = some (a, b) := by
  induction a with
  | nil => simp [strchr]
  | cons x xs ih =>
    simp at h
    have hx : x ≠ c := fun e => h.1 e.symm
    simp [strchr, hx, ih h.2]

theorem strchr_none {c : Char} {s : List Char} (h : c ∉ s) : strchr c s = none := by
  induction s with
  | nil => rfl
  | cons x xs ih =>
    simp at h
    have hx : x ≠ c := fun e => h.1 e.symm
    simp [strchr, hx, ih h.2]

theorem skip_spaces_length (s : List Char) : (skip_spaces s).length ≤ s.length := by
  induction s with
  | nil => simp [skip_spaces]
  | cons x xs ih =>
    unfold skip_spaces
    split
    · simp; omega
    · simp

theorem skip_spaces_cons_ne {c : Char} (s : List Char) (h : c ≠ ' ') :
    skip_spaces (c :: s) = c :: s := by
  simp [skip_spaces, h]

theorem skip_spaces_cons_space (s : List Char) : skip_spaces (' ' :: s) = skip_spaces s := by
  simp [skip_spaces]

/-- Fuel above the length of the text is never used up. -/
theorem parse_loop_fuel (f1 f2 : Nat) (p : List Char) (acc : List (List Char))
    (h1 : p.length < f1) (h2 : p.length < f2) : parse_loop f1 p acc = parse_loop f2 p acc := by
  induction f1 generalizing f2 p acc with
  | zero => omega
  | succ n ih =>
    cases f2 with
    | zero => omega
    | succ m =>
      cases p with
      | nil => simp [parse_loop]
      | cons c rest =>
        simp only [parse_loop]
        simp only [List.length_cons] at h1 h2
        by_cases hc : c = '\''
        · simp only [hc, if_true]
          cases hr : strchr '\'' rest with
          | none => rfl
          | some tp =>
            obtain ⟨tok, q⟩ := tp
            have := (strchr_some_eq hr).1
            have hl := skip_spaces_length q
            have : rest.length = tok.length + (q.length + 1) := by rw [this]; simp
            simp only
            exact ih _ _ _ (by omega) (by omega)
        · simp only [hc, if_false]
          cases hr : strchr ' ' (c :: rest) with
          | none => rfl
          | some tp =>
            obtain ⟨tok, q⟩ := tp
            have := (strchr_some_eq hr).1
            have hl := skip_spaces_length q
            have : (c :: rest).length = tok.length + (q.length + 1) := by rw [this]; simp
            simp only [List.length_cons] at this
            simp only
            exact ih _ _ _ (by omega) (by omega)

theorem render_word_head (w : List Char × Bool) (hw : word_ok w) :
    ∃ c r, render_word w = c :: r ∧ c ≠ ' ' := by
  obtain ⟨t, q⟩ := w
  cases q with
  | true => exact ⟨'\'', t ++ ['\''], by simp [render_word], by decide⟩
  | false =>
    obtain ⟨_, h2⟩ := hw
    obtain ⟨hne, hsp, _⟩ := h2 rfl
    cases t with
    | nil => exact absurd rfl hne
    | cons c r =>
      refine ⟨c, r, by simp [render_word], ?_⟩
      intro e
      apply hsp
      simp [e]

theorem skip_spaces_words_then (ws : List (List Char × Bool)) (t : List Char)
    (hok : ∀ w ∈ ws, word_ok w) (ht : skip_spaces t = t) :
    skip_spaces (words_then ws t) = words_then ws t := by
  cases ws with
  | nil => simpa [words_then] using ht
  | cons w ws =>
    obtain ⟨c, r, hr, hc⟩ := render_word_head w (hok w (by simp))
    simp only [words_then, hr, List.cons_append]
    exact skip_spaces_cons_ne _ hc

/-- The loop reads the written words one by one and then goes on with `t`. -/
theorem parse_loop_words (ws : List (List Char × Bool)) (t : List Char)
    (hok : ∀ w ∈ ws, word_ok w) (ht : skip_spaces t = t) (acc : List (List Char))
    (f1 f2 : Nat) (h1 : (words_then ws t).length < f1) (h2 : t.length < f2) :
    parse_loop f1 (words_then ws t) acc = parse_loop f2 t (acc ++ ws.map Prod.fst) := by
  induction ws generalizing acc f1 with
  | nil =>
    simp only [words_then, List.map_nil, List.append_nil] at h1 ⊢
    exact parse_loop_fuel _ _ _ _ h1 h2
  | cons w ws ih =>
    have hok' : ∀ v ∈ ws, word_ok v := fun v hv => hok v (by simp [hv])
    have hskip := skip_spaces_words_then ws t hok' ht
    have hw := hok w (by simp)
    obtain ⟨txt, q⟩ := w
    cases f1 with
    | zero => omega
    | succ n =>
      cases q with
      | true =>
        have hnq : '\'' ∉ txt := hw.1
        have e : words_then ((txt, true) :: ws) t
            = '\'' :: (txt ++ '\'' :: ' ' :: words_then ws t) := by
          simp [words_then, render_word]
        have hlen : (words_then ws t).length < n := by
          rw [e] at h1; simp at h1; omega
        rw [e, parse_loop, if_pos rfl, strchr_append txt _ hnq]
        simp only [skip_spaces_cons_space, hskip]
        rw [ih hok' (acc ++ [txt]) n hlen]
        simp
      | false =>
        obtain ⟨hnq, h2'⟩ := hw
        obtain ⟨hne, hsp, _⟩ := h2' rfl
        simp only at hnq hne hsp
        cases txt with
        | nil => exact absurd rfl hne
        | cons c r =>
          have hc : c ≠ '\'' := by
            intro e; apply hnq; simp [e]
          have e : words_then ((c :: r, false) :: ws) t
              = c :: (r ++ ' ' :: words_then ws t) := by
            simp [words_then, render_word]
          have hlen : (words_then ws t).length < n := by
            rw [e] at h1; simp at h1; omega
          rw [e, parse_loop, if_neg hc, ← List.cons_append, strchr_append (c :: r) _ hsp]
          simp only [hskip]
          rw [ih hok' (acc ++ [c :: r]) n hlen]
          simp

theorem render_line_append_space (w : List Char × Bool) (ws : List (List Char × Bool)) :
    render_line (w :: ws) ++ [' '] = words_then (w :: ws) [] := by
  induction ws generalizing w with
  | nil => simp [render_line, words_then]
  | cons v vs ih =>
    simp only [render_line, words_then, List.append_assoc, List.cons_append]
    rw [ih v]
    simp [words_then]

theorem render_word_last (w : List Char × Bool) (hw : word_ok w) :
    (render_word w).getLast? ≠ some '\n' := by
  obtain ⟨t, q⟩ := w
  cases q with
  | true =>
    simp only [render_word, if_true]
    rw [List.getLast?_concat]
    decide
  | false =>
    obtain ⟨_, h2⟩ := hw
    obtain ⟨_, _, hnl⟩ := h2 rfl
    simp only at hnl
    simp only [render_word, Bool.false_eq_true, if_false]
    intro h
    exact hnl (List.mem_of_getLast?_eq_some h)

theorem render_line_last (ws : List (List Char × Bool)) (hok : ∀ w ∈ ws, word_ok w) :
    (render_line ws).getLast? ≠ some '\n' := by
  induction ws with
  | nil => simp [render_line]
  | cons w ws ih =>
    cases ws with
    | nil => simpa [render_line] using render_word_last w (hok w (by simp))
    | cons v vs =>
      have hv := ih (fun x hx => hok x (by simp at hx ⊢; tauto))
      simp only [render_line] at hv ⊢
      rw [List.getLast?_append, List.getLast?_cons]
      cases hl : (render_line (v :: vs)).getLast? with
      | none => simp
      | some c =>
        rw [hl] at hv
        simpa using hv

/-! ## C1 -/

/-- C1: tokenizer round trip.  For every list of words without a single quote,
each written in single quotes or (when non-empty and free of spaces and newlines)
bare, the line that joins them with single spaces tokenizes to exactly that list,
without a warning; a list shorter than the argument capacity fits `argv`. -/
theorem C1_tokenizer_round_trip (MAX_ARGS : Nat) (ws : List (List Char × Bool))
    (hok : ∀ w ∈ ws, word_ok w) (hcap : ws.length < MAX_ARGS) :
    parseline_no_subst (render_line ws) = ⟨ws.map Prod.fst, false⟩ ∧
      argv_fits MAX_ARGS (parseline_no_subst (render_line ws)) = true := by
  have key : parseline_no_subst (render_line ws) = ⟨ws.map Prod.fst, false⟩ := by
    have hbuf : parse_buf (render_line ws) = render_line ws ++ [' '] := by
      simp [parse_buf, render_line_last ws hok]
    unfold parseline_no_subst
    rw [hbuf]
    cases ws with
    | nil => simp [render_line, skip_spaces, parse_loop]
    | cons w ws =>
      rw [render_line_append_space, skip_spaces_words_then _ _ hok (by simp [skip_spaces])]
      rw [parse_loop_words _ [] hok (by simp [skip_spaces]) [] _ 1 (by omega) (by simp)]
      simp [parse_loop]
  refine ⟨key, ?_⟩
  rw [key]
  simp [argv_fits, hcap]

/-- Witness for C1: the line `echo 'a b' c`. -/
theorem C1_tokenizer_round_trip_witness :
    render_line [("echo".toList, false), ("a b".toList, true), ("c".toList, false)]
        = "echo 'a b' c".toList ∧
      parseline_no_subst "echo 'a b' c".toList
        = ⟨["echo".toList, "a b".toList, "c".toList], false⟩ :=
  ⟨by decide,
    (C1_tokenizer_round_trip 64
      [("echo".toList, false), ("a b".toList, true), ("c".toList, false)]
      (by decide) (by decide)).1⟩

/-! ## Runs of non-space characters -/

theorem splitOnP_append_sep {α : Type} (p : α → Bool) (xs : List α) (sep : α) (hsep : p sep) :
    (xs ++ [sep]).splitOnP p = xs.splitOnP p ++ [[]] := by
  induction xs with
  | nil => simp [hsep]
  | cons a as ih =>
    rw [List.cons_append, List.splitOnP_cons, List.splitOnP_cons, ih]
    by_cases ha : p a
    · simp [ha]
    · simp only [ha, Bool.false_eq_true, if_false]
      cases h : as.splitOnP p with
      | nil => exact absurd h (List.splitOnP_ne_nil p as)
      | cons hd tl => simp [List.modifyHead]

theorem splitOnP_mem_not {α : Type} (p : α → Bool) (xs : List α) :
    ∀ t ∈ xs.splitOnP p, ∀ x ∈ t, p x = false := by
  induction xs with
  | nil => simp
  | cons a as ih =>
    rw [List.splitOnP_cons]
    by_cases ha : p a
    · simp only [ha, if_true]
      intro t ht
      rcases List.mem_cons.1 ht with rfl | ht
      · simp
      · exact ih t ht
    · simp only [ha, Bool.false_eq_true, if_false]
      cases h : as.splitOnP p with
      | nil => exact absurd h (List.splitOnP_ne_nil p as)
      | cons hd tl =>
        rw [h] at ih
        intro t ht
        simp only [List.modifyHead, List.mem_cons] at ht
        rcases ht with rfl | ht
        · intro x hx
          rcases List.mem_cons.1 hx with rfl | hx
          · simpa using ha
          · exact ih hd (by simp) x hx
        · exact ih t (by simp [ht])

theorem splitOnP_flatten {α : Type} (p : α → Bool) (xs : List α) :
    (xs.splitOnP p).flatten = xs.filter (fun x => !p x) := by
  induction xs with
  | nil => simp
  | cons a as ih =>
    rw [List.splitOnP_cons]
    by_cases ha : p a
    · simp [ha, ih]
    · simp only [ha, Bool.false_eq_true, if_false]
      cases h : as.splitOnP p with
      | nil => exact absurd h (List.splitOnP_ne_nil p as)
      | cons hd tl =>
        rw [h] at ih
        simp only [List.modifyHead, List.flatten_cons, List.cons_append] at ih ⊢
        rw [ih]
        simp [ha]

theorem space_runs_nil : space_runs [] = [] := by
  simp [space_runs, List.splitOn]

theorem space_runs_cons_space (s : List Char) : space_runs (' ' :: s) = space_runs s := by
  simp [space_runs, List.splitOn]

theorem space_runs_append_space (s : List Char) : space_runs (s ++ [' ']) = space_runs s := by
  simp [space_runs, List.splitOn, splitOnP_append_sep]

theorem space_runs_first (tok q : List Char) (hsp : ' ' ∉ tok) (hne : tok ≠ []) :
    space_runs (tok ++ ' ' :: q) = tok :: space_runs q := by
  unfold space_runs List.splitOn
  rw [List.splitOnP_first (· == ' ') tok (by
    intro x hx h
    simp at h
    exact hsp (h ▸ hx)) ' ' (by simp)]
  simp [hne]

theorem space_runs_mem (s t : List Char) (ht : t ∈ space_runs s) : t ≠ [] ∧ ' ' ∉ t := by
  simp only [space_runs, List.splitOn, List.mem_filter, decide_eq_true_eq] at ht
  refine ⟨ht.2, fun hmem => ?_⟩
  have := splitOnP_mem_not (· == ' ') s t ht.1 ' ' hmem
  simp at this

theorem flatten_filter_ne_nil {α : Type} [DecidableEq α] (l : List (List α)) :
    (l.filter (fun t => t ≠ [])).flatten = l.flatten := by
  induction l with
  | nil => rfl
  | cons a as ih =>
    by_cases ha : a = []
    · simpa [ha] using ih
    · simpa [List.filter, ha] using ih

theorem space_runs_flatten (s : List Char) :
    (space_runs s).flatten = s.filter (fun c => c ≠ ' ') := by
  unfold space_runs List.splitOn
  rw [flatten_filter_ne_nil, splitOnP_flatten]
  congr 1
  funext c
  by_cases h : c = ' ' <;> simp [h]

theorem space_runs_all_spaces (s : List Char) (h : ∀ c ∈ s, c = ' ') : space_runs s = [] := by
  induction s with
  | nil => exact space_runs_nil
  | cons c cs ih =>
    have hc : c = ' ' := h c (by simp)
    subst hc
    rw [space_runs_cons_space]
    exact ih (fun x hx => h x (by simp [hx]))

theorem strchr_of_mem {c : Char} {s : List Char} (h : c ∈ s) :
    ∃ a b, strchr c s = some (a, b) := by
  induction s with
  | nil => simp at h
  | cons x xs ih =>
    by_cases hx : x = c
    · exact ⟨[], xs, by simp [strchr, hx]⟩
    · have hm : c ∈ xs := by
        rcases List.mem_cons.1 h with e | e
        · exact absurd e.symm hx
        · exact e
      obtain ⟨a, b, hab⟩ := ih hm
      exact ⟨x :: a, b, by simp [strchr, hx, hab]⟩

/-- On a text without single quotes that is empty or ends in a space, the loop
returns the runs of non-space characters. -/
theorem parse_loop_runs (n : Nat) : ∀ (p : List Char), p.length ≤ n → '\'' ∉ p →
    (p = [] ∨ p.getLast? = some ' ') → ∀ (acc : List (List Char)) (fuel : Nat),
    p.length < fuel → parse_loop fuel (skip_spaces p) acc = ⟨acc ++ space_runs p, false⟩ := by
  induction n with
  | zero =>
    intro p hp _ _ acc fuel hf
    have : p = [] := List.length_eq_zero.1 (by omega)
    subst this
    cases fuel with
    | zero => simp at hf
    | succ f => simp [skip_spaces, parse_loop, space_runs_nil]
  | succ n ih =>
    intro p hp hq hend acc fuel hf
    cases p with
    | nil =>
      cases fuel with
      | zero => simp at hf
      | succ f => simp [skip_spaces, parse_loop, space_runs_nil]
    | cons c rest =>
      simp only [List.length_cons] at hp hf
      have hqr : '\'' ∉ rest := fun h => hq (by simp [h])
      have hlast : (c :: rest).getLast? = some ' ' := by
        rcases hend with h | h
        · simp at h
        · exact h
      by_cases hc : c = ' '
      · subst hc
        rw [skip_spaces_cons_space, space_runs_cons_space]
        refine ih rest (by omega) hqr ?_ acc fuel (by omega)
        cases rest with
        | nil => exact Or.inl rfl
        | cons d ds => right; simpa using hlast
      · rw [skip_spaces_cons_ne _ hc]
        have hcq : c ≠ '\'' := fun e => hq (by simp [e])
        have hmem : ' ' ∈ c :: rest := List.mem_of_getLast?_eq_some hlast
        obtain ⟨tok, q, hs⟩ := strchr_of_mem hmem
        obtain ⟨hdec, hnot⟩ := strchr_some_eq hs
        have htok : tok ≠ [] := by
          intro e
          subst e
          simp at hdec
          exact hc hdec.1
        have hqlen : q.length < rest.length + 1 := by
          have := congrArg List.length hdec
          simp at this
          omega
        have hqq : '\'' ∉ q := by
          intro h
          apply hq
          rw [hdec]
          simp [h]
        have hqend : q = [] ∨ q.getLast? = some ' ' := by
          cases q with
          | nil => exact Or.inl rfl
          | cons d ds =>
            right
            rw [hdec, List.getLast?_append] at hlast
            simpa using hlast
        cases fuel with
        | zero => omega
        | succ f =>
          rw [parse_loop, if_neg hcq, hs]
          simp only
          rw [ih q (by omega) hqq hqend (acc ++ [tok]) f (by omega), hdec,
            space_runs_first tok q hnot htok]
          simp

theorem parse_buf_eq (s : List Char) :
    parse_buf s = if s.getLast? = some '\n' then newline_as_space s
      else newline_as_space s ++ [' '] := by
  unfold parse_buf newline_as_space
  split <;> rfl

theorem mem_parse_buf {c : Char} {s : List Char} (h : c ∈ parse_buf s) : c ∈ s ∨ c = ' ' := by
  unfold parse_buf at h
  split at h
  · rcases List.mem_append.1 h with h | h
    · exact Or.inl (List.mem_of_mem_dropLast h)
    · right; simpa using h
  · rcases List.mem_append.1 h with h | h
    · exact Or.inl h
    · right; simpa using h

theorem parse_buf_last (s : List Char) : (parse_buf s).getLast? = some ' ' := by
  unfold parse_buf
  split <;> exact List.getLast?_concat _

theorem space_runs_parse_buf (s : List Char) :
    space_runs (parse_buf s) = space_runs (newline_as_space s) := by
  rw [parse_buf_eq]
  split
  · rfl
  · exact space_runs_append_space _

/-- Without single quotes the tokenizer returns the runs of non-space characters. -/
theorem parseline_no_quote (s : List Char) (hq : '\'' ∉ s) :
    parseline_no_subst s = ⟨space_runs (newline_as_space s), false⟩ := by
  unfold parseline_no_subst
  have hq' : '\'' ∉ parse_buf s := by
    intro h
    rcases mem_parse_buf h with h | h
    · exact hq h
    · exact absurd h (by decide)
  rw [parse_loop_runs _ (parse_buf s) (Nat.le_refl _) hq' (Or.inr (parse_buf_last s)) [] _
    (Nat.lt_succ_self _), space_runs_parse_buf]
  simp

/-! ## C3 -/

/-- C3: space-only separation.  On an input without a single quote the tokenizer
returns exactly the maximal runs of non-space characters of the input whose
trailing newline, if any, is read as a space; hence no token is empty or holds
a space, the tokens together keep every non-space character, an input made of
spaces only (the empty input included) gives no token, and a tab does not
separate tokens. -/
theorem C3_space_only_separation (s : List Char) (hq : '\'' ∉ s) :
    parseline_no_subst s = ⟨space_runs (newline_as_space s), false⟩ ∧
      (∀ t ∈ (parseline_no_subst s).argv, t ≠ [] ∧ ' ' ∉ t) ∧
      (parseline_no_subst s).argv.flatten = (newline_as_space s).filter (fun c => c ≠ ' ') ∧
      ((∀ c ∈ s, c = ' ') → (parseline_no_subst s).argv = []) ∧
      parseline_no_subst ['a', '\t', 'b'] = ⟨[['a', '\t', 'b']], false⟩ := by
  have key := parseline_no_quote s hq
  refine ⟨key, ?_, ?_, ?_, by decide⟩
  · rw [key]
    exact fun t ht => space_runs_mem _ t ht
  · rw [key]
    exact space_runs_flatten _
  · intro hall
    rw [key]
    apply space_runs_all_spaces
    intro c hc
    unfold newline_as_space at hc
    split at hc
    · rcases List.mem_append.1 hc with h | h
      · exact hall c (List.mem_of_mem_dropLast h)
      · simpa using h
    · exact hall c hc

/-- Witness for C3: `ls  -l` followed by a newline has the two tokens `ls`, `-l`. -/
theorem C3_space_only_separation_witness :
    parseline_no_subst "ls  -l\n".toList = ⟨["ls".toList, "-l".toList], false⟩ :=
  (C3_space_only_separation "ls  -l\n".toList (by decide)).1.trans (by decide)

/-! ## Trimming -/

theorem isspace_quote : isspace '\'' = false := by decide

theorem rstrip_eq_rdropWhile (s : List Char) : rstrip s = s.rdropWhile isspace := rfl

theorem rstrip_append_cons (a t : List Char) (q : Char) (hq : isspace q = false) :
    rstrip (a ++ q :: t) = a ++ q :: rstrip t := by
  unfold rstrip
  have e : (a ++ q :: t).reverse = t.reverse ++ (q :: a.reverse) := by simp
  rw [e, List.dropWhile_append]
  split
  · rename_i h
    have h' : t.reverse.dropWhile isspace = [] := by simpa using h
    rw [h', List.dropWhile_cons_of_neg (by simp [hq])]
    simp
  · simp

theorem dropWhile_head_not {α : Type} (p : α → Bool) (l : List α) (c : α) (r : List α)
    (h : l.dropWhile p = c :: r) : p c = false := by
  induction l with
  | nil => simp at h
  | cons x xs ih =>
    rw [List.dropWhile_cons] at h
    split at h
    · exact ih h
    · rename_i hx
      have : x = c := (List.cons.inj h).1
      subst this
      simpa using hx

/-- The two trimming functions leave the same text. -/
theorem trim_whitespace_eq (s : List Char) : trim_whitespace s = trim_inplace s := by
  unfold trim_whitespace trim_inplace
  cases h : s.dropWhile isspace with
  | nil => rfl
  | cons c rest =>
    have hc := dropWhile_head_not isspace s c rest h
    simpa using (rstrip_append_cons [] rest c hc).symm

theorem words_then_append (ws : List (List Char × Bool)) (t : List Char) :
    words_then ws t = words_then ws [] ++ t := by
  induction ws with
  | nil => simp [words_then]
  | cons w ws ih =>
    simp only [words_then]
    rw [ih]
    simp

theorem mem_rstrip {c : Char} {s : List Char} (h : c ∈ rstrip s) : c ∈ s :=
  (List.rdropWhile_prefix isspace s).subset h

theorem mem_dropWhile {c : Char} {s : List Char} {p : Char → Bool} (h : c ∈ s.dropWhile p) :
    c ∈ s :=
  (List.dropWhile_sublist p).subset h

/-- Leading whitespace removed from written words followed by `t` leaves written
words followed by `t`, when `t` starts with a character that is not whitespace. -/
theorem dropWhile_words_then (ws : List (List Char × Bool)) (q : Char) (t : List Char)
    (hq : isspace q = false) (hok : ∀ w ∈ ws, word_ok w) :
    ∃ ws', (∀ w ∈ ws', word_ok w) ∧
      (words_then ws (q :: t)).dropWhile isspace = words_then ws' (q :: t) := by
  induction ws with
  | nil =>
    refine ⟨[], by simp, ?_⟩
    simp [words_then, List.dropWhile_cons_of_neg, hq]
  | cons w ws ih =>
    have hok' : ∀ v ∈ ws, word_ok v := fun v hv => hok v (by simp [hv])
    have hw := hok w (by simp)
    obtain ⟨txt, b⟩ := w
    cases b with
    | true =>
      refine ⟨(txt, true) :: ws, hok, ?_⟩
      simp [words_then, render_word, List.dropWhile_cons_of_neg, isspace_quote]
    | false =>
      have e : words_then ((txt, false) :: ws) (q :: t)
          = txt ++ (' ' :: words_then ws (q :: t)) := by
        simp [words_then, render_word]
      rw [e, List.dropWhile_append]
      split
      · obtain ⟨ws', hok2, e2⟩ := ih hok'
        refine ⟨ws', hok2, ?_⟩
        rw [List.dropWhile_cons_of_pos (by decide), e2]
      · rename_i hne
        refine ⟨(txt.dropWhile isspace, false) :: ws, ?_, ?_⟩
        · intro v hv
          rcases List.mem_cons.1 hv with rfl | hv
          · obtain ⟨h1, h2⟩ := hw
            obtain ⟨_, h3, h4⟩ := h2 rfl
            refine ⟨fun h => h1 (mem_dropWhile h), fun _ => ⟨?_, fun h => h3 (mem_dropWhile h),
              fun h => h4 (mem_dropWhile h)⟩⟩
            intro h
            apply hne
            simp only at h
            simp [h]
          · exact hok' v hv
        · simp [words_then, render_word]

/-- Trimming a line of written words followed by an unterminated quoted word leaves
a line of the same shape. -/
theorem trim_unterminated (ws : List (List Char × Bool)) (tail : List Char)
    (hok : ∀ w ∈ ws, word_ok w) (htail : '\'' ∉ tail) :
    ∃ ws' tail', (∀ w ∈ ws', word_ok w) ∧ '\'' ∉ tail' ∧
      trim_whitespace (words_then ws ('\'' :: tail)) = words_then ws' ('\'' :: tail') := by
  obtain ⟨ws', hok', e⟩ := dropWhile_words_then ws '\'' tail isspace_quote hok
  refine ⟨ws', rstrip tail, hok', fun h => htail (mem_rstrip h), ?_⟩
  rw [trim_whitespace_eq, trim_inplace, e, words_then_append,
    rstrip_append_cons _ _ _ isspace_quote, ← words_then_append]

theorem parse_buf_append_cons (a t : List Char) (q : Char) (hq : q ≠ '\n') :
    parse_buf (a ++ q :: t) = a ++ q :: parse_buf t := by
  unfold parse_buf
  cases t with
  | nil =>
    have h1 : (a ++ [q]).getLast? ≠ some '\n' := by
      rw [List.getLast?_concat]
      simpa using hq
    simp [hq]
  | cons d ds =>
    have h1 : (a ++ q :: d :: ds).getLast? = (d :: ds).getLast? := by
      rw [List.getLast?_append, List.getLast?_cons_cons]
      cases h : (d :: ds).getLast? with
      | none => simp at h
      | some x => simp
    rw [h1]
    split
    · rw [List.dropLast_append_of_ne_nil _ (by simp)]
      simp
    · simp

/-- A line of written words followed by an unterminated quoted word gives no
token and a warning. -/
theorem parse_unterminated (ws : List (List Char × Bool)) (tail : List Char)
    (hok : ∀ w ∈ ws, word_ok w) (htail : '\'' ∉ tail) :
    parseline_no_subst (words_then ws ('\'' :: tail)) = ⟨[], true⟩ := by
  have hq : '\'' ∉ parse_buf tail := by
    intro h
    rcases mem_parse_buf h with h | h
    · exact htail h
    · exact absurd h (by decide)
  have hskip : skip_spaces ('\'' :: parse_buf tail) = '\'' :: parse_buf tail :=
    skip_spaces_cons_ne _ (by decide)
  unfold parseline_no_subst
  rw [words_then_append, parse_buf_append_cons _ _ _ (by decide), ← words_then_append,
    skip_spaces_words_then _ _ hok hskip,
    parse_loop_words ws _ hok hskip [] _ ((parse_buf tail).length + 2) (Nat.lt_succ_self _)
      (by simp)]
  rw [parse_loop, if_pos rfl, strchr_none hq]

theorem words_then_quote_ne_nil (ws : List (List Char × Bool)) (t : List Char) :
    (words_then ws ('\'' :: t)).length ≠ 0 := by
  rw [words_then_append]
  simp

/-! ## C2 -/

theorem pieces_from_ne_nil (q : Bool) (s : List Char) : pieces_from q s ≠ [] := by
  induction s generalizing q with
  | nil => simp [pieces_from]
  | cons c rest ih =>
    unfold pieces_from
    split
    · cases h : pieces_from (!q) rest with
      | nil => exact absurd h (ih _)
      | cons a b => simp [List.modifyHead]
    · split
      · simp
      · cases h : pieces_from q rest with
        | nil => exact absurd h (ih _)
        | cons a b => simp [List.modifyHead]

theorem modifyHead_length {α : Type} (f : α → α) (l : List α) :
    (l.modifyHead f).length = l.length := by
  cases l <;> simp [List.modifyHead]

theorem modifyHead_append_cons (cur : List Char) (c : Char) (l : List (List Char)) :
    l.modifyHead (fun s => cur ++ [c] ++ s)
      = (l.modifyHead (fun s => c :: s)).modifyHead (fun s => cur ++ s) := by
  cases l <;> simp [List.modifyHead]

theorem modifyHead_nil_append (l : List (List Char)) :
    l.modifyHead (fun s => [] ++ s) = l := by
  cases l <;> simp [List.modifyHead]

/-- The scan of `split_pipeline` stores the pieces of the text, or gives up when
they do not fit. -/
theorem split_loop_eq (max_segs : Nat) (rest : List Char) :
    ∀ (q : Bool) (cur : List Char) (segs : List (List Char)),
    split_loop max_segs rest q cur segs =
      if segs.length + (pieces_from q rest).length ≤ max_segs then
        some (segs ++ (pieces_from q rest).modifyHead (fun s => cur ++ s))
      else none := by
  induction rest with
  | nil =>
    intro q cur segs
    simp only [split_loop, pieces_from, List.length_singleton, List.modifyHead, List.append_nil]
    by_cases h : segs.length ≥ max_segs
    · rw [if_pos h, if_neg (by omega)]
    · rw [if_neg h, if_pos (by omega)]
  | cons c rest ih =>
    intro q cur segs
    unfold split_loop pieces_from
    by_cases hc : c = '\''
    · subst hc
      simp only [if_true, show ¬ ('\'' = '|' ∧ (!q) = false) by simp, if_false]
      rw [ih, modifyHead_length, modifyHead_append_cons]
    · simp only [hc, if_false]
      by_cases hb : c = '|' ∧ q = false
      · simp only [hb, and_self, if_true]
        by_cases h : segs.length ≥ max_segs
        · rw [if_pos h, if_neg (by simp; omega)]
        · rw [if_neg h, ih, modifyHead_nil_append]
          simp only [List.modifyHead, List.length_append, List.length_cons, List.length_nil,
            List.append_assoc, List.singleton_append, Nat.zero_add, List.append_nil]
          by_cases h2 : segs.length + 1 + (pieces_from false rest).length ≤ max_segs
          · rw [if_pos h2, if_pos (by omega)]
          · rw [if_neg h2, if_neg (by omega)]
      · rw [if_neg hb, if_neg hb, ih, modifyHead_length, modifyHead_append_cons]

theorem join_bar_modifyHead (c : Char) (l : List (List Char)) (h : l ≠ []) :
    join_bar (l.modifyHead (fun s => c :: s)) = c :: join_bar l := by
  cases l with
  | nil => exact absurd rfl h
  | cons a b =>
    cases b with
    | nil => simp [List.modifyHead, join_bar]
    | cons x y => simp [List.modifyHead, join_bar]

theorem join_bar_nil_cons (l : List (List Char)) (h : l ≠ []) :
    join_bar ([] :: l) = '|' :: join_bar l := by
  cases l with
  | nil => exact absurd rfl h
  | cons a b => simp [join_bar]

theorem join_bar_pieces (s : List Char) : ∀ q, join_bar (pieces_from q s) = s := by
  induction s with
  | nil => intro q; simp [pieces_from, join_bar]
  | cons c rest ih =>
    intro q
    unfold pieces_from
    split
    · rw [join_bar_modifyHead _ _ (pieces_from_ne_nil _ _), ih]
    · split
      · rename_i h
        rw [join_bar_nil_cons _ (pieces_from_ne_nil _ _), ih, h.1]
      · rw [join_bar_modifyHead _ _ (pieces_from_ne_nil _ _), ih]

theorem quote_odd_nil : quote_odd [] = false := by decide

theorem quote_odd_cons (c : Char) (s : List Char) :
    quote_odd (c :: s) = if c = '\'' then !quote_odd s else quote_odd s := by
  unfold quote_odd
  by_cases hc : c = '\''
  · subst hc
    simp only [List.count_cons_self, if_true]
    by_cases h : List.count '\'' s % 2 = 1
    · simp [h]; omega
    · simp [h]; omega
  · simp [hc, List.count_cons_of_ne (Ne.symm hc)]

theorem pipes_from_nil (q : Bool) : pipes_from q [] = 0 := by
  simp [pipes_from]

theorem pipes_from_cons (q : Bool) (c : Char) (rest : List Char) :
    pipes_from q (c :: rest) =
      (if c = '|' ∧ q = false then 1 else 0) +
        pipes_from (if c = '\'' then !q else q) rest := by
  unfold pipes_from
  rw [List.length_cons, List.range_succ_eq_map, List.countP_cons, List.countP_map, Nat.add_comm]
  congr 1
  · simp [quote_odd_nil]
  · congr 1
    funext i
    simp only [Function.comp, List.getD_cons_succ, List.take_succ_cons, quote_odd_cons]
    by_cases hc : c = '\''
    · simp only [hc, if_true]
      cases q <;> cases quote_odd (List.take i rest) <;> rfl
    · simp only [hc, if_false]

theorem pieces_from_length (s : List Char) : ∀ q, (pieces_from q s).length = pipes_from q s + 1 := by
  induction s with
  | nil => intro q; simp [pieces_from, pipes_from_nil]
  | cons c rest ih =>
    intro q
    rw [pipes_from_cons]
    unfold pieces_from
    by_cases hc : c = '\''
    · subst hc
      simp only [if_true, show ¬ ('\'' = '|' ∧ q = false) by simp, if_false]
      rw [modifyHead_length, ih]
      omega
    · simp only [hc, if_false]
      by_cases hb : c = '|' ∧ q = false
      · simp only [hb, and_self, if_true, List.length_cons]
        rw [ih]
        omega
      · rw [if_neg hb, if_neg hb, modifyHead_length, ih]
        omega

theorem take_modifyHead {α : Type} (f : α → α) (l : List α) (j : Nat) :
    (l.modifyHead f).take (j + 1) = (l.take (j + 1)).modifyHead f := by
  cases l <;> simp [List.modifyHead]

/-- Every separator found by the scan has the quote flag clear: the text before
it flips the starting flag `q` to `false`. -/
theorem pieces_from_separator (s : List Char) : ∀ (q : Bool) (j : Nat), j < pipes_from q s →
    quote_odd (join_bar ((pieces_from q s).take (j + 1))) = q := by
  induction s with
  | nil => intro q j hj; simp [pipes_from_nil] at hj
  | cons c rest ih =>
    intro q j hj
    rw [pipes_from_cons] at hj
    unfold pieces_from
    by_cases hc : c = '\''
    · subst hc
      simp only [if_true, show ¬ ('\'' = '|' ∧ q = false) by simp, if_false, Nat.zero_add] at hj ⊢
      have hne : (pieces_from (!q) rest).take (j + 1) ≠ [] := by
        intro h
        have := congrArg List.length h
        have hl := pieces_from_length rest (!q)
        simp at this
        exact pieces_from_ne_nil _ _ this
      rw [take_modifyHead, join_bar_modifyHead _ _ hne, quote_odd_cons, if_pos rfl, ih _ j hj]
      simp
    · simp only [hc, if_false] at hj ⊢
      by_cases hb : c = '|' ∧ q = false
      · simp only [hb, and_self, if_true] at hj ⊢
        cases j with
        | zero => simp [join_bar, quote_odd_nil]
        | succ i =>
          have hne : (pieces_from false rest).take (i + 1) ≠ [] := by
            intro h
            have := congrArg List.length h
            simp at this
            exact pieces_from_ne_nil _ _ this
          rw [List.take_succ_cons, join_bar_nil_cons _ hne, quote_odd_cons,
            if_neg (by decide), ih false i (by omega)]
      · rw [if_neg hb] at hj ⊢
        have hne : (pieces_from q rest).take (j + 1) ≠ [] := by
          intro h
          have := congrArg List.length h
          simp at this
          exact pieces_from_ne_nil _ _ this
        rw [take_modifyHead, join_bar_modifyHead _ _ hne, quote_odd_cons, if_neg hc,
          ih q j (by omega)]

theorem pipes_from_false (s : List Char) : pipes_from false s = unquoted_pipes s := by
  unfold pipes_from unquoted_pipes
  congr 1
  funext i
  simp

theorem split_pipeline_eq (line : List Char) (max_segs : Nat) :
    split_pipeline line max_segs =
      if unquoted_pipes line + 1 ≤ max_segs then some (pieces_from false line) else none := by
  unfold split_pipeline
  rw [split_loop_eq, pieces_from_length, pipes_from_false]
  rw [modifyHead_nil_append]
  simp

/-! ## C4 -/

/-- C4: pipeline splitting.  A line with `k` pipes preceded by an even number of
single quotes, `k + 1` not above `max_segs`, is split into `k + 1` segments; the
segments joined with `|` give the line back; and each of the `k` separators is
preceded by an even number of single quotes, so that a pipe preceded by an odd
number of them is never a separator. -/
theorem C4_split_pipeline (line : List Char) (max_segs : Nat)
    (hcap : unquoted_pipes line + 1 ≤ max_segs) :
    ∃ segs, split_pipeline line max_segs = some segs ∧
      segs.length = unquoted_pipes line + 1 ∧
      join_bar segs = line ∧
      ∀ j, j < unquoted_pipes line → quote_odd (join_bar (segs.take (j + 1))) = false := by
  refine ⟨pieces_from false line, ?_, ?_, join_bar_pieces line false, ?_⟩
  · rw [split_pipeline_eq, if_pos hcap]
  · rw [pieces_from_length, pipes_from_false]
  · intro j hj
    exact pieces_from_separator line false j (by rw [pipes_from_false]; exact hj)

/-- Witness for C4: in `a 'b|c' | d` only the second pipe separates. -/
theorem C4_split_pipeline_witness :
    unquoted_pipes "a 'b|c' | d".toList + 1 ≤ 128 ∧
      ∃ segs, split_pipeline "a 'b|c' | d".toList 128 = some segs ∧
        segs.length = unquoted_pipes "a 'b|c' | d".toList + 1 ∧
        join_bar segs = "a 'b|c' | d".toList ∧
        ∀ j, j < unquoted_pipes "a 'b|c' | d".toList →
          quote_odd (join_bar (segs.take (j + 1))) = false :=
  ⟨by decide, C4_split_pipeline "a 'b|c' | d".toList 128 (by decide)⟩

/-! ## Validation loop of `run_pipeline` -/

theorem diag_eq_refl (a : Shell) : diag_eq a a := rfl

theorem diag_eq_trans {a b c : Shell} (h1 : diag_eq a b) (h2 : diag_eq b c) : diag_eq a c :=
  Eq.trans h1 h2

theorem diag_eq_eprint (a : Shell) (msg : List Char) : diag_eq (a.eprint msg) a := rfl

theorem diag_eq_warn (a : Shell) (msg : List Char) : diag_eq (wsh_warn msg a) a := rfl

theorem diag_eq_alias {a b : Shell} (h : diag_eq a b) : a.alias_hm = b.alias_hm := by
  have h2 := congrArg Shell.alias_hm h
  exact h2

theorem diag_eq_cwd {a b : Shell} (h : diag_eq a b) : a.cwd = b.cwd := by
  have h2 := congrArg Shell.cwd h
  exact h2

theorem diag_eq_path {a b : Shell} (h : diag_eq a b) : a.env_PATH = b.env_PATH := by
  have h2 := congrArg Shell.env_PATH h
  exact h2

theorem diag_eq_trace {a b : Shell} (h : diag_eq a b) : a.trace = b.trace := by
  have h2 := congrArg Shell.trace h
  exact h2

theorem diag_eq_history {a b : Shell} (h : diag_eq a b) : a.history_da = b.history_da := by
  have h2 := congrArg Shell.history_da h
  exact h2

theorem parseline_fst (s : List Char) (sh : Shell) :
    (parseline s sh).1 = (parseline_no_subst s).argv := rfl

theorem parseline_diag (s : List Char) (sh : Shell) : diag_eq (parseline s sh).2 sh := by
  unfold parseline
  simp only
  split
  · exact diag_eq_warn _ _
  · exact diag_eq_refl _

theorem expand_diag (s : List Char) (sh : Shell) :
    diag_eq (expand_alias_for_segment s sh).2 sh := by
  have h := parseline_diag s sh
  unfold expand_alias_for_segment
  split
  · rename_i sh1 e
    rw [e] at h
    exact h
  · rename_i a0 rest sh1 e
    rw [e] at h
    split <;> exact h

theorem expand_fst_congr (s : List Char) {a b : Shell} (h : a.alias_hm = b.alias_hm) :
    (expand_alias_for_segment s a).1 = (expand_alias_for_segment s b).1 := by
  have ha := diag_eq_alias (parseline_diag s a)
  have hb := diag_eq_alias (parseline_diag s b)
  have h1 : (parseline s a).1 = (parseline s b).1 := rfl
  unfold expand_alias_for_segment
  generalize hpa : parseline s a = pa at ha h1
  generalize hpb : parseline s b = pb at hb h1
  obtain ⟨va, sa⟩ := pa
  obtain ⟨vb, sb⟩ := pb
  simp only at ha hb h1
  subst h1
  cases va with
  | nil => rfl
  | cons a0 rest =>
    simp only
    rw [ha, hb, h]
    cases hm_get b.alias_hm a0 <;> rfl

theorem stage_argv_congr (seg : List Char) {a b : Shell} (h : a.alias_hm = b.alias_hm) :
    stage_argv a seg = stage_argv b seg := by
  unfold stage_argv
  rw [parseline_fst, parseline_fst, expand_fst_congr _ h]

theorem command_exists_congr (os : OS) (v : List (List Char)) {a b : Shell}
    (hc : a.cwd = b.cwd) (hp : a.env_PATH = b.env_PATH) :
    command_exists os a v = command_exists os b v := by
  unfold command_exists find_in_path
  rw [hc, hp]

theorem stage_argv_of_trim_nil (sh : Shell) (seg : List Char) (h : trim_inplace seg = []) :
    stage_argv sh seg = [] := by
  unfold stage_argv
  rw [h]
  have : parseline [] sh = ([], sh) := by
    simp [parseline, parseline_no_subst, parse_buf, skip_spaces, parse_loop]
  simp [expand_alias_for_segment, this]

/-- What the validation loop leaves: the empty-segment flag is raised as soon as
some segment yields no token; otherwise every vector is stored and the invalid
flag tells whether some leading token does not resolve. -/
theorem prep_loop_spec (os : OS) (sh0 : Shell) (segs : List (List Char)) :
    ∀ (sh : Shell) (inv : Bool) (acc : List (List (List Char))), diag_eq sh sh0 →
    diag_eq (prep_loop os segs sh inv acc).2 sh0 ∧
    (segs.any (fun s => decide (stage_argv sh0 s = [])) = true →
      (prep_loop os segs sh inv acc).1.empty_seg = true) ∧
    (segs.any (fun s => decide (stage_argv sh0 s = [])) = false →
      (prep_loop os segs sh inv acc).1 =
        ⟨false, inv || segs.any (fun s => !command_exists os sh0 (stage_argv sh0 s)),
          acc ++ segs.map (stage_argv sh0)⟩) := by
  induction segs with
  | nil =>
    intro sh inv acc h
    simp [prep_loop, h]
  | cons seg rest ih =>
    intro sh inv acc h
    have hd1 := expand_diag (trim_inplace seg) sh
    have hd2 := parseline_diag (expand_alias_for_segment (trim_inplace seg) sh).1
      (expand_alias_for_segment (trim_inplace seg) sh).2
    have hargv : (parseline (expand_alias_for_segment (trim_inplace seg) sh).1
        (expand_alias_for_segment (trim_inplace seg) sh).2).1 = stage_argv sh0 seg := by
      rw [← stage_argv_congr seg (diag_eq_alias h)]
      rfl
    unfold prep_loop
    by_cases hraw : trim_inplace seg = []
    · have he := stage_argv_of_trim_nil sh0 seg hraw
      simp [hraw, he, h]
    · simp only [hraw, if_false]
      generalize hex : expand_alias_for_segment (trim_inplace seg) sh = ex at hd1 hd2 hargv
      obtain ⟨expanded, sh1⟩ := ex
      simp only at hd1 hd2 hargv ⊢
      generalize hpl : parseline expanded sh1 = pl at hd2 hargv
      obtain ⟨argv, sh2⟩ := pl
      simp only at hd2 hargv ⊢
      have hsh2 : diag_eq sh2 sh0 := diag_eq_trans hd2 (diag_eq_trans hd1 h)
      cases argv with
      | nil =>
        simp only
        refine ⟨hsh2, ?_, ?_⟩ <;> simp [← hargv]
      | cons a0 args =>
        simp only
        have hce : command_exists os sh2 (a0 :: args)
            = command_exists os sh0 (stage_argv sh0 seg) := by
          rw [← hargv]
          exact command_exists_congr os _ (diag_eq_cwd hsh2) (diag_eq_path hsh2)
        have hne : stage_argv sh0 seg ≠ [] := by rw [← hargv]; simp
        have hany : (seg :: rest).any (fun s => decide (stage_argv sh0 s = []))
            = rest.any (fun s => decide (stage_argv sh0 s = [])) := by
          simp [hne]
        rw [hany]
        by_cases hex2 : command_exists os sh2 (a0 :: args) = true
        · rw [if_pos hex2]
          obtain ⟨i1, i2, i3⟩ := ih sh2 inv (acc ++ [a0 :: args]) hsh2
          refine ⟨i1, i2, fun hn => ?_⟩
          rw [i3 hn]
          rw [hce, ← hargv] at hex2
          simp [hex2, ← hargv]
        · rw [if_neg hex2]
          have hsh3 : diag_eq (sh2.eprint
              ("Command not found or not an executable: ".toList ++ a0 ++ ['\n'])) sh0 :=
            diag_eq_trans (diag_eq_eprint _ _) hsh2
          obtain ⟨i1, i2, i3⟩ := ih _ true (acc ++ [a0 :: args]) hsh3
          refine ⟨i1, i2, fun hn => ?_⟩
          rw [i3 hn]
          rw [hce, ← hargv] at hex2
          have hex3 : command_exists os sh0 (a0 :: args) = false := by
            simpa using hex2
          simp [hex3, ← hargv]

/-! ## Outcomes of `run_pipeline` -/

theorem split_pipeline_some {line : List Char} {max_segs : Nat} {segs : List (List Char)}
    (h : split_pipeline line max_segs = some segs) : segs = pieces_from false line := by
  rw [split_pipeline_eq] at h
  split at h
  · exact (Option.some.inj h).symm
  · exact absurd h (by simp)

theorem split_pipeline_cases (line : List Char) (max_segs : Nat) :
    split_pipeline line max_segs = none ∨
      split_pipeline line max_segs = some (pieces_from false line) := by
  rw [split_pipeline_eq]
  split
  · exact Or.inr rfl
  · exact Or.inl rfl

/-- A pipeline with a segment that yields no token, or whose leading token does
not resolve, is rejected before any process-level call. -/
theorem run_pipeline_rejects (os : OS) (sh : Shell) (line : List Char)
    (hn : 2 ≤ (pieces_from false line).length)
    (hbad : (pieces_from false line).any (fun s => decide (stage_argv sh s = [])) = true ∨
      (pieces_from false line).any (fun s => !command_exists os sh (stage_argv sh s)) = true) :
    (run_pipeline os line sh).1 = EXIT_FAILURE ∧ diag_eq (run_pipeline os line sh).2 sh := by
  unfold run_pipeline
  rcases split_pipeline_cases line MAX_PIPE_CMDS with h | h
  · rw [h]
    exact ⟨rfl, diag_eq_eprint _ _⟩
  · rw [h]
    have hlen : (pieces_from false line).length ≠ 1 := by omega
    simp only [hlen, if_false]
    obtain ⟨p1, p2, p3⟩ := prep_loop_spec os sh (pieces_from false line) sh false []
      (diag_eq_refl sh)
    generalize prep_loop os (pieces_from false line) sh false [] = pr at p1 p2 p3
    obtain ⟨prep, sh1⟩ := pr
    simp only at p1 p2 p3 ⊢
    by_cases he : (pieces_from false line).any (fun s => decide (stage_argv sh s = [])) = true
    · rw [p2 he]
      simp only [if_true]
      exact ⟨trivial, diag_eq_trans (diag_eq_eprint _ _) p1⟩
    · have he' : (pieces_from false line).any (fun s => decide (stage_argv sh s = [])) = false := by
        simpa using he
      have hb : (pieces_from false line).any
          (fun s => !command_exists os sh (stage_argv sh s)) = true := by
        rcases hbad with h1 | h1
        · exact absurd h1 he
        · exact h1
      rw [p3 he']
      simp only [Bool.false_or, hb, Bool.false_eq_true, if_false, if_true]
      exact ⟨trivial, p1⟩

theorem make_pipes_some (os : OS) (m : Nat) : ∀ (k : Nat) (sh : Shell),
    (∀ j, j < m → os.pipe_ok (k + j) = true) → (make_pipes os m k sh).1 = true := by
  induction m with
  | zero => intro k sh _; rfl
  | succ m ih =>
    intro k sh h
    have h0 : os.pipe_ok k = true := by simpa using h 0 (by omega)
    rw [make_pipes, if_pos h0]
    exact ih (k + 1) (sh.log (Sys.pipe k)) (fun j hj => by
      have := h (j + 1) (by omega)
      rw [← this]
      congr 1
      omega)

theorem spawned_append (a b : List Sys) : spawned (a ++ b) = spawned a ++ spawned b := by
  simp [spawned, List.filterMap_append]

theorem make_pipes_spawned (os : OS) (m : Nat) : ∀ (k : Nat) (sh : Shell),
    spawned (make_pipes os m k sh).2.trace = spawned sh.trace := by
  induction m with
  | zero => intro k sh; rfl
  | succ m ih =>
    intro k sh
    rw [make_pipes]
    split
    · rw [ih]
      simp [Shell.log, spawned_append, spawned]
    · rfl

theorem fork_loop_spawned (os : OS) (n : Nat) (argvs : List (List (List Char))) :
    ∀ (i : Nat) (sh : Shell), (∀ j, j < argvs.length → os.fork_ok (i + j) = true) →
    spawned (fork_loop os n argvs i sh).trace = spawned sh.trace ++ List.range' i argvs.length := by
  induction argvs with
  | nil => intro i sh _; simp [fork_loop]
  | cons a rest ih =>
    intro i sh h
    have h0 : os.fork_ok i = true := by simpa using h 0 (by simp)
    simp only [fork_loop, h0, if_true]
    rw [ih (i + 1) _ (fun j hj => by
      have := h (j + 1) (by simp; omega)
      rw [← this]
      congr 1
      omega)]
    simp [Shell.log, spawned_append, spawned, List.range']

/-- A pipeline that passes validation and gets its pipes returns the verdict on
the status left by the last `waitpid`; when no `fork` fails the children forked
are stages `0 .. n-1`, in this order. -/
theorem run_pipeline_status (os : OS) (sh : Shell) (line : List Char) (segs : List (List Char))
    (hsplit : split_pipeline line MAX_PIPE_CMDS = some segs) (hn : 2 ≤ segs.length)
    (hvalid : ∀ seg ∈ segs, command_exists os sh (stage_argv sh seg) = true)
    (hpipe : ∀ k, k < segs.length - 1 → os.pipe_ok k = true) :
    (run_pipeline os line sh).1 =
        (if (os.wait_status (segs.length - 1)).ok then EXIT_SUCCESS else EXIT_FAILURE) ∧
      ((∀ i, i < segs.length → os.fork_ok i = true) →
        spawned (run_pipeline os line sh).2.trace
          = spawned sh.trace ++ List.range segs.length) := by
  unfold run_pipeline
  rw [hsplit]
  have hlen : segs.length ≠ 1 := by omega
  simp only [hlen, if_false]
  obtain ⟨p1, _, p3⟩ := prep_loop_spec os sh segs sh false [] (diag_eq_refl sh)
  have he : segs.any (fun s => decide (stage_argv sh s = [])) = false := by
    rw [List.any_eq_false]
    intro s hs
    have := hvalid s hs
    simp only [decide_eq_true_eq]
    intro h0
    rw [h0] at this
    simp [command_exists] at this
  have hb : segs.any (fun s => !command_exists os sh (stage_argv sh s)) = false := by
    rw [List.any_eq_false]
    intro s hs
    simp [hvalid s hs]
  have p := p3 he
  generalize prep_loop os segs sh false [] = pr at p p1
  obtain ⟨prep, sh1⟩ := pr
  simp only at p p1 ⊢
  rw [p]
  simp only [Bool.false_eq_true, if_false, hb, Bool.or_self]
  have e1 := make_pipes_some os (segs.length - 1) 0 sh1 (fun j hj => by
    simpa using hpipe j hj)
  have e2 := make_pipes_spawned os (segs.length - 1) 0 sh1
  generalize make_pipes os (segs.length - 1) 0 sh1 = mp at e1 e2
  obtain ⟨flag, sh2⟩ := mp
  simp only at e1 e2
  subst e1
  refine ⟨rfl, fun hfork => ?_⟩
  simp only [spawned_append]
  rw [fork_loop_spawned os _ _ 0 sh2 (fun j hj => by
    simp only [List.nil_append, List.length_map] at hj
    simpa using hfork j hj), e2, diag_eq_trace p1]
  simp [spawned, List.filterMap_map, List.range_eq_range']

theorem ok_iff (st : WaitStatus) : st.ok = true ↔ st = WaitStatus.exited 0 := by
  cases st with
  | exited c =>
    cases c with
    | zero => simp [WaitStatus.ok]
    | succ n => simp [WaitStatus.ok]
  | signaled s => simp [WaitStatus.ok]

/-! ## C5 -/

/-- C5: pre-flight validation is all-or-nothing.  When the line splits into at
least two segments and the leading token of some segment (after trimming, alias
expansion and tokenization) does not resolve under `command_exists`,
`run_pipeline` returns failure and makes no process-level call at all: no `pipe`,
no `fork`, no stage is run. -/
theorem C5_preflight_all_or_nothing (os : OS) (sh : Shell) (line : List Char)
    (max_segs : Nat) (segs : List (List Char))
    (hsplit : split_pipeline line max_segs = some segs) (hn : 2 ≤ segs.length)
    (hbad : ∃ seg ∈ segs, ∃ a0 args, stage_argv sh seg = a0 :: args ∧
      command_exists os sh (a0 :: args) = false) :
    (run_pipeline os line sh).1 = EXIT_FAILURE ∧
      (run_pipeline os line sh).2.trace = sh.trace := by
  have hs := split_pipeline_some hsplit
  subst hs
  obtain ⟨seg, hmem, a0, args, h1, h2⟩ := hbad
  have h := run_pipeline_rejects os sh line hn (Or.inr (by
    rw [List.any_eq_true]
    exact ⟨seg, hmem, by simp [h1, h2]⟩))
  exact ⟨h.1, diag_eq_trace h.2⟩

/-- Witness for C5: `nosuchcmd | true` where only `/bin/true` is executable. -/
theorem C5_preflight_all_or_nothing_witness :
    (run_pipeline (example_os ["/bin/true".toList] []) "nosuchcmd | true".toList
        (initial_shell "/".toList none)).1 = EXIT_FAILURE ∧
      (run_pipeline (example_os ["/bin/true".toList] []) "nosuchcmd | true".toList
        (initial_shell "/".toList none)).2.trace = [] :=
  C5_preflight_all_or_nothing (example_os ["/bin/true".toList] []) (initial_shell "/".toList none)
    "nosuchcmd | true".toList 128 ["nosuchcmd ".toList, " true".toList] (by decide) (by decide)
    ⟨"nosuchcmd ".toList, by decide, "nosuchcmd".toList, [], by decide, by decide⟩

/-! ## C7 -/

/-- C7: last-stage status.  For a line of at least two stages that all pass
validation, with every `pipe` and every `fork` succeeding, `run_pipeline` returns
success exactly when the status left by the wait for the last stage is a normal
exit with code 0, and failure otherwise; replacing the statuses of the other
stages by any others leaves the result unchanged; the children forked are the
stages `0 .. N-1`, in order. -/
theorem C7_last_stage_status (os : OS) (sh : Shell) (line : List Char)
    (segs : List (List Char))
    (hsplit : split_pipeline line MAX_PIPE_CMDS = some segs) (hn : 2 ≤ segs.length)
    (hvalid : ∀ seg ∈ segs, command_exists os sh (stage_argv sh seg) = true)
    (hpipe : ∀ k, k < segs.length - 1 → os.pipe_ok k = true)
    (hfork : ∀ i, i < segs.length → os.fork_ok i = true) :
    ((run_pipeline os line sh).1 = EXIT_SUCCESS ↔
        os.wait_status (segs.length - 1) = WaitStatus.exited 0) ∧
      ((run_pipeline os line sh).1 = EXIT_SUCCESS ∨
        (run_pipeline os line sh).1 = EXIT_FAILURE) ∧
      (∀ w : Nat → WaitStatus, w (segs.length - 1) = os.wait_status (segs.length - 1) →
        (run_pipeline { os with wait_status := w } line sh).1 = (run_pipeline os line sh).1) ∧
      spawned (run_pipeline os line sh).2.trace = spawned sh.trace ++ List.range segs.length := by
  obtain ⟨h, hsp⟩ := run_pipeline_status os sh line segs hsplit hn hvalid hpipe
  refine ⟨?_, ?_, ?_, hsp hfork⟩
  · rw [h, ← ok_iff]
    cases (os.wait_status (segs.length - 1)).ok <;> simp [EXIT_SUCCESS, EXIT_FAILURE]
  · rw [h]
    cases (os.wait_status (segs.length - 1)).ok <;> simp
  · intro w hw
    have h' := (run_pipeline_status { os with wait_status := w } sh line segs hsplit hn
      hvalid hpipe).1
    rw [h, h']
    simp only [hw]

/-- Witness for C7: `false | true` returns success although the first stage
exits with code 1. -/
theorem C7_last_stage_status_witness :
    (run_pipeline
        (example_os ["/bin/false".toList, "/bin/true".toList]
          [WaitStatus.exited 1, WaitStatus.exited 0])
        "false | true".toList (initial_shell "/".toList none)).1 = EXIT_SUCCESS :=
  (C7_last_stage_status
    (example_os ["/bin/false".toList, "/bin/true".toList]
      [WaitStatus.exited 1, WaitStatus.exited 0])
    (initial_shell "/".toList none) "false | true".toList ["false ".toList, " true".toList]
    (by decide) (by decide) (by decide) (fun _ _ => rfl) (fun _ _ => rfl)).1.2 (by decide)

/-! ## Trimming a line and its segments -/

theorem rstrip_decomp (s : List Char) :
    ∃ w, (∀ c ∈ w, isspace c = true) ∧ s = rstrip s ++ w := by
  refine ⟨(s.reverse.takeWhile isspace).reverse, ?_, ?_⟩
  · intro c hc
    exact List.mem_takeWhile_imp (List.mem_reverse.1 hc)
  · unfold rstrip
    rw [← List.reverse_append, List.takeWhile_append_dropWhile, List.reverse_reverse]

theorem trim_decomp (s : List Char) :
    ∃ w1 w2, (∀ c ∈ w1, isspace c = true) ∧ (∀ c ∈ w2, isspace c = true) ∧
      s = w1 ++ trim_whitespace s ++ w2 := by
  obtain ⟨w2, h2, e2⟩ := rstrip_decomp (s.dropWhile isspace)
  refine ⟨s.takeWhile isspace, w2, fun c hc => List.mem_takeWhile_imp hc, h2, ?_⟩
  rw [trim_whitespace_eq, trim_inplace, List.append_assoc, ← e2,
    List.takeWhile_append_dropWhile]

theorem isspace_ne_quote {c : Char} (h : isspace c = true) : c ≠ '\'' := by
  intro e
  subst e
  exact absurd h (by decide)

theorem isspace_ne_bar {c : Char} (h : isspace c = true) : c ≠ '|' := by
  intro e
  subst e
  exact absurd h (by decide)

theorem pieces_from_space_cons (q : Bool) (c : Char) (s : List Char) (h : isspace c = true) :
    pieces_from q (c :: s) = (pieces_from q s).modifyHead (fun t => c :: t) := by
  rw [pieces_from, if_neg (isspace_ne_quote h), if_neg (fun hb => isspace_ne_bar h hb.1)]

theorem modifyHead_comp {α : Type} (f g : α → α) (l : List α) :
    (l.modifyHead g).modifyHead f = l.modifyHead (fun x => f (g x)) := by
  cases l <;> simp [List.modifyHead]

theorem pieces_from_space_append (q : Bool) (w s : List Char)
    (h : ∀ c ∈ w, isspace c = true) :
    pieces_from q (w ++ s) = (pieces_from q s).modifyHead (fun t => w ++ t) := by
  induction w with
  | nil => exact (modifyHead_nil_append _).symm
  | cons c cs ih =>
    rw [List.cons_append, pieces_from_space_cons q c _ (h c (by simp)),
      ih (fun x hx => h x (by simp [hx])), modifyHead_comp]
    rfl

theorem map_last_length {α : Type} (f : α → α) (l : List α) :
    (map_last f l).length = l.length := by
  induction l with
  | nil => rfl
  | cons x xs ih =>
    cases xs with
    | nil => rfl
    | cons y ys => simp only [map_last, List.length_cons] at ih ⊢; rw [ih]

theorem map_last_modifyHead (c : Char) (w : List Char) (l : List (List Char)) :
    map_last (fun t => t ++ w) (l.modifyHead (fun t => c :: t))
      = (map_last (fun t => t ++ w) l).modifyHead (fun t => c :: t) := by
  cases l with
  | nil => rfl
  | cons x xs =>
    cases xs with
    | nil => simp [List.modifyHead, map_last]
    | cons y ys => simp [List.modifyHead, map_last]

theorem map_last_cons {α : Type} (f : α → α) (x : α) (l : List α) (h : l ≠ []) :
    map_last f (x :: l) = x :: map_last f l := by
  cases l with
  | nil => exact absurd rfl h
  | cons y ys => rfl

theorem pieces_from_all_space (q : Bool) (w : List Char) (h : ∀ c ∈ w, isspace c = true) :
    pieces_from q w = [w] := by
  have := pieces_from_space_append q w [] h
  simpa [pieces_from, List.modifyHead] using this

theorem pieces_from_append_space (s w : List Char) (h : ∀ c ∈ w, isspace c = true) :
    ∀ q, pieces_from q (s ++ w) = map_last (fun t => t ++ w) (pieces_from q s) := by
  induction s with
  | nil =>
    intro q
    rw [List.nil_append, pieces_from_all_space q w h]
    simp [pieces_from, map_last]
  | cons c rest ih =>
    intro q
    rw [List.cons_append]
    unfold pieces_from
    split
    · rw [ih, map_last_modifyHead]
    · split
      · rw [ih, map_last_cons _ _ _ (pieces_from_ne_nil _ _)]
      · rw [ih, map_last_modifyHead]

theorem rstrip_append_space (s w : List Char) (h : ∀ c ∈ w, isspace c = true) :
    rstrip (s ++ w) = rstrip s := by
  unfold rstrip
  rw [List.reverse_append, List.dropWhile_append_of_pos (fun c hc => h c (List.mem_reverse.1 hc))]

theorem trim_inplace_append_space (s w : List Char) (h : ∀ c ∈ w, isspace c = true) :
    trim_inplace (s ++ w) = trim_inplace s := by
  unfold trim_inplace
  rw [List.dropWhile_append]
  split
  · rename_i he
    have he' : s.dropWhile isspace = [] := by simpa using he
    have hw : w.dropWhile isspace = [] := by
      rw [List.dropWhile_eq_nil_iff]
      exact h
    rw [he', hw]
  · rw [rstrip_append_space _ _ h]

theorem trim_inplace_space_append (s w : List Char) (h : ∀ c ∈ w, isspace c = true) :
    trim_inplace (w ++ s) = trim_inplace s := by
  unfold trim_inplace
  rw [List.dropWhile_append_of_pos h]

theorem map_trim_map_last (w : List Char) (h : ∀ c ∈ w, isspace c = true)
    (l : List (List Char)) :
    (map_last (fun t => t ++ w) l).map trim_inplace = l.map trim_inplace := by
  induction l with
  | nil => rfl
  | cons x xs ih =>
    cases xs with
    | nil => simp [map_last, trim_inplace_append_space _ _ h]
    | cons y ys =>
      simp only [map_last, List.map_cons] at ih ⊢
      rw [ih]

theorem map_trim_modifyHead (w : List Char) (h : ∀ c ∈ w, isspace c = true)
    (l : List (List Char)) :
    (l.modifyHead (fun t => w ++ t)).map trim_inplace = l.map trim_inplace := by
  cases l with
  | nil => rfl
  | cons x xs => simp [List.modifyHead, trim_inplace_space_append _ _ h]

/-- The segments of a line and of the trimmed line agree once each is trimmed. -/
theorem pieces_trim (s : List Char) :
    (pieces_from false (trim_whitespace s)).map trim_inplace
      = (pieces_from false s).map trim_inplace := by
  obtain ⟨w1, w2, h1, h2, e⟩ := trim_decomp s
  conv_rhs => rw [e]
  rw [List.append_assoc, pieces_from_space_append _ _ _ h1, pieces_from_append_space _ _ h2,
    map_trim_modifyHead _ h1, map_trim_map_last _ h2]

theorem pieces_trim_length (s : List Char) :
    (pieces_from false (trim_whitespace s)).length = (pieces_from false s).length := by
  have := congrArg List.length (pieces_trim s)
  simpa using this

theorem has_bar_loop_eq (s : List Char) : ∀ q, has_bar_loop s q = decide (1 ≤ pipes_from q s) := by
  induction s with
  | nil => intro q; simp [has_bar_loop, pipes_from_nil]
  | cons c rest ih =>
    intro q
    rw [pipes_from_cons, has_bar_loop]
    by_cases hc : c = '\''
    · subst hc
      simp only [if_true, show ¬ ('\'' = '|' ∧ q = false) by simp, if_false, Nat.zero_add]
      exact ih _
    · simp only [hc, if_false]
      by_cases hb : c = '|' ∧ q = false
      · simp [hb]
      · rw [if_neg hb, if_neg hb, ih]
        simp

/-- The scan in `process_command` finds a pipe exactly when the line has at least
two segments. -/
theorem has_bar_iff (s : List Char) : has_bar s = true ↔ 2 ≤ (pieces_from false s).length := by
  unfold has_bar
  rw [has_bar_loop_eq, pieces_from_length]
  simp

/-! ## Tokens of a line that starts with a non-space character -/

theorem parse_loop_shape (fuel : Nat) : ∀ (p : List Char) (acc : List (List Char)),
    parse_loop fuel p acc = ⟨[], true⟩ ∨ ∃ more, parse_loop fuel p acc = ⟨acc ++ more, false⟩ := by
  induction fuel with
  | zero => intro p acc; exact Or.inr ⟨[], by simp [parse_loop]⟩
  | succ n ih =>
    intro p acc
    cases p with
    | nil => exact Or.inr ⟨[], by simp [parse_loop]⟩
    | cons c rest =>
      rw [parse_loop]
      split
      · split
        · exact Or.inl rfl
        · rename_i tok q _
          rcases ih (skip_spaces q) (acc ++ [tok]) with h | ⟨more, h⟩
          · exact Or.inl h
          · exact Or.inr ⟨tok :: more, by rw [h]; simp⟩
      · split
        · exact Or.inr ⟨[], by simp⟩
        · rename_i tok q _
          rcases ih (skip_spaces q) (acc ++ [tok]) with h | ⟨more, h⟩
          · exact Or.inl h
          · exact Or.inr ⟨tok :: more, by rw [h]; simp⟩

theorem parseline_warned_argv (s : List Char) (h : (parseline_no_subst s).warned = true) :
    (parseline_no_subst s).argv = [] := by
  unfold parseline_no_subst at h ⊢
  rcases parse_loop_shape _ (skip_spaces (parse_buf s)) [] with e | ⟨more, e⟩
  · rw [e]
  · rw [e] at h
    simp at h

theorem parse_buf_cons (c : Char) (rest : List Char) :
    ∃ r, parse_buf (c :: rest) = c :: r ∨ (rest = [] ∧ c = '\n') := by
  unfold parse_buf
  cases rest with
  | nil =>
    by_cases hc : c = '\n'
    · exact ⟨[], Or.inr ⟨rfl, hc⟩⟩
    · exact ⟨[' '], Or.inl (by simp [hc])⟩
  | cons d ds =>
    split
    · exact ⟨(d :: ds).dropLast ++ [' '], Or.inl (by simp [List.dropLast])⟩
    · exact ⟨(d :: ds) ++ [' '], Or.inl (by simp)⟩

/-- A text that starts with a character other than whitespace yields a token or
a warning. -/
theorem parseline_nonempty (c : Char) (rest : List Char) (hc : isspace c = false) :
    (parseline_no_subst (c :: rest)).warned = true ∨
      (parseline_no_subst (c :: rest)).argv ≠ [] := by
  have hsp : c ≠ ' ' := by
    intro e; subst e; exact absurd hc (by decide)
  have hnl : c ≠ '\n' := by
    intro e; subst e; exact absurd hc (by decide)
  obtain ⟨r, hr⟩ := parse_buf_cons c rest
  rcases hr with hr | ⟨_, h2⟩
  · have hlast := parse_buf_last (c :: rest)
    unfold parseline_no_subst
    rw [hr] at hlast ⊢
    rw [skip_spaces_cons_ne _ hsp, List.length_cons, parse_loop]
    by_cases hq : c = '\''
    · rw [if_pos hq]
      cases hs : strchr '\'' r with
      | none => exact Or.inl rfl
      | some tp =>
        obtain ⟨tok, p⟩ := tp
        simp only
        rcases parse_loop_shape (r.length + 1) (skip_spaces p) ([] ++ [tok]) with e | ⟨more, e⟩
        · rw [e]; exact Or.inl rfl
        · rw [e]; exact Or.inr (by simp)
    · rw [if_neg hq]
      have hmem : ' ' ∈ c :: r := List.mem_of_getLast?_eq_some hlast
      obtain ⟨tok, p, hs⟩ := strchr_of_mem hmem
      rw [hs]
      simp only
      rcases parse_loop_shape (r.length + 1) (skip_spaces p) ([] ++ [tok]) with e | ⟨more, e⟩
      · rw [e]; exact Or.inl rfl
      · rw [e]; exact Or.inr (by simp)
  · exact absurd h2 hnl

theorem trim_whitespace_head (s : List Char) (c : Char) (rest : List Char)
    (h : trim_whitespace s = c :: rest) : isspace c = false := by
  unfold trim_whitespace at h
  cases hd : s.dropWhile isspace with
  | nil => rw [hd] at h; simp at h
  | cons d ds =>
    rw [hd] at h
    simp only [List.cons.injEq] at h
    rw [← h.1]
    exact dropWhile_head_not isspace s d ds hd

/-! ## `process_command` on a line with a pipe -/

theorem pieces_from_length_nil (q : Bool) : (pieces_from q []).length = 1 := by
  simp [pieces_from]

theorem process_command_pipeline (os : OS) (fuel : Nat) (line : List Char) (sh : Shell)
    (hn : 2 ≤ (pieces_from false line).length) :
    process_command os (fuel + 1) line sh =
      match parseline (trim_whitespace line) sh with
      | ([], sh1) => some (Outcome.returned sh1)
      | (_ :: _, sh1) =>
        match run_pipeline os (trim_whitespace line)
            (log_history (trim_whitespace line) sh1) with
        | (res, sh2) =>
          some (Outcome.returned { sh2 with rc := if res = -2 then sh2.rc else res }) := by
  have hn' : 2 ≤ (pieces_from false (trim_whitespace line)).length := by
    rw [pieces_trim_length]; exact hn
  have hL : (trim_whitespace line).length ≠ 0 := by
    intro h
    rw [List.length_eq_zero.1 h, pieces_from_length_nil] at hn'
    omega
  have hb : has_bar (trim_whitespace line) = true := (has_bar_iff _).2 hn'
  rw [process_command]
  simp only [hL, if_false]
  split
  · rfl
  · rw [if_pos hb]

theorem any_empty_trim (sh : Shell) (s : List Char) :
    (pieces_from false (trim_whitespace s)).any (fun x => decide (stage_argv sh x = []))
      = (pieces_from false s).any (fun x => decide (stage_argv sh x = [])) := by
  have key : ∀ l : List (List Char), l.any (fun x => decide (stage_argv sh x = []))
      = (l.map trim_inplace).any
        (fun t => decide ((parseline (expand_alias_for_segment t sh).1 sh).1 = [])) := by
    intro l
    rw [List.any_map]
    rfl
  rw [key, key, pieces_trim]

theorem log_history_alias (line : List Char) (sh : Shell) :
    (log_history line sh).alias_hm = sh.alias_hm := by
  unfold log_history
  split <;> rfl

theorem log_history_trace (line : List Char) (sh : Shell) :
    (log_history line sh).trace = sh.trace := by
  unfold log_history
  split <;> rfl

/-! ## C6 -/

/-- C6: empty segment.  When the line splits into at least two segments and some
segment is empty after trimming, or yields no token after alias expansion,
`run_pipeline` returns failure without any process-level call, and
`process_command` on the line returns with `rc` set to failure, again without any
process-level call. -/
theorem C6_empty_segment (os : OS) (sh : Shell) (line : List Char) (max_segs : Nat)
    (segs : List (List Char)) (fuel : Nat)
    (hsplit : split_pipeline line max_segs = some segs) (hn : 2 ≤ segs.length)
    (hempty : ∃ seg ∈ segs, trim_inplace seg = [] ∨ stage_argv sh seg = []) :
    (run_pipeline os line sh).1 = EXIT_FAILURE ∧
      (run_pipeline os line sh).2.trace = sh.trace ∧
      ∃ sh', process_command os (fuel + 1) line sh = some (Outcome.returned sh') ∧
        sh'.rc = EXIT_FAILURE ∧ sh'.trace = sh.trace := by
  have hs := split_pipeline_some hsplit
  subst hs
  have hany : (pieces_from false line).any (fun x => decide (stage_argv sh x = [])) = true := by
    obtain ⟨seg, hmem, h⟩ := hempty
    rw [List.any_eq_true]
    refine ⟨seg, hmem, ?_⟩
    rcases h with h | h
    · simp [stage_argv_of_trim_nil sh seg h]
    · simp [h]
  have hrun := run_pipeline_rejects os sh line hn (Or.inl hany)
  refine ⟨hrun.1, diag_eq_trace hrun.2, ?_⟩
  rw [process_command_pipeline os fuel line sh hn]
  have hn' : 2 ≤ (pieces_from false (trim_whitespace line)).length := by
    rw [pieces_trim_length]; exact hn
  have hd := parseline_diag (trim_whitespace line) sh
  cases hp : parseline (trim_whitespace line) sh with
  | mk argv sh1 =>
    rw [hp] at hd
    simp only at hd
    cases argv with
    | nil =>
      refine ⟨sh1, rfl, ?_, diag_eq_trace hd⟩
      have hargv : (parseline_no_subst (trim_whitespace line)).argv = [] := by
        have := congrArg Prod.fst hp
        simpa [parseline] using this
      cases hL : trim_whitespace line with
      | nil =>
        rw [hL, pieces_from_length_nil] at hn'
        omega
      | cons c rest =>
        have hc := trim_whitespace_head line c rest hL
        rw [hL] at hargv hp
        rcases parseline_nonempty c rest hc with hw | hne
        · have := congrArg Prod.snd hp
          simp only [parseline, hw, if_true] at this
          rw [← this]
          rfl
        · exact absurd hargv hne
    | cons a0 args =>
      simp only
      have hany' : (pieces_from false (trim_whitespace line)).any
          (fun x => decide (stage_argv (log_history (trim_whitespace line) sh1) x = []))
            = true := by
        have hal : (log_history (trim_whitespace line) sh1).alias_hm = sh.alias_hm := by
          rw [log_history_alias, diag_eq_alias hd]
        have : (fun x => decide (stage_argv (log_history (trim_whitespace line) sh1) x = []))
            = (fun x => decide (stage_argv sh x = [])) := by
          funext x
          rw [stage_argv_congr x hal]
        rw [this, any_empty_trim]
        exact hany
      have hrun' := run_pipeline_rejects os (log_history (trim_whitespace line) sh1)
        (trim_whitespace line) hn' (Or.inl hany')
      generalize run_pipeline os (trim_whitespace line)
        (log_history (trim_whitespace line) sh1) = r at hrun'
      obtain ⟨res, sh2⟩ := r
      simp only at hrun' ⊢
      refine ⟨_, rfl, ?_, ?_⟩
      · simp [hrun'.1, EXIT_FAILURE]
      · simp only
        rw [diag_eq_trace hrun'.2, log_history_trace, diag_eq_trace hd]

/-- Witness for C6: the line `a | | b`, whose middle segment is empty. -/
theorem C6_empty_segment_witness :
    (run_pipeline (example_os [] []) "a | | b".toList (initial_shell "/".toList none)).1
        = EXIT_FAILURE ∧
      (run_pipeline (example_os [] []) "a | | b".toList
        (initial_shell "/".toList none)).2.trace = (initial_shell "/".toList none).trace ∧
      ∃ sh', process_command (example_os [] []) (0 + 1) "a | | b".toList
          (initial_shell "/".toList none) = some (Outcome.returned sh') ∧
        sh'.rc = EXIT_FAILURE ∧ sh'.trace = (initial_shell "/".toList none).trace :=
  C6_empty_segment (example_os [] []) (initial_shell "/".toList none) "a | | b".toList 128
    ["a ".toList, " ".toList, " b".toList] 0 (by decide) (by decide)
    ⟨" ".toList, by decide, Or.inl (by decide)⟩

/-! ## C8 -/

/-- C8: `exit` as a pipeline stage.  For every argument vector whose first word
is `exit`, `exec_one_command` ends the child with `_exit(0)`; it never ends in
`clean_exit`, whatever the vector, and `process_command` returns on every line
with an unquoted pipe, so the session goes on.  Each other builtin run as a stage
ends the child with code 0 when the builtin returns success and with 1
otherwise. -/
theorem C8_exit_in_pipeline (os : OS) (sh : Shell) (args : List (List Char)) :
    exec_one_command os ("exit".toList :: args) sh = ProcEnd._exit 0 ∧
      (∀ argv code, exec_one_command os argv sh ≠ ProcEnd.clean_exit code) ∧
      (∀ line fuel, 1 ≤ unquoted_pipes line →
        ∃ sh', process_command os (fuel + 1) line sh = some (Outcome.returned sh')) ∧
      exec_one_command os ("cd".toList :: args) sh = ProcEnd._exit
        (if (built_in_cd os ("cd".toList :: args) sh).1 = EXIT_SUCCESS then 0 else 1) ∧
      exec_one_command os ("path".toList :: args) sh = ProcEnd._exit
        (if (built_in_path ("path".toList :: args) sh).1 = EXIT_SUCCESS then 0 else 1) ∧
      exec_one_command os ("which".toList :: args) sh = ProcEnd._exit
        (if (builtin_which os ("which".toList :: args) sh).1 = EXIT_SUCCESS then 0 else 1) ∧
      exec_one_command os ("alias".toList :: args) sh = ProcEnd._exit
        (if (builtin_alias ("alias".toList :: args) sh).1 = EXIT_SUCCESS then 0 else 1) ∧
      exec_one_command os ("unalias".toList :: args) sh = ProcEnd._exit
        (if (builtin_unalias ("unalias".toList :: args) sh).1 = EXIT_SUCCESS then 0 else 1) ∧
      exec_one_command os ("history".toList :: args) sh = ProcEnd._exit
        (if (builtin_history ("history".toList :: args) sh).1 = EXIT_SUCCESS then 0 else 1) := by
  refine ⟨?_, ?_, ?_, ?_, ?_, ?_, ?_, ?_, ?_⟩
  · simp [exec_one_command, builtin_is_builtin_name, EXIT_SUCCESS]
  · intro argv code
    unfold exec_one_command
    cases argv with
    | nil => simp
    | cons a0 rest =>
      simp only
      split
      · simp
      · unfold execute_external_command
        simp only
        split
        · split <;> simp
        · split
          · simp
          · split
            · simp
            · split <;> simp
  · intro line fuel hk
    have hn : 2 ≤ (pieces_from false line).length := by
      rw [pieces_from_length, pipes_from_false]; omega
    rw [process_command_pipeline os fuel line sh hn]
    split
    · exact ⟨_, rfl⟩
    · exact ⟨_, rfl⟩
  all_goals simp [exec_one_command, builtin_is_builtin_name]

/-- Witness for C8: `exit 3` as a stage ends its child with code 0, and the line
`exit | exit` does not terminate the session. -/
theorem C8_exit_in_pipeline_witness :
    exec_one_command (example_os [] []) ["exit".toList, "3".toList]
        (initial_shell "/".toList none) = ProcEnd._exit 0 ∧
      ∃ sh', process_command (example_os [] []) (0 + 1) "exit | exit".toList
        (initial_shell "/".toList none) = some (Outcome.returned sh') :=
  ⟨(C8_exit_in_pipeline (example_os [] []) (initial_shell "/".toList none) ["3".toList]).1,
    (C8_exit_in_pipeline (example_os [] []) (initial_shell "/".toList none) []).2.2.1
      "exit | exit".toList 0 (by decide)⟩

/-! ## C9 -/

theorem skip_spaces_decomp (s : List Char) :
    ∃ a, (∀ c ∈ a, c = ' ') ∧ s = a ++ skip_spaces s := by
  induction s with
  | nil => exact ⟨[], by simp, by simp [skip_spaces]⟩
  | cons c r ih =>
    by_cases hc : c = ' '
    · subst hc
      obtain ⟨a, ha, e⟩ := ih
      refine ⟨' ' :: a, ?_, ?_⟩
      · intro x hx
        rcases List.mem_cons.1 hx with h | h
        · exact h
        · exact ha x h
      · rw [skip_spaces_cons_space, List.cons_append, ← e]
    · exact ⟨[], by simp, by simp [skip_spaces_cons_ne _ hc]⟩

theorem skip_spaces_head (s : List Char) (c : Char) (r : List Char)
    (h : skip_spaces s = c :: r) : c ≠ ' ' := by
  induction s with
  | nil => simp [skip_spaces] at h
  | cons x xs ih =>
    by_cases hx : x = ' '
    · subst hx
      rw [skip_spaces_cons_space] at h
      exact ih h
    · rw [skip_spaces_cons_ne _ hx] at h
      simp only [List.cons.injEq] at h
      rw [← h.1]
      exact hx

theorem skip_spaces_eq_nil (s : List Char) (h : skip_spaces s = []) : ∀ c ∈ s, c = ' ' := by
  obtain ⟨a, ha, e⟩ := skip_spaces_decomp s
  rw [h, List.append_nil] at e
  rw [e]
  exact ha

/-- When the loop adds no token and does not warn, the text it was given (empty
or ending in a space, and not starting with one) is empty. -/
theorem parse_loop_no_more (fuel : Nat) (c : Char) (r : List Char) (acc : List (List Char))
    (hlast : (c :: r).getLast? = some ' ') :
    parse_loop (fuel + 1) (c :: r) acc ≠ ⟨acc, false⟩ := by
  intro h
  rw [parse_loop] at h
  have key : ∀ (tok q : List Char),
      parse_loop fuel (skip_spaces q) (acc ++ [tok]) ≠ ⟨acc, false⟩ := by
    intro tok q h2
    rcases parse_loop_shape fuel (skip_spaces q) (acc ++ [tok]) with e | ⟨more, e⟩
    · rw [e] at h2
      simp at h2
    · rw [e] at h2
      have := congrArg (fun x => x.argv.length) h2
      simp at this
  split at h
  · split at h
    · simp at h
    · exact key _ _ h
  · have hmem : ' ' ∈ c :: r := List.mem_of_getLast?_eq_some hlast
    obtain ⟨tok, p, hs⟩ := strchr_of_mem hmem
    rw [hs] at h
    exact key _ _ h


theorem all_spaces_dropLast (p : List Char) (hp : ∀ c ∈ p, c = ' ') (hne : p ≠ []) :
    p = p.dropLast ++ [' '] := by
  have h1 := (List.dropLast_append_getLast hne).symm
  have h2 : p.getLast hne = ' ' := hp _ (List.getLast_mem hne)
  rw [h2] at h1
  exact h1

/-- A text with exactly one token and no warning consists of spaces, the token
(bare or in single quotes) and spaces again. -/
theorem parse_single_inv (s t : List Char) (h : parseline_no_subst s = ⟨[t], false⟩) :
    ∃ a m p, (∀ c ∈ a, c = ' ') ∧ (∀ c ∈ p, c = ' ') ∧ p ≠ [] ∧
      parse_buf s = a ++ m ++ p ∧ (m = '\'' :: t ++ ['\''] ∨ (m = t ∧ t ≠ [])) := by
  unfold parseline_no_subst at h
  obtain ⟨a, ha, e⟩ := skip_spaces_decomp (parse_buf s)
  have hlast := parse_buf_last s
  cases hp0 : skip_spaces (parse_buf s) with
  | nil =>
    rw [hp0] at h
    simp [parse_loop] at h
  | cons c r =>
    have hc := skip_spaces_head _ c r hp0
    rw [hp0] at h e
    have hlast' : (c :: r).getLast? = some ' ' := by
      rw [e, List.getLast?_append] at hlast
      cases hl : (c :: r).getLast? with
      | none => simp at hl
      | some x => rw [hl] at hlast; simpa using hlast
    have hlen : r.length < (parse_buf s).length := by
      rw [e]; simp; omega
    have fin : ∀ (tok q : List Char), q.length ≤ r.length →
        (q = [] ∨ q.getLast? = some ' ') →
        parse_loop (parse_buf s).length (skip_spaces q) ([] ++ [tok]) = ⟨[t], false⟩ →
        tok = t ∧ ∀ x ∈ q, x = ' ' := by
      intro tok q hq hend h2
      rcases parse_loop_shape (parse_buf s).length (skip_spaces q) ([] ++ [tok]) with e2 | ⟨more, e2⟩
      · rw [e2] at h2; simp at h2
      · have h3 := e2.symm.trans h2
        simp only [List.nil_append, List.singleton_append, Parsed.mk.injEq, List.cons.injEq,
          and_true] at h3
        obtain ⟨h4, h5⟩ := h3
        subst h5
        subst h4
        refine ⟨rfl, ?_⟩
        apply skip_spaces_eq_nil
        cases hsq : skip_spaces q with
        | nil => rfl
        | cons d ds =>
          exfalso
          obtain ⟨b, hb, eb⟩ := skip_spaces_decomp q
          rw [hsq] at eb
          have hl2 : (d :: ds).getLast? = some ' ' := by
            rcases hend with h0 | h0
            · rw [h0] at eb
              have := congrArg List.length eb
              simp at this
              omega
            · rw [eb, List.getLast?_append] at h0
              cases hl : (d :: ds).getLast? with
              | none => simp at hl
              | some x => rw [hl] at h0; simpa using h0
          rw [hsq] at e2
          cases hf : (parse_buf s).length with
          | zero => omega
          | succ n =>
            rw [hf] at e2
            exact parse_loop_no_more n d ds _ hl2 (by simpa using e2)
    rw [parse_loop] at h
    by_cases hq : c = '\''
    · rw [if_pos hq] at h
      cases hs : strchr '\'' r with
      | none => rw [hs] at h; simp at h
      | some tp =>
        obtain ⟨tok, q⟩ := tp
        rw [hs] at h
        simp only at h
        obtain ⟨hdec, _⟩ := strchr_some_eq hs
        have hqend : q = [] ∨ q.getLast? = some ' ' := by
          cases q with
          | nil => exact Or.inl rfl
          | cons d ds =>
            right
            rw [hdec, ← List.cons_append, List.getLast?_append] at hlast'
            simpa using hlast'
        obtain ⟨h1, h2⟩ := fin tok q (by rw [hdec]; simp; omega) hqend h
        subst h1
        have hqne : q ≠ [] := by
          intro h0
          subst h0
          rw [hdec, ← List.cons_append, List.getLast?_concat] at hlast'
          simp at hlast'
        refine ⟨a, '\'' :: tok ++ ['\''], q, ha, h2, hqne, ?_, Or.inl rfl⟩
        rw [e, hq, hdec]
        simp
    · rw [if_neg hq] at h
      have hmem : ' ' ∈ c :: r := List.mem_of_getLast?_eq_some hlast'
      obtain ⟨tok, q, hs⟩ := strchr_of_mem hmem
      rw [hs] at h
      simp only at h
      obtain ⟨hdec, _⟩ := strchr_some_eq hs
      have hqend : q = [] ∨ q.getLast? = some ' ' := by
        cases q with
        | nil => exact Or.inl rfl
        | cons d ds =>
          right
          rw [hdec, List.getLast?_append] at hlast'
          simpa using hlast'
      have hql : q.length ≤ r.length := by
        have := congrArg List.length hdec
        simp at this
        omega
      obtain ⟨h1, h2⟩ := fin tok q hql hqend h
      subst h1
      have htne : tok ≠ [] := by
        intro h0
        subst h0
        simp at hdec
        exact hc hdec.1
      refine ⟨a, tok, ' ' :: q, ha, ?_, by simp, ?_, Or.inr ⟨rfl, htne⟩⟩
      · intro x hx
        rcases List.mem_cons.1 hx with h0 | h0
        · exact h0
        · exact h2 x h0
      · rw [e, hdec]
        simp


theorem parse_buf_inv (s : List Char) :
    ∃ X e, s = X ++ e ∧ parse_buf s = X ++ [' '] ∧ (e = [] ∨ e = ['\n']) := by
  unfold parse_buf
  by_cases h : s.getLast? = some '\n'
  · refine ⟨s.dropLast, ['\n'], ?_, by simp [h], Or.inr rfl⟩
    obtain ⟨ys, hys⟩ := List.getLast?_eq_some_iff.1 h
    rw [hys]
    simp
  · exact ⟨s, [], by simp, by simp [h], Or.inl rfl⟩

theorem isspace_of_space {c : Char} (h : c = ' ') : isspace c = true := by
  subst h; decide

/-- Trimming removes whitespace around a text that starts and ends with other
characters, and nothing else. -/
theorem trim_core (a w r : List Char) (c d : Char) (m : List Char)
    (ha : ∀ x ∈ a, isspace x = true) (hw : ∀ x ∈ w, isspace x = true)
    (hc : isspace c = false) (hd : isspace d = false) (hm : m = r ++ [d])
    (hm2 : m.head? = some c) :
    trim_whitespace (a ++ m ++ w) = m := by
  have hcons : ∃ r2, m = c :: r2 := by
    cases m with
    | nil => simp at hm2
    | cons x xs => simp at hm2; exact ⟨xs, by rw [hm2]⟩
  obtain ⟨r2, hr2⟩ := hcons
  rw [trim_whitespace_eq, trim_inplace, List.append_assoc, List.dropWhile_append_of_pos ha,
    hr2, List.cons_append, List.dropWhile_cons_of_neg (by simp [hc]), ← List.cons_append, ← hr2,
    rstrip_append_space _ _ hw, hm, rstrip_append_cons r [] d hd]
  simp [rstrip]

/-- A line whose only token is `exit` is, once trimmed, `exit` bare or in single
quotes. -/
theorem trim_of_only_exit (line : List Char)
    (h : (parseline_no_subst line).argv = ["exit".toList]) :
    trim_whitespace line = "exit".toList ∨ trim_whitespace line = "'exit'".toList := by
  have hw : (parseline_no_subst line).warned = false := by
    cases hh : (parseline_no_subst line).warned with
    | false => rfl
    | true =>
      rw [parseline_warned_argv _ hh] at h
      simp at h
  have hfull : parseline_no_subst line = ⟨["exit".toList], false⟩ := by
    rw [← h, ← hw]
  obtain ⟨a, m, p, ha, hp, hpne, hbuf, hm⟩ := parse_single_inv line _ hfull
  obtain ⟨X, e, hs, hX, he⟩ := parse_buf_inv line
  have hp2 := all_spaces_dropLast p hp hpne
  have hXe : X = a ++ m ++ p.dropLast := by
    have : X ++ [' '] = (a ++ m ++ p.dropLast) ++ [' '] := by
      rw [← hX, hbuf]
      conv_lhs => rw [hp2]
      simp
    exact List.append_cancel_right this
  have hsp : ∀ x ∈ p.dropLast ++ e, isspace x = true := by
    intro x hx
    rcases List.mem_append.1 hx with h1 | h1
    · exact isspace_of_space (hp x (List.mem_of_mem_dropLast h1))
    · rcases he with h2 | h2
      · rw [h2] at h1; simp at h1
      · rw [h2] at h1
        simp at h1
        subst h1
        decide
  have hline : line = a ++ m ++ (p.dropLast ++ e) := by
    rw [hs, hXe]
    simp
  have ha' : ∀ x ∈ a, isspace x = true := fun x hx => isspace_of_space (ha x hx)
  rcases hm with hm | ⟨hm, _⟩
  · right
    rw [hline]
    exact (trim_core a _ "'exit".toList '\'' '\'' m ha' hsp (by decide) (by decide)
      (by rw [hm]; rfl) (by rw [hm]; rfl)).trans hm
  · left
    rw [hline]
    exact (trim_core a _ "exi".toList 'e' 't' m ha' hsp (by decide) (by decide)
      (by rw [hm]; rfl) (by rw [hm]; rfl)).trans hm


theorem has_bar_loop_no_bar (s : List Char) (h : '|' ∉ s) : ∀ q, has_bar_loop s q = false := by
  induction s with
  | nil => intro q; rfl
  | cons c rest ih =>
    intro q
    have hc : c ≠ '|' := fun e => h (by simp [e])
    have hr : '|' ∉ rest := fun e => h (by simp [e])
    rw [has_bar_loop]
    split
    · exact ih hr _
    · simp [hc, ih hr]

theorem mem_trim_whitespace {c : Char} {s : List Char} (h : c ∈ trim_whitespace s) : c ∈ s := by
  rw [trim_whitespace_eq, trim_inplace] at h
  exact mem_dropWhile (mem_rstrip h)

theorem parseline_nil : parseline_no_subst [] = ⟨[], false⟩ := by decide

/-- The single-command path of `process_command` up to the dispatch on the
leading token: a trimmed line without a pipe that yields tokens is logged, and
nothing else has happened. -/
theorem process_command_exit (os : OS) (fuel : Nat) (line : List Char) (sh : Shell)
    (hpipe : '|' ∉ line) (args : List (List Char))
    (hargv : (parseline_no_subst (trim_whitespace line)).argv = "exit".toList :: args) :
    process_command os (fuel + 1) line sh =
      if ("exit".toList :: args).length > 1 then
        some (Outcome.returned
          { (log_history (trim_whitespace line) sh).eprint
              "Incorrect usage of exit. Too many arguments\n".toList with rc := EXIT_FAILURE })
      else
        some (Outcome.exited (log_history (trim_whitespace line) sh).rc
          (log_history (trim_whitespace line) sh)) := by
  have hb : has_bar (trim_whitespace line) = false :=
    has_bar_loop_no_bar _ (fun h => hpipe (mem_trim_whitespace h)) false
  have hL : (trim_whitespace line).length ≠ 0 := by
    intro h
    rw [List.length_eq_zero.1 h, parseline_nil] at hargv
    simp at hargv
  have hw : (parseline_no_subst (trim_whitespace line)).warned = false := by
    cases hh : (parseline_no_subst (trim_whitespace line)).warned with
    | false => rfl
    | true =>
      rw [parseline_warned_argv _ hh] at hargv
      simp at hargv
  have hp : parseline (trim_whitespace line) sh = ("exit".toList :: args, sh) := by
    simp [parseline, hargv, hw]
  rw [process_command]
  simp only [hL, if_false, hp, hb, Bool.false_eq_true, if_true]

theorem log_history_rc (line : List Char) (sh : Shell) : (log_history line sh).rc = sh.rc := by
  unfold log_history
  split <;> rfl

/-- C9 as amended: on a pipe-free line whose only token is `exit` the process
terminates with the value `rc` had before the line.  `process_command` tokenizes
the line after trimming its leading and trailing whitespace: the same holds when
the only token of the trimmed line is `exit`, and on a pipe-free line whose
tokens after trimming are `exit` followed by one or more arguments it returns
with `rc` set to failure and the alias store unchanged. -/
theorem C9_exit_sole_command (os : OS) (fuel : Nat) (sh : Shell) (line : List Char)
    (hpipe : '|' ∉ line) :
    ((parseline_no_subst line).argv = ["exit".toList] →
        process_command os (fuel + 1) line sh =
          some (Outcome.exited sh.rc (log_history (trim_whitespace line) sh))) ∧
      ((parseline_no_subst (trim_whitespace line)).argv = ["exit".toList] →
        process_command os (fuel + 1) line sh =
          some (Outcome.exited sh.rc (log_history (trim_whitespace line) sh))) ∧
      (∀ a rest, (parseline_no_subst (trim_whitespace line)).argv = "exit".toList :: a :: rest →
        ∃ sh', process_command os (fuel + 1) line sh = some (Outcome.returned sh') ∧
          sh'.rc = EXIT_FAILURE ∧ sh'.alias_hm = sh.alias_hm) := by
  have key : (parseline_no_subst (trim_whitespace line)).argv = ["exit".toList] →
      process_command os (fuel + 1) line sh =
        some (Outcome.exited sh.rc (log_history (trim_whitespace line) sh)) := by
    intro h
    rw [process_command_exit os fuel line sh hpipe [] h, log_history_rc]
    simp
  refine ⟨fun h => key ?_, key, fun a rest h => ?_⟩
  · rcases trim_of_only_exit line h with e | e
    · rw [e]; decide
    · rw [e]; decide
  · rw [process_command_exit os fuel line sh hpipe (a :: rest) h, if_pos (by simp)]
    exact ⟨_, rfl, rfl, log_history_alias _ _⟩

/-- Witness for C9: the lines `exit` and `exit now` in a session whose status is 1. -/
theorem C9_exit_sole_command_witness :
    process_command (example_os [] []) (0 + 1) "exit\n".toList
        { initial_shell "/".toList none with rc := 1 } =
      some (Outcome.exited 1 (log_history "exit".toList
        { initial_shell "/".toList none with rc := 1 })) ∧
    ∃ sh', process_command (example_os [] []) (0 + 1) "exit now\n".toList
        (initial_shell "/".toList none) = some (Outcome.returned sh') ∧
      sh'.rc = EXIT_FAILURE ∧ sh'.alias_hm = (initial_shell "/".toList none).alias_hm :=
  ⟨(C9_exit_sole_command (example_os [] []) 0 { initial_shell "/".toList none with rc := 1 }
      "exit\n".toList (by decide)).1 (by decide),
    (C9_exit_sole_command (example_os [] []) 0 (initial_shell "/".toList none)
      "exit now\n".toList (by decide)).2.2 "now".toList [] (by decide)⟩

/-- Counterexample to C9 as stated: the pipe-free line `exit`, space, tab has the
two tokens `exit` and a tab, so its first token is followed by an argument, and
yet `process_command` terminates the process (with the status 0 of the session)
instead of reporting a usage error. -/
theorem C9_counterexample :
    '|' ∉ "exit \t".toList ∧
      (parseline_no_subst "exit \t".toList).argv = ["exit".toList, ['\t']] ∧
      process_command (example_os [] []) 1 "exit \t".toList (initial_shell "/".toList none) =
        some (Outcome.exited 0 (log_history "exit".toList (initial_shell "/".toList none))) := by
  decide

/-! ## C10 -/

theorem da_get_of_holds (da : DynamicArray) (entries : List (List Char))
    (h : da_holds da entries) (i : Nat) (hi : i < entries.length) :
    da_get da i = Ptr.str (entries.getD i []) := by
  obtain ⟨h1, h2⟩ := h
  unfold da_get
  have e1 : (da.data.take da.size).getD i Ptr.wild = da.data.getD i Ptr.wild := by
    simp only [List.getD_eq_getElem?_getD]
    rw [List.getElem?_take_of_lt (by omega)]
  rw [← e1, h2]
  simp [List.getD_eq_getElem?_getD, List.getElem?_map, hi]

theorem map_range_getD (entries : List (List Char)) (n : Nat) (hn : n ≤ entries.length) :
    (List.range n).map (fun i => entries.getD i []) = entries.take n := by
  apply List.ext_getElem
  · simp [hn]
  · intro i h1 h2
    simp at h1
    simp [List.getD_eq_getElem?_getD, List.getElem?_eq_getElem (show i < entries.length by omega)]

/-- C10: history listing.  When the history log holds the `c` entries given,
`builtin_history` without argument prints exactly the first `c - 1` of them, in
order, each followed by a newline, and returns success; with `c ≤ 1` it prints
nothing. -/
theorem C10_history_listing (sh : Shell) (name : List Char) (entries : List (List Char))
    (h : da_holds sh.history_da entries) :
    builtin_history [name] sh =
        (EXIT_SUCCESS, { sh with out := sh.out ++
          (entries.take (entries.length - 1)).map (fun e => OutItem.text (e ++ ['\n'])) }) ∧
      (entries.length ≤ 1 → builtin_history [name] sh = (EXIT_SUCCESS, sh)) := by
  have hsize : sh.history_da.size = entries.length := h.1
  have key : builtin_history [name] sh =
      (EXIT_SUCCESS, { sh with out := sh.out ++
        (entries.take (entries.length - 1)).map (fun e => OutItem.text (e ++ ['\n'])) }) := by
    have heff : (if sh.history_da.size > 0 then sh.history_da.size - 1 else 0)
        = entries.length - 1 := by
      rw [hsize]; split <;> omega
    simp only [builtin_history, List.length_singleton, if_true, heff]
    congr 3
    rw [← map_range_getD entries (entries.length - 1) (by omega), List.map_map]
    apply List.map_congr_left
    intro i hi
    simp only [List.mem_range] at hi
    simp [da_get_of_holds _ _ h i (by omega), printf_line]
  refine ⟨key, fun hc => ?_⟩
  rw [key]
  have : entries.length - 1 = 0 := by omega
  simp [this]

/-- Witness for C10: after the lines `a`, `b` and `history` the output is `a`
and then `b`. -/
theorem C10_history_listing_witness :
    output_after (run_lines (example_os [] [WaitStatus.exited 127]) 1
        ["a\n".toList, "b\n".toList, "history\n".toList] (initial_shell "/".toList none))
      = some [OutItem.text "a\n".toList, OutItem.text "b\n".toList] ∧
      builtin_history ["history".toList]
          { initial_shell "/".toList none with
            history_da := da_put (da_put (da_put (da_create 10) "a".toList) "b".toList)
              "history".toList } =
        (EXIT_SUCCESS,
          { initial_shell "/".toList none with
            history_da := da_put (da_put (da_put (da_create 10) "a".toList) "b".toList)
              "history".toList,
            out := [OutItem.text "a\n".toList, OutItem.text "b\n".toList] }) :=
  ⟨by decide,
    (C10_history_listing
      { initial_shell "/".toList none with
        history_da := da_put (da_put (da_put (da_create 10) "a".toList) "b".toList)
          "history".toList }
      "history".toList ["a".toList, "b".toList, "history".toList] (by decide)).1⟩

/-! ## `strtol` and the argument of `history` -/

theorem digit_val_eq (c : Char) :
    digit_val c = if is_digit c then some (c.toNat - '0'.toNat) else none := by
  unfold digit_val is_digit
  by_cases h : '0' ≤ c ∧ c ≤ '9' <;> simp [h]

/-- The digit loop reads the longest run of digits. -/
theorem strtol_digits_eq (ds : List Char) : ∀ (acc : Nat) (seen : Bool),
    strtol_digits ds acc seen =
      ((ds.takeWhile is_digit).foldl (fun a c => a * 10 + (c.toNat - '0'.toNat)) acc,
        seen || !(ds.takeWhile is_digit).isEmpty, ds.dropWhile is_digit) := by
  induction ds with
  | nil => intro acc seen; simp [strtol_digits]
  | cons c cs ih =>
    intro acc seen
    rw [strtol_digits, digit_val_eq]
    by_cases h : is_digit c = true
    · simp only [h, if_true]
      rw [ih]
      simp [List.takeWhile_cons, List.dropWhile_cons, h]
    · simp only [h, Bool.false_eq_true, if_false]
      simp [List.takeWhile_cons, List.dropWhile_cons, h]

theorem strtol_digits_all (ds : List Char) (hne : ds ≠ []) (hall : ds.all is_digit = true) :
    strtol_digits ds 0 false = (decimal_value ds, true, []) := by
  have ht : ds.takeWhile is_digit = ds := by
    rw [List.takeWhile_eq_self_iff]
    exact fun x hx => List.all_eq_true.1 hall x hx
  have hd : ds.dropWhile is_digit = [] := by
    rw [List.dropWhile_eq_nil_iff]
    exact fun x hx => List.all_eq_true.1 hall x hx
  rw [strtol_digits_eq, ht, hd]
  cases ds with
  | nil => exact absurd rfl hne
  | cons c cs => simp [decimal_value]

theorem strtol_digits_not_all (ds : List Char) (h : ¬ (ds ≠ [] ∧ ds.all is_digit = true)) :
    (strtol_digits ds 0 false).2.1 = false ∨ (strtol_digits ds 0 false).2.2 ≠ [] := by
  rw [strtol_digits_eq]
  simp only [Bool.false_or]
  by_cases hd : ds.dropWhile is_digit = []
  · left
    have hall : ds.all is_digit = true := by
      rw [List.all_eq_true]
      exact List.dropWhile_eq_nil_iff.1 hd
    have hnil : ds = [] := by
      by_contra hne
      exact h ⟨hne, hall⟩
    subst hnil
    rfl
  · exact Or.inr hd


theorem LONG_MAX_pos : (0 : Int) < LONG_MAX := by decide

theorem clamp_nonneg (v : Nat) (h : (v : Int) ≤ LONG_MAX) :
    max (-LONG_MAX - 1) (min LONG_MAX (v : Int)) = (v : Int) := by
  have := LONG_MAX_pos
  rw [min_eq_right h, max_eq_right (by omega)]

theorem clamp_big (v : Nat) (h : LONG_MAX < (v : Int)) :
    max (-LONG_MAX - 1) (min LONG_MAX (v : Int)) = LONG_MAX := by
  have := LONG_MAX_pos
  rw [min_eq_left (by omega), max_eq_right (by omega)]

theorem clamp_neg (v : Nat) : max (-LONG_MAX - 1) (min LONG_MAX (-(v : Int))) < 1 := by
  have := LONG_MAX_pos
  have h1 : min LONG_MAX (-(v : Int)) ≤ 0 := le_trans (min_le_right _ _) (by omega)
  exact lt_of_le_of_lt (max_le (by omega) h1) (by omega)


theorem strtol_minus (w r : List Char) (hb : w.dropWhile isspace = '-' :: r) :
    strtol w = match strtol_digits r 0 false with
      | (_, false, _) => (0, w)
      | (v, true, rest) => (max (-LONG_MAX - 1) (min LONG_MAX (-(v : Int))), rest) := by
  rw [strtol, hb]
  rfl

theorem strtol_plus (w r : List Char) (hb : w.dropWhile isspace = '+' :: r) :
    strtol w = match strtol_digits r 0 false with
      | (_, false, _) => (0, w)
      | (v, true, rest) => (max (-LONG_MAX - 1) (min LONG_MAX (v : Int)), rest) := by
  rw [strtol, hb]
  rfl

theorem strtol_other (w body : List Char) (hb : w.dropWhile isspace = body)
    (h1 : ∀ r, body ≠ '-' :: r) (h2 : ∀ r, body ≠ '+' :: r) :
    strtol w = match strtol_digits body 0 false with
      | (_, false, _) => (0, w)
      | (v, true, rest) => (max (-LONG_MAX - 1) (min LONG_MAX (v : Int)), rest) := by
  rw [strtol, hb]
  simp only
  simp only [Bool.false_eq_true, if_false]

theorem history_index_plus (w r : List Char) (hb : w.dropWhile isspace = '+' :: r) :
    history_index w =
      if r ≠ [] ∧ r.all is_digit = true then some (decimal_value r) else none := by
  rw [history_index, hb]
  rfl

theorem history_index_other (w body : List Char) (hb : w.dropWhile isspace = body)
    (h2 : ∀ r, body ≠ '+' :: r) :
    history_index w =
      if body ≠ [] ∧ body.all is_digit = true then some (decimal_value body) else none := by
  rw [history_index, hb]
  simp only


theorem is_digit_not_plus : is_digit '+' = false := by decide

theorem is_digit_not_minus : is_digit '-' = false := by decide

theorem all_digit_head (c : Char) (r : List Char) (h : (c :: r).all is_digit = true) :
    c ≠ '+' ∧ c ≠ '-' := by
  have hc : is_digit c = true := List.all_eq_true.1 h c (by simp)
  constructor
  · intro e; subst e; exact absurd hc (by decide)
  · intro e; subst e; exact absurd hc (by decide)

/-- What `strtol` returns on a word that `history_index` reads as `v`. -/
theorem strtol_of_index (w : List Char) (v : Nat) (h : history_index w = some v) :
    strtol w = (max (-LONG_MAX - 1) (min LONG_MAX (v : Int)), []) := by
  cases hb : w.dropWhile isspace with
  | nil =>
    rw [history_index_other w [] hb (by simp)] at h
    simp at h
  | cons c r =>
    by_cases hp : c = '+'
    · subst hp
      rw [history_index_plus w r hb] at h
      split at h
      · rename_i hd
        simp only [Option.some.injEq] at h
        subst h
        rw [strtol_plus w r hb, strtol_digits_all r hd.1 hd.2]
      · simp at h
    · rw [history_index_other w (c :: r) hb (by
        intro t e; exact hp (List.cons.inj e).1)] at h
      split at h
      · rename_i hd
        simp only [Option.some.injEq] at h
        subst h
        have hm := (all_digit_head c r hd.2).2
        rw [strtol_other w (c :: r) hb (by
          intro t e; exact hm (List.cons.inj e).1) (by
          intro t e; exact hp (List.cons.inj e).1), strtol_digits_all _ hd.1 hd.2]
      · simp at h

theorem strtol_digits_reject (ds w : List Char) (f : Nat → Int)
    (h : ¬ (ds ≠ [] ∧ ds.all is_digit = true)) (hw : w ≠ []) :
    (match strtol_digits ds 0 false with
      | (_, false, _) => ((0 : Int), w)
      | (v, true, rest) => (f v, rest)).2 ≠ [] := by
  rcases strtol_digits_not_all ds h with h1 | h1
  · generalize strtol_digits ds 0 false = res at h1
    obtain ⟨a, b, c⟩ := res
    simp only at h1
    subst h1
    exact hw
  · generalize strtol_digits ds 0 false = res at h1
    obtain ⟨a, b, c⟩ := res
    simp only at h1
    cases b with
    | false => exact hw
    | true => exact h1

/-- A word that `history_index` does not read is rejected by the test on the
result of `strtol`. -/
theorem strtol_of_no_index (w : List Char) (h : history_index w = none) :
    (strtol w).2 ≠ [] ∨ (strtol w).1 < 1 := by
  cases hb : w.dropWhile isspace with
  | nil =>
    right
    rw [strtol_other w [] hb (by simp) (by simp)]
    simp [strtol_digits]
  | cons c r =>
    have hw : w ≠ [] := by
      intro e; subst e; simp at hb
    by_cases hp : c = '+'
    · subst hp
      rw [history_index_plus w r hb] at h
      left
      rw [strtol_plus w r hb]
      exact strtol_digits_reject r w _ (by
        intro hd
        rw [if_pos hd] at h
        simp at h) hw
    · by_cases hm : c = '-'
      · subst hm
        rw [strtol_minus w r hb]
        generalize strtol_digits r 0 false = res
        obtain ⟨a, b, rest⟩ := res
        cases b with
        | false => right; simp
        | true => right; exact clamp_neg a
      · rw [history_index_other w (c :: r) hb (by
          intro t e; exact hp (List.cons.inj e).1)] at h
        left
        rw [strtol_other w (c :: r) hb (by
          intro t e; exact hm (List.cons.inj e).1) (by
          intro t e; exact hp (List.cons.inj e).1)]
        exact strtol_digits_reject (c :: r) w _ (by
          intro hd
          rw [if_pos hd] at h
          simp at h) hw


theorem builtin_history_two (name w : List Char) (sh : Shell) :
    builtin_history [name, w] sh =
      if (strtol w).2 ≠ [] ∨ (strtol w).1 < 1 ∨ (strtol w).1 > (sh.history_da.size : Int) then
        (EXIT_FAILURE, sh.eprint "Invalid argument passed to history\n".toList)
      else
        (EXIT_SUCCESS, sh.print (printf_line (da_get sh.history_da ((strtol w).1 - 1).toNat))) := by
  simp [builtin_history]

/-- The result of `history w`, told from what `history_index` reads in `w`. -/
theorem builtin_history_index (sh : Shell) (name w : List Char) (entries : List (List Char))
    (h : da_holds sh.history_da entries) (hc : (entries.length : Int) < LONG_MAX) :
    builtin_history [name, w] sh =
      match history_index w with
      | some n =>
        if 1 ≤ n ∧ n ≤ entries.length then
          (EXIT_SUCCESS, sh.print (OutItem.text (entries.getD (n - 1) [] ++ ['\n'])))
        else (EXIT_FAILURE, sh.eprint "Invalid argument passed to history\n".toList)
      | none => (EXIT_FAILURE, sh.eprint "Invalid argument passed to history\n".toList) := by
  have hsize : sh.history_da.size = entries.length := h.1
  rw [builtin_history_two, hsize]
  cases hi : history_index w with
  | none =>
    simp only
    rcases strtol_of_no_index w hi with h1 | h1
    · rw [if_pos (Or.inl h1)]
    · rw [if_pos (Or.inr (Or.inl h1))]
  | some v =>
    simp only
    rw [strtol_of_index w v hi]
    simp only [ne_eq, not_true_eq_false, false_or]
    by_cases hv : (v : Int) ≤ LONG_MAX
    · rw [clamp_nonneg v hv]
      by_cases hr : 1 ≤ v ∧ v ≤ entries.length
      · rw [if_pos hr, if_neg (by omega)]
        have e : ((v : Int) - 1).toNat = v - 1 := by omega
        rw [e, da_get_of_holds _ _ h (v - 1) (by omega)]
        rfl
      · rw [if_neg hr, if_pos (by omega)]
    · rw [clamp_big v (by omega), if_pos (Or.inr (by omega)), if_neg (by omega)]

theorem history_index_digits (digits : List Char) (hne : digits ≠ [])
    (hall : digits.all is_digit = true) : history_index digits = some (decimal_value digits) := by
  cases digits with
  | nil => exact absurd rfl hne
  | cons c r =>
    have hc : is_digit c = true := List.all_eq_true.1 hall c (by simp)
    have hsp : isspace c = false := by
      cases hs : isspace c with
      | false => rfl
      | true =>
        exfalso
        simp only [isspace, Bool.or_eq_true, decide_eq_true_eq] at hs
        rcases hs with ((((e | e) | e) | e) | e) | e <;> (subst e; exact absurd hc (by decide))
    have hb : (c :: r).dropWhile isspace = c :: r := by
      rw [List.dropWhile_cons_of_neg (by simp [hsp])]
    rw [history_index_other _ _ hb (by
      intro t e
      exact (all_digit_head c r hall).1 (List.cons.inj e).1), if_pos ⟨hne, hall⟩]

/-! ## C11 -/

/-- C11 as amended: `history w` reads `w` the way `strtol` does - leading
whitespace and one plus sign are passed over, and what follows must be one or
more decimal digits up to the end of the word, denoting `n`.  With a history log
of `c` entries (`c` below `LONG_MAX`) it returns success and prints exactly entry
`n` when `1 ≤ n ≤ c`, and returns failure printing nothing for every other word;
in particular a word of decimal digits only with `1 ≤ n ≤ c` (also `n = c`) prints
entry `n`.  More than one argument is a usage error. -/
theorem C11_indexed_history (sh : Shell) (name w : List Char) (entries : List (List Char))
    (h : da_holds sh.history_da entries) (hc : (entries.length : Int) < LONG_MAX) :
    (builtin_history [name, w] sh =
      match history_index w with
      | some n =>
        if 1 ≤ n ∧ n ≤ entries.length then
          (EXIT_SUCCESS, sh.print (OutItem.text (entries.getD (n - 1) [] ++ ['\n'])))
        else (EXIT_FAILURE, sh.eprint "Invalid argument passed to history\n".toList)
      | none => (EXIT_FAILURE, sh.eprint "Invalid argument passed to history\n".toList)) ∧
    (∀ digits, digits ≠ [] → digits.all is_digit = true →
      1 ≤ decimal_value digits → decimal_value digits ≤ entries.length →
      builtin_history [name, digits] sh =
        (EXIT_SUCCESS,
          sh.print (OutItem.text (entries.getD (decimal_value digits - 1) [] ++ ['\n'])))) ∧
    (∀ more, more ≠ [] →
      builtin_history (name :: w :: more) sh = (EXIT_FAILURE, sh.eprint USAGE_HISTORY)) := by
  refine ⟨builtin_history_index sh name w entries h hc, ?_, ?_⟩
  · intro digits hne hall h1 h2
    rw [builtin_history_index sh name digits entries h hc, history_index_digits digits hne hall]
    simp only
    rw [if_pos ⟨h1, h2⟩]
  · intro more hne
    cases more with
    | nil => exact absurd rfl hne
    | cons m ms => simp [builtin_history]

/-- Witness for C11: with the entries `a`, `b`, `history 3` the word `3` prints
the third entry and the word `4` is rejected. -/
theorem C11_indexed_history_witness :
    builtin_history ["history".toList, "3".toList]
        { initial_shell "/".toList none with
          history_da := da_put (da_put (da_put (da_create 10) "a".toList) "b".toList)
            "history 3".toList } =
      (EXIT_SUCCESS,
        { initial_shell "/".toList none with
          history_da := da_put (da_put (da_put (da_create 10) "a".toList) "b".toList)
            "history 3".toList,
          out := [OutItem.text "history 3\n".toList] }) :=
  ((C11_indexed_history
      { initial_shell "/".toList none with
        history_da := da_put (da_put (da_put (da_create 10) "a".toList) "b".toList)
          "history 3".toList }
      "history".toList "3".toList ["a".toList, "b".toList, "history 3".toList]
      (by decide) (by decide)).2.1 "3".toList (by decide) (by decide) (by decide)
      (by decide)).trans (by decide)

/-- Counterexample to C11 as stated: the word made of a tab and `1` is not a
decimal integer, yet after the lines `a` and `b` the line `history`, space, tab,
`1` prints entry 1 and sets the status to success. -/
theorem C11_counterexample :
    is_decimal ['\t', '1'] = false ∧
      (parseline_no_subst "history \t1\n".toList).argv = ["history".toList, ['\t', '1']] ∧
      output_after (run_lines (example_os [] [WaitStatus.exited 127]) 1
        ["a\n".toList, "b\n".toList, "history \t1\n".toList] (initial_shell "/".toList none))
        = some [OutItem.text "a\n".toList] ∧
      status_after (run_lines (example_os [] [WaitStatus.exited 127]) 1
        ["a\n".toList, "b\n".toList, "history \t1\n".toList] (initial_shell "/".toList none))
        = some EXIT_SUCCESS := by
  decide

/-! ## C17 -/

/-- C17: builtin usage errors are atomic.  `cd` and `path` with more than one
argument, `which` and `unalias` with an argument count other than one, `alias`
with exactly one argument, or with a second word other than `=`, or with the name
`=`, and `history` with more than one argument return failure, and the session
differs from the one before only by the usage message on the error stream: the
working directory, `PATH`, the alias store and the history log are as they were. -/
theorem C17_usage_errors_atomic (os : OS) (sh : Shell) (argv : List (List Char)) :
    (argv.length > 2 → built_in_cd os argv sh = (EXIT_FAILURE, sh.eprint USAGE_CD)) ∧
    (argv.length > 2 → built_in_path argv sh = (EXIT_FAILURE, sh.eprint USAGE_PATH)) ∧
    (argv.length ≠ 2 → builtin_which os argv sh = (EXIT_FAILURE, sh.eprint USAGE_WHICH)) ∧
    (argv.length = 2 → builtin_alias argv sh = (EXIT_FAILURE, sh.eprint USAGE_ALIAS)) ∧
    (argv.length ≥ 3 → (argv.getD 2 [] ≠ "=".toList ∨ argv.getD 1 [] = "=".toList) →
      builtin_alias argv sh = (EXIT_FAILURE, sh.eprint USAGE_ALIAS)) ∧
    (argv.length ≠ 2 → builtin_unalias argv sh = (EXIT_FAILURE, sh.eprint USAGE_UNALIAS)) ∧
    (argv.length > 2 → builtin_history argv sh = (EXIT_FAILURE, sh.eprint USAGE_HISTORY)) ∧
    (∀ msg, (sh.eprint msg).cwd = sh.cwd ∧ (sh.eprint msg).env_PATH = sh.env_PATH ∧
      (sh.eprint msg).alias_hm = sh.alias_hm ∧ (sh.eprint msg).history_da = sh.history_da) := by
  refine ⟨?_, ?_, ?_, ?_, ?_, ?_, ?_, fun _ => ⟨rfl, rfl, rfl, rfl⟩⟩
  · intro h
    simp [built_in_cd, h]
  · intro h
    simp [built_in_path, h]
  · intro h
    simp [builtin_which, h]
  · intro h
    simp [builtin_alias, h]
  · intro h1 h2
    have e1 : argv.length ≠ 1 := by omega
    have e2 : ¬ argv.length < 3 := by omega
    simp only [builtin_alias, e1, e2, if_false, h2, if_true]
  · intro h
    simp [builtin_unalias, h]
  · intro h
    have e1 : argv.length ≠ 1 := by omega
    have e2 : argv.length ≠ 2 := by omega
    simp [builtin_history, e1, e2]

/-- Witness for C17: `cd a b` fails and leaves the working directory unchanged. -/
theorem C17_usage_errors_atomic_witness :
    built_in_cd { example_os [] [] with chdir := fun _ d => some d }
        ["cd".toList, "a".toList, "b".toList] (initial_shell "/".toList none) =
      (EXIT_FAILURE, (initial_shell "/".toList none).eprint USAGE_CD) ∧
    ((initial_shell "/".toList none).eprint USAGE_CD).cwd = "/".toList :=
  ⟨(C17_usage_errors_atomic { example_os [] [] with chdir := fun _ d => some d }
      (initial_shell "/".toList none) ["cd".toList, "a".toList, "b".toList]).1 (by decide),
    rfl⟩

/-! ## The value of an alias definition -/

theorem alias_join_fold (more : List (List Char)) : ∀ acc : List Char,
    alias_join acc more = acc ++ (more.map (fun x => ' ' :: x)).flatten := by
  induction more with
  | nil => intro acc; simp [alias_join]
  | cons m ms ih =>
    intro acc
    have := ih (append (append acc [' ']) m)
    simp only [alias_join, List.foldl_cons] at this ⊢
    rw [this]
    simp [append]

theorem intercalate_space (w : List Char) (more : List (List Char)) :
    [' '].intercalate (w :: more) = w ++ (more.map (fun x => ' ' :: x)).flatten := by
  induction more generalizing w with
  | nil => simp [List.intercalate]
  | cons m ms ih =>
    have := ih m
    simp only [List.intercalate, List.intersperse_cons_cons, List.flatten_cons] at this ⊢
    rw [this]
    simp

/-- The value the loop builds is the words joined by single spaces. -/
theorem alias_join_eq (w : List Char) (more : List (List Char)) :
    alias_join w more = [' '].intercalate (w :: more) := by
  rw [alias_join_fold, intercalate_space]

theorem alias_strip_wrapped (mid : List Char) :
    alias_strip ('\'' :: mid ++ ['\'']) = mid := by
  unfold alias_strip
  rw [if_pos]
  · simp
  · refine ⟨by simp, by simp, ?_⟩
    rw [List.getLast?_concat]

theorem alias_strip_other (val : List Char) (h : ¬ ∃ mid, val = '\'' :: mid ++ ['\'']) :
    alias_strip val = val := by
  unfold alias_strip
  rw [if_neg]
  rintro ⟨h1, h2, h3⟩
  apply h
  cases val with
  | nil => simp at h1
  | cons c r =>
    simp only [List.head?_cons, Option.some.injEq] at h2
    subst h2
    obtain ⟨ys, hys⟩ := List.getLast?_eq_some_iff.1 h3
    cases ys with
    | nil =>
      simp at hys
      rw [hys] at h1
      simp at h1
    | cons y ys' =>
      simp only [List.cons_append, List.cons.injEq] at hys
      exact ⟨ys', by rw [hys.2]; simp⟩

/-- Modelled from the spec: a key just written is found with the value written. -/
theorem hm_get_put (m : HashMap) (k v : List Char) : hm_get (hm_put m k v) k = some v := by
  simp [hm_get, hm_put]

theorem getD_last (a b c w1 : List Char) (rest : List (List Char)) :
    (a :: b :: c :: w1 :: rest).getD ((a :: b :: c :: w1 :: rest).length - 1) []
      = ((w1 :: rest).getLast?).getD [] := by
  rw [List.getD_eq_getElem?_getD, ← List.getLast?_eq_getElem?]
  simp [List.getLast?_cons_cons]


/-! ## C16 -/

/-- C16 as amended: `builtin_alias` on `alias NAME = w1 .. wk` with a name other
than `=` and `k ≥ 1` non-empty words.  When `k ≥ 2` and `w1` does not begin with a
single quote or `wk` does not end with one, the call returns failure and the
store is unchanged; otherwise it returns success and `NAME` is mapped to the
words joined by single spaces, without its first and last character when the
joined text is wrapped in single quotes.  `alias NAME =` maps `NAME` to the empty
string. -/
theorem C16_alias_value_rule (sh : Shell) (NAME w1 : List Char) (rest : List (List Char))
    (hname : NAME ≠ "=".toList) (_hwords : ∀ w ∈ w1 :: rest, w ≠ []) :
    ((rest ≠ [] ∧ (w1.head? ≠ some '\'' ∨
          ((w1 :: rest).getLast?.getD []).getLast? ≠ some '\'')) →
        builtin_alias ("alias".toList :: NAME :: "=".toList :: w1 :: rest) sh
          = (EXIT_FAILURE, sh.eprint USAGE_ALIAS) ∧
        (sh.eprint USAGE_ALIAS).alias_hm = sh.alias_hm) ∧
    (¬ (rest ≠ [] ∧ (w1.head? ≠ some '\'' ∨
          ((w1 :: rest).getLast?.getD []).getLast? ≠ some '\'')) →
        ∃ value,
          builtin_alias ("alias".toList :: NAME :: "=".toList :: w1 :: rest) sh
            = (EXIT_SUCCESS, { sh with alias_hm := hm_put sh.alias_hm NAME value }) ∧
          hm_get (hm_put sh.alias_hm NAME value) NAME = some value ∧
          (∀ mid, [' '].intercalate (w1 :: rest) = '\'' :: mid ++ ['\''] → value = mid) ∧
          ((¬ ∃ mid, [' '].intercalate (w1 :: rest) = '\'' :: mid ++ ['\'']) →
            value = [' '].intercalate (w1 :: rest))) ∧
    (builtin_alias ["alias".toList, NAME, "=".toList] sh
        = (EXIT_SUCCESS, { sh with alias_hm := hm_put sh.alias_hm NAME [] }) ∧
      hm_get (hm_put sh.alias_hm NAME []) NAME = some []) := by
  have hname2 : NAME ≠ ['='] := hname
  have hunf : builtin_alias ("alias".toList :: NAME :: "=".toList :: w1 :: rest) sh =
      if rest ≠ [] ∧ (w1.head? ≠ some '\'' ∨
          ((w1 :: rest).getLast?.getD []).getLast? ≠ some '\'') then
        (EXIT_FAILURE, sh.eprint USAGE_ALIAS)
      else
        (EXIT_SUCCESS,
          { sh with
            alias_hm := hm_put sh.alias_hm NAME (alias_strip ([' '].intercalate (w1 :: rest))) })
          := by
    rw [builtin_alias, getD_last]
    simp only [List.length_cons, List.getD_cons_zero, List.getD_cons_succ, List.drop_succ_cons,
      List.drop_zero, alias_join_eq]
    have e1 : ¬ (rest.length + 1 + 1 + 1 + 1 = 1) := by omega
    have e2 : ¬ (rest.length + 1 + 1 + 1 + 1 < 3) := by omega
    have e3 : ¬ (rest.length + 1 + 1 + 1 + 1 = 3) := by omega
    have e4 : (rest.length + 1 + 1 + 1 + 1 > 4) ↔ rest ≠ [] := by
      cases rest <;> simp
    simp only [e1, e2, e3, if_false, hname, ne_eq, not_true_eq_false, or_self, e4]
  refine ⟨fun hc => ⟨by rw [hunf, if_pos hc], rfl⟩, fun hc => ?_, ?_, hm_get_put _ _ _⟩
  · refine ⟨alias_strip ([' '].intercalate (w1 :: rest)), by rw [hunf, if_neg hc],
      hm_get_put _ _ _, ?_, ?_⟩
    · intro mid e
      rw [e, alias_strip_wrapped]
    · intro hno
      exact alias_strip_other _ hno
  · simp [builtin_alias, hname2]


/-- Witness for C16: `alias ll = 'ls -la'` read as the four words given by
hand, and `alias ll = ls -la`, which is rejected. -/
theorem C16_alias_value_rule_witness :
    (∃ value,
      builtin_alias ["alias".toList, "ll".toList, "=".toList, "'ls".toList, "-la'".toList]
          (initial_shell "/".toList none)
        = (EXIT_SUCCESS,
            { initial_shell "/".toList none with alias_hm := hm_put [] "ll".toList value }) ∧
      value = "ls -la".toList) ∧
    builtin_alias ["alias".toList, "ll".toList, "=".toList, "ls".toList, "-la".toList]
        (initial_shell "/".toList none)
      = (EXIT_FAILURE, (initial_shell "/".toList none).eprint USAGE_ALIAS) := by
  obtain ⟨value, h1, _, h3, _⟩ :=
    (C16_alias_value_rule (initial_shell "/".toList none) "ll".toList "'ls".toList
      ["-la'".toList] (by decide) (by decide)).2.1 (by decide)
  exact ⟨⟨value, h1, h3 "ls -la".toList (by decide)⟩,
    ((C16_alias_value_rule (initial_shell "/".toList none) "ll".toList "ls".toList
      ["-la".toList] (by decide) (by decide)).1 (by decide)).1⟩

/-- Counterexample to C16 as stated: the vector `alias = = x` has the shape
`alias NAME = w1` with one value word, yet the call returns failure and maps
nothing. -/
theorem C16_counterexample :
    builtin_alias ["alias".toList, "=".toList, "=".toList, "x".toList]
        (initial_shell "/".toList none)
      = (EXIT_FAILURE, (initial_shell "/".toList none).eprint USAGE_ALIAS) ∧
    hm_get ((initial_shell "/".toList none).eprint USAGE_ALIAS).alias_hm "=".toList = none := by
  decide


/-! ## The command classifier (C18) -/

theorem builtin_name_iff (name : List Char) :
    builtin_is_builtin_name name = true ↔ name ∈ builtin_names := by
  simp [builtin_is_builtin_name, builtin_names, or_assoc]

theorem is_path_like_iff (w : List Char) : is_path_like w = true ↔ path_prefixed w := by
  unfold path_prefixed
  cases w with
  | nil => simp [is_path_like]
  | cons c r =>
    by_cases h1 : c = '/'
    · subst h1
      simp [is_path_like]
    · cases r with
      | nil =>
        by_cases h2 : c = '.'
        · subst h2; simp [is_path_like]
        · simp [is_path_like, h1]
      | cons d r2 =>
        by_cases h2 : c = '.'
        · subst h2
          by_cases h3 : d = '/'
          · subst h3; simp [is_path_like]
          · simp [is_path_like, h3]
        · simp [is_path_like, h1, h2]

theorem find_in_path_eq (os : OS) (sh : Shell) (cmd : List Char) :
    find_in_path os sh cmd =
      ((path_dirs sh.env_PATH).find? (fun d => os.access_x sh.cwd (candidate d cmd))).map
        (fun d => candidate d cmd) := by
  unfold find_in_path path_dirs
  cases sh.env_PATH with
  | none => rfl
  | some p =>
    simp only [List.find?_map]
    rfl

theorem command_exists_cons (os : OS) (sh : Shell) (a0 : List Char) (rest : List (List Char))
    (h0 : a0 ≠ []) :
    command_exists os sh (a0 :: rest) =
      if builtin_is_builtin_name a0 then true
      else if is_path_like a0 then os.access_x sh.cwd a0
      else (find_in_path os sh a0).isSome := by
  cases a0 with
  | nil => exact absurd rfl h0
  | cons c r => rfl

/-- C18, for a non-empty `argv[0]`: `command_exists` is true exactly when
`argv[0]` is one of the seven builtin names, or begins with `/` or `./` and that
exact path is executable, or has neither beginning and some directory `d` of the
colon-separated `PATH` has the candidate `d/argv[0]` (as it fits the 1024-byte
buffer) executable; `find_in_path` reports the candidate of the first such
directory in listed order. An absent or empty `argv[0]` is never a command. -/
theorem C18_command_classifier (os : OS) (sh : Shell) (a0 : List Char)
    (rest : List (List Char)) (h0 : a0 ≠ []) :
    (command_exists os sh (a0 :: rest) = true ↔
      a0 ∈ builtin_names ∨
      (path_prefixed a0 ∧ os.access_x sh.cwd a0 = true) ∨
      (¬ path_prefixed a0 ∧
        ∃ d ∈ path_dirs sh.env_PATH, os.access_x sh.cwd (candidate d a0) = true)) ∧
    (∀ buf, find_in_path os sh a0 = some buf ↔
      ∃ before d after, path_dirs sh.env_PATH = before ++ d :: after ∧
        buf = candidate d a0 ∧ os.access_x sh.cwd (candidate d a0) = true ∧
        ∀ e ∈ before, os.access_x sh.cwd (candidate e a0) = false) ∧
    command_exists os sh [] = false ∧
    command_exists os sh ([] :: rest) = false := by
  refine ⟨?_, ?_, rfl, rfl⟩
  · rw [command_exists_cons os sh a0 rest h0]
    by_cases hb : builtin_is_builtin_name a0 = true
    · simp [hb, (builtin_name_iff a0).1 hb]
    · have hb2 : a0 ∉ builtin_names := fun h => hb ((builtin_name_iff a0).2 h)
      by_cases hp : is_path_like a0 = true
      · have hp2 := (is_path_like_iff a0).1 hp
        simp [hb, hp, hb2, hp2]
      · have hp2 : ¬ path_prefixed a0 := fun h => hp ((is_path_like_iff a0).2 h)
        simp [hb, hp, hb2, hp2, find_in_path_eq]
  · intro buf
    rw [find_in_path_eq]
    constructor
    · intro h
      rcases Option.map_eq_some'.1 h with ⟨d, hd, hbuf⟩
      rcases List.find?_eq_some.1 hd with ⟨hacc, as, bs, hsplit, hfirst⟩
      refine ⟨as, d, bs, hsplit, hbuf.symm, hacc, ?_⟩
      intro e he
      have := hfirst e he
      simpa using this
    · rintro ⟨as, d, bs, hsplit, hbuf, hacc, hfirst⟩
      have : (path_dirs sh.env_PATH).find? (fun d => os.access_x sh.cwd (candidate d a0))
          = some d := by
        rw [List.find?_eq_some]
        refine ⟨hacc, as, bs, hsplit, ?_⟩
        intro e he
        simp [hfirst e he]
      rw [this, hbuf]; rfl

/-- Witness for C18: with `PATH` set to `/usr/bin:/bin` and only `/bin/ls`
executable, `ls` is a command and the search reports `/bin/ls`. -/
theorem C18_command_classifier_witness :
    command_exists (example_os ["/bin/ls".toList] [])
        { initial_shell "/".toList none with env_PATH := some "/usr/bin:/bin".toList }
        ["ls".toList] = true ∧
      find_in_path (example_os ["/bin/ls".toList] [])
        { initial_shell "/".toList none with env_PATH := some "/usr/bin:/bin".toList }
        "ls".toList = some "/bin/ls".toList :=
  ⟨(C18_command_classifier (example_os ["/bin/ls".toList] [])
      { initial_shell "/".toList none with env_PATH := some "/usr/bin:/bin".toList }
      "ls".toList [] (by decide)).1.2
      (Or.inr (Or.inr ⟨by decide, "/bin".toList, by decide, by decide⟩)),
    ((C18_command_classifier (example_os ["/bin/ls".toList] [])
      { initial_shell "/".toList none with env_PATH := some "/usr/bin:/bin".toList }
      "ls".toList [] (by decide)).2.1 _).2
      ⟨["/usr/bin".toList], "/bin".toList, [], by decide, by decide, by decide, by decide⟩⟩

set_option maxRecDepth 1000000 in
/-- Counterexample to C18 as stated.  With `PATH` set to `/bin` and `/bin/`
executable, the empty `argv[0]` has neither beginning and the directory `/bin` of
`PATH` has `d/argv[0]` executable, yet `command_exists` is false.  And for an
`argv[0]` of 1019 letters `a`, with only `/bin/` followed by 1018 letters `a`
executable, `d/argv[0]` is executable for no directory of `PATH`, yet
`command_exists` is true: the candidate is cut to 1023 bytes. -/
theorem C18_counterexample :
    (command_exists (example_os ["/bin/".toList] []) (initial_shell "/".toList none) [[]]
        = false ∧
      ¬ path_prefixed [] ∧
      "/bin".toList ∈ path_dirs (initial_shell "/".toList none).env_PATH ∧
      (example_os ["/bin/".toList] []).access_x (initial_shell "/".toList none).cwd
        ("/bin".toList ++ '/' :: []) = true) ∧
    (command_exists (example_os ["/bin/".toList ++ List.replicate 1018 'a'] [])
        (initial_shell "/".toList none) [List.replicate 1019 'a'] = true ∧
      List.replicate 1019 'a' ∉ builtin_names ∧
      ¬ path_prefixed (List.replicate 1019 'a') ∧
      path_dirs (initial_shell "/".toList none).env_PATH = ["/bin".toList] ∧
      (example_os ["/bin/".toList ++ List.replicate 1018 'a'] []).access_x
        (initial_shell "/".toList none).cwd
        ("/bin".toList ++ '/' :: List.replicate 1019 'a') = false) := by
  decide


/-! ## Quoted spans (C19) -/

theorem render_written_head (w : List Char × Bool) (hw : written_ok w) :
    ∃ c r, render_word w = c :: r ∧ c ≠ ' ' := by
  obtain ⟨t, q⟩ := w
  cases q with
  | true => exact ⟨'\'', t ++ ['\''], by simp [render_word], by decide⟩
  | false =>
    obtain ⟨hne, hsp, _⟩ : t ≠ [] ∧ ' ' ∉ t ∧ t.head? ≠ some '\'' := by
      simpa [written_ok] using hw
    cases t with
    | nil => exact absurd rfl hne
    | cons c r =>
      refine ⟨c, r, by simp [render_word], ?_⟩
      intro e
      apply hsp
      simp [e]

theorem skip_spaces_written (ws : List (List Char × Bool)) (t : List Char)
    (hok : ∀ w ∈ ws, written_ok w) (ht : skip_spaces t = t) :
    skip_spaces (words_then ws t) = words_then ws t := by
  cases ws with
  | nil => simpa [words_then] using ht
  | cons w ws =>
    obtain ⟨c, r, hr, hc⟩ := render_written_head w (hok w (by simp))
    simp only [words_then, hr, List.cons_append]
    exact skip_spaces_cons_ne _ hc

/-- The loop reads the written words one by one and then goes on with `t`, also
when a bare word holds a quote after its first character. -/
theorem parse_loop_written (ws : List (List Char × Bool)) (t : List Char)
    (hok : ∀ w ∈ ws, written_ok w) (ht : skip_spaces t = t) (acc : List (List Char))
    (f1 f2 : Nat) (h1 : (words_then ws t).length < f1) (h2 : t.length < f2) :
    parse_loop f1 (words_then ws t) acc = parse_loop f2 t (acc ++ ws.map Prod.fst) := by
  induction ws generalizing acc f1 with
  | nil =>
    simp only [words_then, List.map_nil, List.append_nil] at h1 ⊢
    exact parse_loop_fuel _ _ _ _ h1 h2
  | cons w ws ih =>
    have hok' : ∀ v ∈ ws, written_ok v := fun v hv => hok v (by simp [hv])
    have hskip := skip_spaces_written ws t hok' ht
    have hw := hok w (by simp)
    obtain ⟨txt, q⟩ := w
    cases f1 with
    | zero => omega
    | succ n =>
      cases q with
      | true =>
        have hnq : '\'' ∉ txt := by simpa [written_ok] using hw
        have e : words_then ((txt, true) :: ws) t
            = '\'' :: (txt ++ '\'' :: ' ' :: words_then ws t) := by
          simp [words_then, render_word]
        have hlen : (words_then ws t).length < n := by
          rw [e] at h1; simp at h1; omega
        rw [e, parse_loop, if_pos rfl, strchr_append txt _ hnq]
        simp only [skip_spaces_cons_space, hskip]
        rw [ih hok' (acc ++ [txt]) n hlen]
        simp
      | false =>
        obtain ⟨hne, hsp, hhd⟩ : txt ≠ [] ∧ ' ' ∉ txt ∧ txt.head? ≠ some '\'' := by
          simpa [written_ok] using hw
        cases txt with
        | nil => exact absurd rfl hne
        | cons c r =>
          have hc : c ≠ '\'' := by
            intro e; apply hhd; simp [e]
          have e : words_then ((c :: r, false) :: ws) t
              = c :: (r ++ ' ' :: words_then ws t) := by
            simp [words_then, render_word]
          have hlen : (words_then ws t).length < n := by
            rw [e] at h1; simp at h1; omega
          rw [e, parse_loop, if_neg hc, ← List.cons_append, strchr_append (c :: r) _ hsp]
          simp only [hskip]
          rw [ih hok' (acc ++ [c :: r]) n hlen]
          simp

/-- A quote at the start of a token: the loop takes the text up to the next
quote as one token and goes on after it. -/
theorem parse_loop_quote (fuel : Nat) (body rest : List Char) (acc : List (List Char))
    (hbody : '\'' ∉ body) :
    parse_loop (fuel + 1) ('\'' :: (body ++ '\'' :: rest)) acc =
      parse_loop fuel (skip_spaces rest) (acc ++ [body]) := by
  rw [parse_loop, if_pos rfl, strchr_append body _ hbody]

/-- The loop with tokens already stored: it warns exactly when the loop started
with no token does, and otherwise appends the same tokens. -/
theorem parse_loop_acc (fuel : Nat) : ∀ (p : List Char) (acc : List (List Char)),
    parse_loop fuel p acc =
      if (parse_loop fuel p []).warned = true then ⟨[], true⟩
      else ⟨acc ++ (parse_loop fuel p []).argv, false⟩ := by
  induction fuel with
  | zero => intro p acc; simp [parse_loop]
  | succ n ih =>
    intro p acc
    cases p with
    | nil => simp [parse_loop]
    | cons c rest =>
      rw [parse_loop, parse_loop]
      split
      · cases hs : strchr '\'' rest with
        | none => simp
        | some tp =>
          obtain ⟨tok, q⟩ := tp
          simp only
          rw [ih (skip_spaces q) (acc ++ [tok]), ih (skip_spaces q) ([] ++ [tok])]
          split <;> simp
      · cases hs : strchr ' ' (c :: rest) with
        | none => simp
        | some tp =>
          obtain ⟨tok, q⟩ := tp
          simp only
          rw [ih (skip_spaces q) (acc ++ [tok]), ih (skip_spaces q) ([] ++ [tok])]
          split <;> simp

/-- The tokenizer on written words followed by a quoted span and a rest, in terms
of the tokenizer on the rest. -/
theorem parse_span_rest (ws : List (List Char × Bool)) (body rest : List Char)
    (hok : ∀ w ∈ ws, written_ok w) (hbody : '\'' ∉ body) :
    parseline_no_subst (words_then ws ('\'' :: (body ++ '\'' :: rest))) =
      if (parseline_no_subst rest).warned = true then ⟨[], true⟩
      else ⟨ws.map Prod.fst ++ body :: (parseline_no_subst rest).argv, false⟩ := by
  have e : parse_buf (words_then ws ('\'' :: (body ++ '\'' :: rest))) =
      words_then ws ('\'' :: (body ++ '\'' :: parse_buf rest)) := by
    have e1 : words_then ws ('\'' :: (body ++ '\'' :: rest)) =
        (words_then ws [] ++ '\'' :: body) ++ '\'' :: rest := by
      rw [words_then_append]; simp
    rw [e1, parse_buf_append_cons _ _ _ (by decide), words_then_append ws ('\'' :: _)]
    simp
  have hskip : skip_spaces ('\'' :: (body ++ '\'' :: parse_buf rest)) =
      '\'' :: (body ++ '\'' :: parse_buf rest) := skip_spaces_cons_ne _ (by decide)
  have hfuel : parse_loop (('\'' :: (body ++ '\'' :: parse_buf rest)).length)
      (skip_spaces (parse_buf rest)) [] = parseline_no_subst rest := by
    unfold parseline_no_subst
    have hl := skip_spaces_length (parse_buf rest)
    exact parse_loop_fuel _ _ _ _ (by simp; omega) (by omega)
  unfold parseline_no_subst
  rw [e, skip_spaces_written _ _ hok hskip,
    parse_loop_written ws _ hok hskip [] _
      (('\'' :: (body ++ '\'' :: parse_buf rest)).length + 1) (Nat.lt_succ_self _)
      (Nat.lt_succ_self _),
    parse_loop_quote _ _ _ _ hbody, parse_loop_acc, hfuel]
  unfold parseline_no_subst
  split <;> simp

theorem parseline_cons_space (t : List Char) :
    parseline_no_subst (' ' :: t) = parseline_no_subst t := by
  have e : parse_buf (' ' :: t) = ' ' :: parse_buf t :=
    parse_buf_append_cons [] t ' ' (by decide)
  unfold parseline_no_subst
  rw [e, skip_spaces_cons_space]
  have hl := skip_spaces_length (parse_buf t)
  exact parse_loop_fuel _ _ _ _ (by simp; omega) (by omega)

/-- Written words followed by a quote that is never closed give no token and a
warning. -/
theorem parse_unterminated_written (ws : List (List Char × Bool)) (tail : List Char)
    (hok : ∀ w ∈ ws, written_ok w) (htail : '\'' ∉ tail) :
    parseline_no_subst (words_then ws ('\'' :: tail)) = ⟨[], true⟩ := by
  have hq : '\'' ∉ parse_buf tail := by
    intro h
    rcases mem_parse_buf h with h | h
    · exact htail h
    · exact absurd h (by decide)
  have hskip : skip_spaces ('\'' :: parse_buf tail) = '\'' :: parse_buf tail :=
    skip_spaces_cons_ne _ (by decide)
  unfold parseline_no_subst
  rw [words_then_append, parse_buf_append_cons _ _ _ (by decide), ← words_then_append,
    skip_spaces_written _ _ hok hskip,
    parse_loop_written ws _ hok hskip [] _ ((parse_buf tail).length + 2) (Nat.lt_succ_self _)
      (by simp)]
  rw [parse_loop, if_pos rfl, strchr_none hq]

theorem hist_of_diag {a b : Shell} (h : diag_eq a b) : hist_of a = hist_of b := by
  unfold diag_eq at h
  have h1 := congrArg Shell.history_da h
  have h2 := congrArg Shell.suppress_history h
  simp only at h1 h2
  simp [hist_of, h1, h2]

theorem hist_of_cd (os : OS) (argv : List (List Char)) (sh : Shell) :
    hist_of (built_in_cd os argv sh).2 = hist_of sh := by
  unfold built_in_cd
  try dsimp only
  repeat' split
  all_goals rfl

theorem hist_of_path (argv : List (List Char)) (sh : Shell) :
    hist_of (built_in_path argv sh).2 = hist_of sh := by
  unfold built_in_path
  try dsimp only
  repeat' split
  all_goals rfl

theorem hist_of_which (os : OS) (argv : List (List Char)) (sh : Shell) :
    hist_of (builtin_which os argv sh).2 = hist_of sh := by
  unfold builtin_which
  try dsimp only
  repeat' split
  all_goals rfl

theorem hist_of_alias (argv : List (List Char)) (sh : Shell) :
    hist_of (builtin_alias argv sh).2 = hist_of sh := by
  unfold builtin_alias
  try dsimp only
  repeat' split
  all_goals rfl

theorem hist_of_unalias (argv : List (List Char)) (sh : Shell) :
    hist_of (builtin_unalias argv sh).2 = hist_of sh := by
  unfold builtin_unalias
  try dsimp only
  repeat' split
  all_goals rfl

theorem hist_of_history (argv : List (List Char)) (sh : Shell) :
    hist_of (builtin_history argv sh).2 = hist_of sh := by
  unfold builtin_history
  try dsimp only
  repeat' split
  all_goals rfl

theorem hist_of_prep_loop (os : OS) : ∀ (segs : List (List Char)) (sh : Shell) (inv : Bool)
    (argvs : List (List (List Char))),
    hist_of (prep_loop os segs sh inv argvs).2 = hist_of sh := by
  intro segs
  induction segs with
  | nil => intro sh inv argvs; rfl
  | cons seg rest ih =>
    intro sh inv argvs
    rw [prep_loop]
    simp only
    have he := hist_of_diag (expand_diag (trim_inplace seg) sh)
    split
    · rfl
    · have hp := hist_of_diag (parseline_diag (expand_alias_for_segment (trim_inplace seg) sh).1
        (expand_alias_for_segment (trim_inplace seg) sh).2)
      split
      next sh2 heq2 =>
        rw [heq2] at hp
        exact hp.trans he
      next a0 args sh2 heq2 =>
        rw [heq2] at hp
        split
        · rw [ih]; exact hp.trans he
        · rw [ih]; exact hp.trans he

theorem hist_of_make_pipes (os : OS) : ∀ (m k : Nat) (sh : Shell),
    hist_of (make_pipes os m k sh).2 = hist_of sh := by
  intro m
  induction m with
  | zero => intro k sh; rfl
  | succ m ih =>
    intro k sh
    rw [make_pipes]
    split
    · rw [ih]; rfl
    · rfl

theorem hist_of_fork_loop (os : OS) (n : Nat) : ∀ (argvs : List (List (List Char))) (i : Nat)
    (sh : Shell), hist_of (fork_loop os n argvs i sh) = hist_of sh := by
  intro argvs
  induction argvs with
  | nil => intro i sh; rfl
  | cons a rest ih =>
    intro i sh
    rw [fork_loop]
    split
    · rw [ih]; rfl
    · rw [ih]; rfl

theorem hist_of_run_pipeline (os : OS) (line : List Char) (sh : Shell) :
    hist_of (run_pipeline os line sh).2 = hist_of sh := by
  unfold run_pipeline
  cases hs : split_pipeline line MAX_PIPE_CMDS with
  | none => rfl
  | some segs =>
    simp only
    split
    · rfl
    · have hp := hist_of_prep_loop os segs sh false []
      split
      · exact hp
      · split
        · exact hp
        · have hm := hist_of_make_pipes os (segs.length - 1) 0 (prep_loop os segs sh false []).2
          split
          next sh2 heq2 =>
            rw [heq2] at hm
            exact hm.trans hp
          next sh2 heq2 =>
            rw [heq2] at hm
            have hf := hist_of_fork_loop os segs.length (prep_loop os segs sh false []).1.argvs 0 sh2
            exact (hf.trans hm).trans hp

theorem hist_of_run_external (os : OS) (argv : List (List Char)) (sh : Shell) :
    hist_of (run_external os argv sh) = hist_of sh := by
  unfold run_external
  try dsimp only
  repeat' split
  all_goals rfl

theorem take_set_succ {α : Type} (l : List α) (i : Nat) (a : α) (h : i < l.length) :
    (l.set i a).take (i + 1) = l.take i ++ [a] := by
  induction l generalizing i with
  | nil => simp at h
  | cons x xs ih =>
    cases i with
    | zero => simp
    | succ j =>
      simp only [List.length_cons] at h
      simp [ih j (by omega)]

theorem realloc_slots_length (data : List Ptr) (n : Nat) (h : data.length ≤ n) :
    (realloc_slots data n).length = n := by
  unfold realloc_slots
  simp
  omega

theorem realloc_slots_take (data : List Ptr) (n k : Nat) (h : data.length ≤ n)
    (hk : k ≤ data.length) : (realloc_slots data n).take k = data.take k := by
  unfold realloc_slots
  rw [List.take_take, Nat.min_eq_left (by omega), List.take_append_of_le_length hk]

/-- An append to a well-formed array adds the value after the entries held. -/
theorem da_put_holds (da : DynamicArray) (entries : List (List Char)) (v : List Char)
    (hwf : da_wf da) (h : da_holds da entries) :
    da_holds (da_put da v) (entries ++ [v]) ∧ da_wf (da_put da v) := by
  obtain ⟨hlen, hpos, hsz⟩ := hwf
  obtain ⟨hsize, htake⟩ := h
  unfold da_put da_holds da_wf
  by_cases hfull : da.size = da.capacity
  · simp only [hfull, if_true]
    have hl := realloc_slots_length da.data (da.capacity * 2) (by omega)
    refine ⟨⟨by simp [← hsize, hfull], ?_⟩, by simp [hl], by omega, by omega⟩
    rw [take_set_succ _ _ _ (by omega), realloc_slots_take _ _ _ (by omega) (by omega)]
    rw [hfull] at htake
    simp [htake]
  · simp only [hfull, if_false]
    refine ⟨⟨by simp [← hsize], ?_⟩, by simpa using hlen, hpos, by omega⟩
    rw [take_set_succ _ _ _ (by omega)]
    simp [htake]

theorem hist_of_log_history (line : List Char) (sh : Shell) :
    hist_of (log_history line sh) =
      (if sh.suppress_history = 0 then da_put sh.history_da line else sh.history_da,
        sh.suppress_history) := by
  unfold log_history
  split <;> simp [hist_of, *]

/-- What a returning call of `process_command` leaves in the log and in the
suppression counter. -/
theorem process_command_history (os : OS) : ∀ (fuel : Nat) (line : List Char) (sh sh' : Shell),
    process_command os fuel line sh = some (Outcome.returned sh') →
    0 ≤ sh.suppress_history →
    hist_of sh' =
      (if sh.suppress_history = 0 ∧ (parseline_no_subst (trim_whitespace line)).argv ≠ []
        then da_put sh.history_da (trim_whitespace line) else sh.history_da,
        sh.suppress_history) := by
  intro fuel
  induction fuel with
  | zero => intro line sh sh' h; simp [process_command] at h
  | succ n ih =>
    intro line sh sh' h hs
    rw [process_command] at h
    simp only at h
    by_cases hL : (trim_whitespace line).length = 0
    · simp only [hL, if_true] at h
      injection h with h; injection h with h
      subst h
      rw [List.length_eq_zero.1 hL, parseline_nil]
      simp [hist_of]
    · simp only [hL, if_false] at h
      have hpd := hist_of_diag (parseline_diag (trim_whitespace line) sh)
      have hpf := parseline_fst (trim_whitespace line) sh
      cases hp : parseline (trim_whitespace line) sh with
      | mk argv sh1 =>
      rw [hp] at hpd hpf
      simp only at hpd hpf
      cases argv with
      | nil =>
        rw [hp] at h
        simp only at h
        injection h with h; injection h with h
        subst h
        rw [← hpf, hpd]
        simp [hist_of]
      | cons a0 args =>
        rw [hp] at h
        simp only at h
        have hT : hist_of (log_history (trim_whitespace line) sh1) =
            (if sh.suppress_history = 0 ∧
                (parseline_no_subst (trim_whitespace line)).argv ≠ []
              then da_put sh.history_da (trim_whitespace line) else sh.history_da,
              sh.suppress_history) := by
          rw [hist_of_log_history, ← hpf]
          have h1 : sh1.history_da = sh.history_da := congrArg Prod.fst hpd
          have h2 : sh1.suppress_history = sh.suppress_history := congrArg Prod.snd hpd
          simp [h1, h2]
        generalize log_history (trim_whitespace line) sh1 = sh2 at h hT
        have hsup : sh2.suppress_history = sh.suppress_history := congrArg Prod.snd hT
        rw [← hT]
        split at h
        · injection h with h; injection h with h; subst h
          exact hist_of_run_pipeline os _ sh2
        split at h
        · split at h
          · injection h with h; injection h with h; subst h
            rfl
          · simp at h
        split at h
        · injection h with h; injection h with h; subst h
          exact hist_of_cd os _ sh2
        split at h
        · injection h with h; injection h with h; subst h
          exact hist_of_path _ sh2
        split at h
        · injection h with h; injection h with h; subst h
          exact hist_of_which os _ sh2
        split at h
        · injection h with h; injection h with h; subst h
          exact hist_of_alias _ sh2
        split at h
        · injection h with h; injection h with h; subst h
          exact hist_of_unalias _ sh2
        split at h
        · injection h with h; injection h with h; subst h
          exact hist_of_history _ sh2
        split at h
        · split at h
          · simp at h
          · simp at h
          · next aval _ sh3 hrec =>
            injection h with h; injection h with h; subst h
            have hi := ih _ _ _ hrec (by simp only; omega)
            have hne : ¬ (sh2.suppress_history + 1 = 0) := by omega
            simp only [hne, false_and, if_false] at hi
            have h1 : sh3.history_da = sh2.history_da := congrArg Prod.fst hi
            have h2 : sh3.suppress_history = sh2.suppress_history + 1 := congrArg Prod.snd hi
            simp [hist_of, h1, h2]
        · injection h with h; injection h with h; subst h
          exact hist_of_run_external os _ sh2


/-! ## History is logged once per line (C12) and what is logged (C20) -/

theorem rstrip_last (s : List Char) (d : Char) (h : (rstrip s).getLast? = some d) :
    isspace d = false := by
  unfold rstrip at h
  rw [List.getLast?_reverse] at h
  cases hd : s.reverse.dropWhile isspace with
  | nil => rw [hd] at h; simp at h
  | cons x xs =>
    rw [hd] at h
    simp at h
    subst h
    have := List.head_dropWhile_not isspace s.reverse (by rw [hd]; simp)
    simpa [hd] using this

theorem trim_whitespace_last (s : List Char) (d : Char)
    (h : (trim_whitespace s).getLast? = some d) : isspace d = false := by
  rw [trim_whitespace_eq, trim_inplace] at h
  exact rstrip_last _ _ h

/-- C12, with the line read as `process_command` reads it, that is with its
leading and trailing whitespace removed: when a top-level call (suppression
counter 0) on a well-formed log returns, the counter is 0 again and the log is
well-formed; if the trimmed line tokenizes to at least one token the log has
grown by exactly one entry, appended at the end, and the entry is the trimmed
user line - whether the line is a pipeline or a single command and whatever the
alias re-expansions did; if it yields no token (a blank line, an unterminated
quote) the log is unchanged. -/
theorem C12_history_once (os : OS) (fuel : Nat) (line : List Char) (sh sh' : Shell)
    (entries : List (List Char))
    (hret : process_command os fuel line sh = some (Outcome.returned sh'))
    (htop : sh.suppress_history = 0)
    (hwf : da_wf sh.history_da) (hold : da_holds sh.history_da entries) :
    sh'.suppress_history = 0 ∧ da_wf sh'.history_da ∧
    ((parseline_no_subst (trim_whitespace line)).argv ≠ [] →
      sh'.history_da = da_put sh.history_da (trim_whitespace line) ∧
      da_holds sh'.history_da (entries ++ [trim_whitespace line])) ∧
    ((parseline_no_subst (trim_whitespace line)).argv = [] →
      sh'.history_da = sh.history_da) ∧
    ((parseline_no_subst (trim_whitespace line)).warned = true →
      sh'.history_da = sh.history_da) ∧
    ((∀ c ∈ line, isspace c = true) → sh'.history_da = sh.history_da) := by
  have key := process_command_history os fuel line sh sh' hret (by omega)
  have h1 : sh'.history_da = _ := congrArg Prod.fst key
  have h2 : sh'.suppress_history = _ := congrArg Prod.snd key
  simp only [htop, true_and] at h1
  have hnil : (parseline_no_subst (trim_whitespace line)).argv = [] →
      sh'.history_da = sh.history_da := by
    intro h; rw [h1]; simp [h]
  refine ⟨h2.trans htop, ?_, ?_, hnil, ?_, ?_⟩
  · by_cases h : (parseline_no_subst (trim_whitespace line)).argv = []
    · rw [hnil h]; exact hwf
    · rw [h1, if_pos h]; exact (da_put_holds _ _ _ hwf hold).2
  · intro h
    rw [h1, if_pos h]
    exact ⟨rfl, (da_put_holds _ _ _ hwf hold).1⟩
  · intro h
    exact hnil (parseline_warned_argv _ h)
  · intro h
    apply hnil
    have : trim_whitespace line = [] := by
      unfold trim_whitespace
      rw [List.dropWhile_eq_nil_iff.2 h]
    rw [this, parseline_nil]

/-- Witness for C12: with the aliases `a` for `b x` and `b` for `ls`, the line
`a y` is expanded twice and logged once, as typed. -/
theorem C12_history_once_witness :
    process_command (example_os ["/bin/ls".toList] []) 3 "a y\n".toList
        (alias_session [("a".toList, "b x".toList), ("b".toList, "ls".toList)]) =
      some (Outcome.returned
        { alias_session [("a".toList, "b x".toList), ("b".toList, "ls".toList)] with
          history_da := da_put (da_create 10) "a y".toList,
          trace := [Sys.fork 0 (some [ChildOp.run ["ls".toList, "x".toList, "y".toList]
              (ProcEnd.execv "/bin/ls".toList ["ls".toList, "x".toList, "y".toList])]),
            Sys.waitpid 0] }) ∧
      da_holds (da_put (da_create 10) "a y".toList) ([] ++ [trim_whitespace "a y\n".toList]) :=
  ⟨by decide,
    ((C12_history_once (example_os ["/bin/ls".toList] []) 3 "a y\n".toList
      (alias_session [("a".toList, "b x".toList), ("b".toList, "ls".toList)])
      { alias_session [("a".toList, "b x".toList), ("b".toList, "ls".toList)] with
        history_da := da_put (da_create 10) "a y".toList,
        trace := [Sys.fork 0 (some [ChildOp.run ["ls".toList, "x".toList, "y".toList]
            (ProcEnd.execv "/bin/ls".toList ["ls".toList, "x".toList, "y".toList])]),
          Sys.waitpid 0] }
      [] (by decide) (by decide) (by decide) (by decide)).2.2.1 (by decide)).2⟩

/-- Counterexample to C12 as stated: the line made of a tab and a newline
tokenizes to one token, the tab; `process_command` on it returns and the log has
not grown. -/
theorem C12_counterexample :
    (parseline_no_subst "\t\n".toList).argv = ["\t".toList] ∧
      process_command (example_os [] []) 1 "\t\n".toList (initial_shell "/".toList none) =
        some (Outcome.returned (initial_shell "/".toList none)) ∧
      (initial_shell "/".toList none).history_da.size = 0 := by
  decide

/-- C20, as the code has it: when a top-level call on a line that reaches the
dispatch (its trimmed text yields a token) returns, the entry appended to the log
is the line with its leading and trailing whitespace removed - the newline is
part of that whitespace - and nothing else changed: the line is the entry between
two runs of whitespace, and the entry neither starts nor ends with whitespace.
For a line without leading or trailing whitespace other than its newline the
entry is the line without the newline. -/
theorem C20_history_content (os : OS) (fuel : Nat) (line : List Char) (sh sh' : Shell)
    (entries : List (List Char))
    (hret : process_command os fuel line sh = some (Outcome.returned sh'))
    (htop : sh.suppress_history = 0)
    (hwf : da_wf sh.history_da) (hold : da_holds sh.history_da entries)
    (hdisp : (parseline_no_subst (trim_whitespace line)).argv ≠ []) :
    da_holds sh'.history_da (entries ++ [trim_whitespace line]) ∧
    (∃ w1 w2, (∀ c ∈ w1, isspace c = true) ∧ (∀ c ∈ w2, isspace c = true) ∧
      line = w1 ++ trim_whitespace line ++ w2) ∧
    (∀ c, (trim_whitespace line).head? = some c → isspace c = false) ∧
    (∀ d, (trim_whitespace line).getLast? = some d → isspace d = false) ∧
    (∀ body, line = body ++ ['\n'] → (∀ c, body.head? = some c → isspace c = false) →
      (∀ d, body.getLast? = some d → isspace d = false) → trim_whitespace line = body) := by
  have key := process_command_history os fuel line sh sh' hret (by omega)
  have h1 : sh'.history_da = _ := congrArg Prod.fst key
  simp only [htop, true_and, if_pos hdisp] at h1
  refine ⟨?_, trim_decomp line, ?_, fun d hd => trim_whitespace_last line d hd, ?_⟩
  · rw [h1]; exact (da_put_holds _ _ _ hwf hold).1
  · intro c hc
    cases ht : trim_whitespace line with
    | nil => rw [ht] at hc; simp at hc
    | cons x xs =>
      rw [ht] at hc
      simp only [List.head?_cons, Option.some.injEq] at hc
      subst hc
      exact trim_whitespace_head line x xs ht
  · intro body hb hhead hlast
    subst hb
    cases body with
    | nil => decide
    | cons c r2 =>
      cases hl : (c :: r2).getLast? with
      | none => simp at hl
      | some d =>
        have hm : (c :: r2) = (c :: r2).dropLast ++ [d] :=
          (List.dropLast_append_getLast? d hl).symm
        have := trim_core [] ['\n'] (c :: r2).dropLast c d (c :: r2) (by simp)
          (by intro x hx; simp at hx; subst hx; decide) (hhead c rfl) (hlast d hl) hm rfl
        simpa using this

/-- Witness for C20: the line `ls  -l` with two leading spaces and a trailing
space is logged as `ls  -l`. -/
theorem C20_history_content_witness :
    da_holds (da_put (da_create 10) "ls  -l".toList)
      ([] ++ [trim_whitespace "  ls  -l \n".toList]) :=
  (C20_history_content (example_os ["/bin/ls".toList] []) 1 "  ls  -l \n".toList
    (initial_shell "/".toList none)
    { initial_shell "/".toList none with
      history_da := da_put (da_create 10) "ls  -l".toList,
      trace := [Sys.fork 0 (some [ChildOp.run ["ls".toList, "-l".toList]
          (ProcEnd.execv "/bin/ls".toList ["ls".toList, "-l".toList])]),
        Sys.waitpid 0] }
    [] (by decide) (by decide) (by decide) (by decide) (by decide)).1

/-- Counterexample to C20 as stated: for the line `ls  -l` typed with two leading
spaces and one trailing space, the raw text without its newline is not what is
logged; the entry is `ls  -l`. -/
theorem C20_counterexample :
    process_command (example_os ["/bin/ls".toList] []) 1 "  ls  -l \n".toList
        (initial_shell "/".toList none) =
      some (Outcome.returned
        { initial_shell "/".toList none with
          history_da := da_put (da_create 10) "ls  -l".toList,
          trace := [Sys.fork 0 (some [ChildOp.run ["ls".toList, "-l".toList]
              (ProcEnd.execv "/bin/ls".toList ["ls".toList, "-l".toList])]),
            Sys.waitpid 0] }) ∧
      da_get (da_put (da_create 10) "ls  -l".toList) 0 = Ptr.str "ls  -l".toList ∧
      "ls  -l".toList ≠ "  ls  -l ".toList := by
  decide

/-! ## The single-command path of `process_command` -/

/-- The words of a well-formed written line are its tokens. -/
theorem parseline_render (ws : List (List Char × Bool)) (hok : ∀ w ∈ ws, word_ok w) :
    parseline_no_subst (render_line ws) = ⟨ws.map Prod.fst, false⟩ := by
  have hbuf : parse_buf (render_line ws) = render_line ws ++ [' '] := by
    simp [parse_buf, render_line_last ws hok]
  unfold parseline_no_subst
  rw [hbuf]
  cases ws with
  | nil => simp [render_line, skip_spaces, parse_loop]
  | cons w ws =>
    rw [render_line_append_space, skip_spaces_words_then _ _ hok (by simp [skip_spaces])]
    rw [parse_loop_words _ [] hok (by simp [skip_spaces]) [] _ 1 (by omega) (by simp)]
    simp [parse_loop]

theorem has_bar_loop_skip (a b : List Char) (q : Bool) (hq : '\'' ∉ a)
    (hb : q = false → '|' ∉ a) : has_bar_loop (a ++ b) q = has_bar_loop b q := by
  induction a with
  | nil => rfl
  | cons c r ih =>
    have hc : c ≠ '\'' := fun e => hq (by simp [e])
    have hr : '\'' ∉ r := fun e => hq (by simp [e])
    have hb2 : q = false → '|' ∉ r := fun e h => hb e (by simp [h])
    rw [List.cons_append, has_bar_loop, if_neg hc]
    cases q with
    | true => simpa using ih hr hb2
    | false =>
      have hc2 : c ≠ '|' := fun e => hb rfl (by simp [e])
      simpa [hc2] using ih hr hb2

/-- The single-command path of `process_command` for a builtin other than
`exit`, up to the call of the builtin. -/
theorem process_command_single (os : OS) (fuel : Nat) (line : List Char) (sh : Shell)
    (a0 : List Char) (args : List (List Char))
    (hb : has_bar (trim_whitespace line) = false)
    (hargv : (parseline_no_subst (trim_whitespace line)).argv = a0 :: args)
    (hexit : a0 ≠ "exit".toList) :
    process_command os (fuel + 1) line sh =
      if a0 = "cd".toList then
        some (Outcome.returned
          { (built_in_cd os (a0 :: args) (log_history (trim_whitespace line) sh)).2 with
            rc := (built_in_cd os (a0 :: args) (log_history (trim_whitespace line) sh)).1 })
      else if a0 = "path".toList then
        some (Outcome.returned
          { (built_in_path (a0 :: args) (log_history (trim_whitespace line) sh)).2 with
            rc := (built_in_path (a0 :: args) (log_history (trim_whitespace line) sh)).1 })
      else if a0 = "which".toList then
        some (Outcome.returned
          { (builtin_which os (a0 :: args) (log_history (trim_whitespace line) sh)).2 with
            rc := (builtin_which os (a0 :: args) (log_history (trim_whitespace line) sh)).1 })
      else if a0 = "alias".toList then
        some (Outcome.returned
          { (builtin_alias (a0 :: args) (log_history (trim_whitespace line) sh)).2 with
            rc := (builtin_alias (a0 :: args) (log_history (trim_whitespace line) sh)).1 })
      else if a0 = "unalias".toList then
        some (Outcome.returned
          { (builtin_unalias (a0 :: args) (log_history (trim_whitespace line) sh)).2 with
            rc := (builtin_unalias (a0 :: args) (log_history (trim_whitespace line) sh)).1 })
      else if a0 = "history".toList then
        some (Outcome.returned
          { (builtin_history (a0 :: args) (log_history (trim_whitespace line) sh)).2 with
            rc := (builtin_history (a0 :: args) (log_history (trim_whitespace line) sh)).1 })
      else
        match hm_get (log_history (trim_whitespace line) sh).alias_hm a0 with
        | some aval =>
          match process_command os fuel (aval ++ skip_first_word (trim_whitespace line))
              { log_history (trim_whitespace line) sh with
                suppress_history := (log_history (trim_whitespace line) sh).suppress_history + 1 }
            with
          | none => none
          | some (Outcome.exited code sh3) => some (Outcome.exited code sh3)
          | some (Outcome.returned sh3) =>
            some (Outcome.returned { sh3 with suppress_history := sh3.suppress_history - 1 })
        | none =>
          some (Outcome.returned
            (run_external os (a0 :: args) (log_history (trim_whitespace line) sh))) := by
  have hL : (trim_whitespace line).length ≠ 0 := by
    intro h
    rw [List.length_eq_zero.1 h, parseline_nil] at hargv
    simp at hargv
  have hw : (parseline_no_subst (trim_whitespace line)).warned = false := by
    cases hh : (parseline_no_subst (trim_whitespace line)).warned with
    | false => rfl
    | true =>
      rw [parseline_warned_argv _ hh] at hargv
      simp at hargv
  have hp : parseline (trim_whitespace line) sh = (a0 :: args, sh) := by
    simp [parseline, hargv, hw]
  rw [process_command]
  simp only [hL, if_false, hp, hb, Bool.false_eq_true, hexit]
  try rfl


/-! ## `which` after `alias` (C13) -/

theorem not_space_of_isspace {w : List Char} (h : ∀ c ∈ w, isspace c = false) :
    ' ' ∉ w ∧ '\n' ∉ w :=
  ⟨fun hm => absurd (h _ hm) (by decide), fun hm => absurd (h _ hm) (by decide)⟩

theorem word_ok_bare {w : List Char} (hne : w ≠ []) (hsp : ∀ c ∈ w, isspace c = false)
    (hq : '\'' ∉ w) : word_ok (w, false) :=
  ⟨hq, fun _ => ⟨hne, (not_space_of_isspace hsp).1, (not_space_of_isspace hsp).2⟩⟩

/-- The line `alias NAME = 'v'`, whatever whitespace ends it, as `process_command`
reads it. -/
theorem alias_line_facts (NAME v e : List Char) (hne : NAME ≠ [])
    (hsp : ∀ c ∈ NAME, isspace c = false) (hq : '\'' ∉ NAME) (hbar : '|' ∉ NAME)
    (hv : '\'' ∉ v) (he : ∀ c ∈ e, isspace c = true) :
    has_bar (trim_whitespace ("alias ".toList ++ NAME ++ " = '".toList ++ v ++ ['\''] ++ e))
      = false ∧
    (parseline_no_subst
      (trim_whitespace ("alias ".toList ++ NAME ++ " = '".toList ++ v ++ ['\''] ++ e))).argv
      = ["alias".toList, NAME, "=".toList, v] := by
  have hL : "alias ".toList ++ NAME ++ " = '".toList ++ v ++ ['\''] =
      render_line [("alias".toList, false), (NAME, false), ("=".toList, false), (v, true)] := by
    simp [render_line, render_word]
  have ht : trim_whitespace ("alias ".toList ++ NAME ++ " = '".toList ++ v ++ ['\''] ++ e) =
      "alias ".toList ++ NAME ++ " = '".toList ++ v ++ ['\''] := by
    have := trim_core [] e ("alias ".toList ++ NAME ++ " = '".toList ++ v) 'a' '\''
      ("alias ".toList ++ NAME ++ " = '".toList ++ v ++ ['\'']) (by simp) he (by decide)
      (by decide) rfl rfl
    simpa using this
  rw [ht]
  constructor
  · unfold has_bar
    have e1 : "alias ".toList ++ NAME ++ " = '".toList ++ v ++ ['\''] =
        ("alias ".toList ++ NAME ++ " = ".toList) ++ ('\'' :: (v ++ ['\''])) := by simp
    rw [e1, has_bar_loop_skip _ _ false, has_bar_loop, if_pos rfl]
    · have e2 : v ++ ['\''] = v ++ ['\''] ++ [] := by simp
      rw [e2, List.append_assoc, has_bar_loop_skip _ _ _ hv (by simp)]
      rfl
    · intro h
      simp only [List.mem_append] at h
      rcases h with (h | h) | h
      · revert h; decide
      · exact hq h
      · revert h; decide
    · intro _ h
      simp only [List.mem_append] at h
      rcases h with (h | h) | h
      · revert h; decide
      · exact hbar h
      · revert h; decide
  · rw [hL, parseline_render]
    · rfl
    · intro w hw
      simp only [List.mem_cons, List.mem_singleton, List.not_mem_nil, or_false] at hw
      rcases hw with rfl | rfl | rfl | rfl
      · decide
      · exact word_ok_bare hne hsp hq
      · decide
      · exact ⟨hv, by simp⟩

/-- The line `which NAME`, whatever whitespace ends it, as `process_command` reads
it. -/
theorem which_line_facts (NAME e : List Char) (hne : NAME ≠ [])
    (hsp : ∀ c ∈ NAME, isspace c = false) (hq : '\'' ∉ NAME) (hbar : '|' ∉ NAME)
    (he : ∀ c ∈ e, isspace c = true) :
    has_bar (trim_whitespace ("which ".toList ++ NAME ++ e)) = false ∧
    (parseline_no_subst (trim_whitespace ("which ".toList ++ NAME ++ e))).argv
      = ["which".toList, NAME] := by
  have hL : "which ".toList ++ NAME =
      render_line [("which".toList, false), (NAME, false)] := by
    simp [render_line, render_word]
  obtain ⟨d, hd⟩ : ∃ d, NAME.getLast? = some d := by
    cases h : NAME.getLast? with
    | none => exact absurd (List.getLast?_eq_none_iff.1 h) hne
    | some d => exact ⟨d, rfl⟩
  have hdm : d ∈ NAME := List.mem_of_getLast?_eq_some hd
  have hsplit : NAME = NAME.dropLast ++ [d] := (List.dropLast_append_getLast? d hd).symm
  have ht : trim_whitespace ("which ".toList ++ NAME ++ e) = "which ".toList ++ NAME := by
    have := trim_core [] e ("which ".toList ++ NAME.dropLast) 'w' d
      ("which ".toList ++ NAME) (by simp) he (by decide) (hsp d hdm)
      (by rw [List.append_assoc, ← hsplit]) rfl
    simpa using this
  rw [ht]
  constructor
  · apply has_bar_loop_no_bar
    intro h
    simp only [List.mem_append] at h
    rcases h with h | h
    · revert h; decide
    · exact hbar h
  · rw [hL, parseline_render]
    · rfl
    · intro w hw
      simp only [List.mem_cons, List.mem_singleton, List.not_mem_nil, or_false] at hw
      rcases hw with rfl | rfl
      · decide
      · exact word_ok_bare hne hsp hq

theorem log_history_out (line : List Char) (sh : Shell) :
    (log_history line sh).out = sh.out ∧ (log_history line sh).err = sh.err := by
  unfold log_history
  split <;> exact ⟨rfl, rfl⟩

theorem builtin_alias_quoted (sh : Shell) (NAME v : List Char) (heq : NAME ≠ "=".toList)
    (hv : '\'' ∉ v) :
    builtin_alias ["alias".toList, NAME, "=".toList, v] sh =
      (EXIT_SUCCESS, { sh with alias_hm := hm_put sh.alias_hm NAME v }) := by
  have hs : alias_strip v = v := by
    apply alias_strip_other
    rintro ⟨mid, rfl⟩
    exact hv (by simp)
  have heq2 : NAME ≠ ['='] := heq
  unfold builtin_alias
  simp [heq2, alias_join, hs]

theorem builtin_which_alias (os : OS) (sh : Shell) (NAME v : List Char)
    (h : hm_get sh.alias_hm NAME = some v) :
    builtin_which os ["which".toList, NAME] sh =
      (EXIT_SUCCESS,
        sh.print (OutItem.text (NAME ++ ": aliased to '".toList ++ v ++ "'\n".toList))) := by
  unfold builtin_which
  simp [h]

/-- C13: for every name that is one bare word (non-empty, without whitespace,
quote or pipe) other than `=` and every value `v` without a single quote, after
`process_command` ran the line `alias NAME = 'v'` the store maps the name to `v`,
and `process_command` on the line `which NAME` returns having printed exactly
`NAME: aliased to 'v'` and with the status set to success - whatever the system
answers and whether or not the name is a builtin name, since the alias store is
asked first.  Either line may end in any whitespace (its newline). -/
theorem C13_which_after_alias (os : OS) (fuel1 fuel2 : Nat) (sh : Shell)
    (NAME v e1 e2 : List Char) (hne : NAME ≠ [])
    (hsp : ∀ c ∈ NAME, isspace c = false) (hq : '\'' ∉ NAME) (hbar : '|' ∉ NAME)
    (heq : NAME ≠ "=".toList) (hv : '\'' ∉ v)
    (he1 : ∀ c ∈ e1, isspace c = true) (he2 : ∀ c ∈ e2, isspace c = true) :
    ∃ sh1, process_command os (fuel1 + 1)
        ("alias ".toList ++ NAME ++ " = '".toList ++ v ++ ['\''] ++ e1) sh =
          some (Outcome.returned sh1) ∧
      hm_get sh1.alias_hm NAME = some v ∧
      ∃ sh2, process_command os (fuel2 + 1) ("which ".toList ++ NAME ++ e2) sh1 =
          some (Outcome.returned sh2) ∧
        sh2.out = sh.out ++
          [OutItem.text (NAME ++ ": aliased to '".toList ++ v ++ "'\n".toList)] ∧
        sh2.err = sh.err ∧ sh2.rc = EXIT_SUCCESS := by
  obtain ⟨hb1, ha1⟩ := alias_line_facts NAME v e1 hne hsp hq hbar hv he1
  obtain ⟨hb2, ha2⟩ := which_line_facts NAME e2 hne hsp hq hbar he2
  refine ⟨_, process_command_single os fuel1 _ sh _ _ hb1 ha1 (by decide), ?_, ?_⟩
  · simp only [show ¬ "alias".toList = "cd".toList by decide,
      show ¬ "alias".toList = "path".toList by decide,
      show ¬ "alias".toList = "which".toList by decide, if_false, if_true]
    rw [builtin_alias_quoted _ _ _ heq hv]
    exact hm_get_put _ _ _
  · refine ⟨_, process_command_single os fuel2 _ _ _ _ hb2 ha2 (by decide), ?_⟩
    simp only [show ¬ "alias".toList = "cd".toList by decide,
      show ¬ "alias".toList = "path".toList by decide,
      show ¬ "alias".toList = "which".toList by decide,
      show ¬ "which".toList = "cd".toList by decide,
      show ¬ "which".toList = "path".toList by decide, if_false, if_true]
    rw [builtin_alias_quoted _ _ _ heq hv]
    rw [builtin_which_alias os _ NAME v]
    · simp [Shell.print, log_history_out]
    · rw [log_history_alias]
      exact hm_get_put _ _ _

/-- Witness for C13: `alias foo = 'ls -la'` and then `which foo`. -/
theorem C13_which_after_alias_witness :
    ∃ sh1, process_command (example_os [] []) (0 + 1)
        ("alias ".toList ++ "foo".toList ++ " = '".toList ++ "ls -la".toList ++ ['\''] ++
          "\n".toList) (initial_shell "/".toList none) =
          some (Outcome.returned sh1) ∧
      hm_get sh1.alias_hm "foo".toList = some "ls -la".toList ∧
      ∃ sh2, process_command (example_os [] []) (0 + 1)
          ("which ".toList ++ "foo".toList ++ "\n".toList) sh1 =
          some (Outcome.returned sh2) ∧
        sh2.out = (initial_shell "/".toList none).out ++
          [OutItem.text ("foo".toList ++ ": aliased to '".toList ++ "ls -la".toList ++
            "'\n".toList)] ∧
        sh2.err = (initial_shell "/".toList none).err ∧ sh2.rc = EXIT_SUCCESS :=
  C13_which_after_alias (example_os [] []) 0 0 (initial_shell "/".toList none)
    "foo".toList "ls -la".toList "\n".toList "\n".toList (by decide) (by decide) (by decide)
    (by decide) (by decide) (by decide) (by decide) (by decide)

/-! ## Builtin names and aliases on the single-command path (C14) -/

/-- C14 at the failing input: after `alias cd = 'echo hi'` the line `cd /tmp`
has no pipe and its leading token `cd` is a key of the alias store, yet
`process_command` runs the builtin `cd` in-process - the working directory
becomes `/tmp` and no process is forked - instead of re-entering on
`echo hi /tmp`.  The pipeline path expands the alias for the same segment, and
`which cd` reports the alias. -/
theorem C14_builtin_shadows_alias :
    run_lines { example_os ["/bin/echo".toList] [] with chdir := fun _ d => some d } 3
        ["alias cd = 'echo hi'\n".toList, "cd /tmp\n".toList] (initial_shell "/".toList none) =
      some (Outcome.returned
        { initial_shell "/".toList none with
          alias_hm := [("cd".toList, "echo hi".toList)],
          history_da := da_put (da_put (da_create 10) "alias cd = 'echo hi'".toList)
            "cd /tmp".toList,
          cwd := "/tmp".toList }) ∧
      has_bar "cd /tmp".toList = false ∧
      (parseline_no_subst "cd /tmp".toList).argv = ["cd".toList, "/tmp".toList] ∧
      hm_get [("cd".toList, "echo hi".toList)] "cd".toList = some "echo hi".toList ∧
      stage_argv (alias_session [("cd".toList, "echo hi".toList)]) "cd /tmp".toList =
        ["echo".toList, "hi".toList, "/tmp".toList] ∧
      output_after (process_command (example_os [] []) 1 "which cd\n".toList
        (alias_session [("cd".toList, "echo hi".toList)])) =
        some [OutItem.text "cd: aliased to 'echo hi'\n".toList] := by
  decide

/-! ## The alias splice and a quoted first token (C15) -/

/-- C15 at the failing input: with `my cmd` registered as an alias for `ls`, the
segment `'my cmd' x` has the first token `my cmd` and the text after that token
is ` x`; `expand_alias_for_segment` returns `ls cmd' x`, not `ls x`, because it
skips to the first whitespace, which lies inside the quoted token.  The inline
expansion of `process_command` does the same and runs `ls` with the arguments
`cmd'` and `x`. -/
theorem C15_splice_cuts_quoted_token :
    (parseline_no_subst "'my cmd' x".toList).argv = ["my cmd".toList, "x".toList] ∧
      hm_get [("my cmd".toList, "ls".toList)] "my cmd".toList = some "ls".toList ∧
      (expand_alias_for_segment "'my cmd' x".toList
        (alias_session [("my cmd".toList, "ls".toList)])).1 = "ls cmd' x".toList ∧
      "ls cmd' x".toList ≠ "ls".toList ++ " x".toList ∧
      run_lines (example_os ["/bin/ls".toList] []) 3
        ["alias 'my cmd' = ls\n".toList, "'my cmd' x\n".toList]
        (initial_shell "/".toList none) =
      some (Outcome.returned
        { initial_shell "/".toList none with
          alias_hm := [("my cmd".toList, "ls".toList)],
          history_da := da_put (da_put (da_create 10) "alias 'my cmd' = ls".toList)
            "'my cmd' x".toList,
          trace := [Sys.fork 0 (some [ChildOp.run ["ls".toList, "cmd'".toList, "x".toList]
              (ProcEnd.execv "/bin/ls".toList ["ls".toList, "cmd'".toList, "x".toList])]),
            Sys.waitpid 0] }) := by
  decide

/-! ## The segment cap (C21) -/

theorem unquoted_pipes_trim (s : List Char) :
    unquoted_pipes (trim_whitespace s) = unquoted_pipes s := by
  have h := pieces_trim_length s
  rw [pieces_from_length, pieces_from_length, pipes_from_false, pipes_from_false] at h
  omega

theorem run_pipeline_too_many (os : OS) (sh : Shell) (line : List Char)
    (h : 128 ≤ unquoted_pipes line) :
    run_pipeline os line sh =
      (EXIT_FAILURE, sh.eprint "Empty command segment in pipeline\n".toList) := by
  unfold run_pipeline
  rw [split_pipeline_eq, if_neg (by unfold MAX_PIPE_CMDS; omega)]

/-- What `process_command` does with a line that has a pipe outside quotes when
`run_pipeline` refuses the trimmed line with failure, whatever the session. -/
theorem process_command_refused (os : OS) (fuel : Nat) (line : List Char) (sh : Shell)
    (hn : 2 ≤ (pieces_from false line).length)
    (hrun : ∀ s : Shell, (run_pipeline os (trim_whitespace line) s).1 = EXIT_FAILURE ∧
      diag_eq (run_pipeline os (trim_whitespace line) s).2 s) :
    ∃ sh', process_command os (fuel + 1) line sh = some (Outcome.returned sh') ∧
      sh'.rc = EXIT_FAILURE ∧ sh'.trace = sh.trace ∧ sh'.alias_hm = sh.alias_hm ∧
      sh'.cwd = sh.cwd := by
  rw [process_command_pipeline os fuel line sh hn]
  have hn' : 2 ≤ (pieces_from false (trim_whitespace line)).length := by
    rw [pieces_trim_length]; exact hn
  have hd := parseline_diag (trim_whitespace line) sh
  cases hp : parseline (trim_whitespace line) sh with
  | mk argv sh1 =>
    rw [hp] at hd
    simp only at hd
    cases argv with
    | nil =>
      refine ⟨sh1, rfl, ?_, diag_eq_trace hd, diag_eq_alias hd, diag_eq_cwd hd⟩
      have hargv : (parseline_no_subst (trim_whitespace line)).argv = [] := by
        have := congrArg Prod.fst hp
        simpa [parseline] using this
      cases hL : trim_whitespace line with
      | nil =>
        rw [hL, pieces_from_length_nil] at hn'
        omega
      | cons c rest =>
        have hc := trim_whitespace_head line c rest hL
        rw [hL] at hargv hp
        rcases parseline_nonempty c rest hc with hw | hne
        · have := congrArg Prod.snd hp
          simp only [parseline, hw, if_true] at this
          rw [← this]
          rfl
        · exact absurd hargv hne
    | cons a0 args =>
      simp only
      have hrun' := hrun (log_history (trim_whitespace line) sh1)
      generalize run_pipeline os (trim_whitespace line)
        (log_history (trim_whitespace line) sh1) = r at hrun'
      obtain ⟨res, sh2⟩ := r
      simp only at hrun' ⊢
      refine ⟨_, rfl, ?_, ?_, ?_, ?_⟩
      · simp [hrun'.1, EXIT_FAILURE]
      · simp only
        rw [diag_eq_trace hrun'.2, log_history_trace, diag_eq_trace hd]
      · simp only
        rw [diag_eq_alias hrun'.2, log_history_alias, diag_eq_alias hd]
      · simp only
        rw [diag_eq_cwd hrun'.2]
        have : (log_history (trim_whitespace line) sh1).cwd = sh1.cwd := by
          unfold log_history; split <;> rfl
        rw [this, diag_eq_cwd hd]

/-- C21: segment cap.  `MAX_PIPE_CMDS` is 128; `split_pipeline` with that cap
accepts every line with at most 127 pipes outside quotes, giving one segment more
than there are such pipes (at most 128), and returns -1 for every line with 128
or more of them.  In the latter case `run_pipeline` returns failure without any
process-level call, and `process_command` returns with `rc` set to failure and no
process-level call, so that the loop over the lines goes on with the next line. -/
theorem C21_segment_cap (os : OS) (fuel : Nat) (line : List Char) (sh : Shell) :
    MAX_PIPE_CMDS = 128 ∧
    (unquoted_pipes line ≤ 127 →
      ∃ segs, split_pipeline line MAX_PIPE_CMDS = some segs ∧
        segs.length = unquoted_pipes line + 1 ∧ segs.length ≤ 128) ∧
    (128 ≤ unquoted_pipes line →
      split_pipeline line MAX_PIPE_CMDS = none ∧
      (run_pipeline os line sh).1 = EXIT_FAILURE ∧
      (run_pipeline os line sh).2.trace = sh.trace ∧
      ∃ sh', process_command os (fuel + 1) line sh = some (Outcome.returned sh') ∧
        sh'.rc = EXIT_FAILURE ∧ sh'.trace = sh.trace ∧
        ∀ rest, run_lines os (fuel + 1) (line :: rest) sh = run_lines os (fuel + 1) rest sh') := by
  refine ⟨rfl, ?_, ?_⟩
  · intro h
    refine ⟨pieces_from false line, ?_, ?_, ?_⟩
    · rw [split_pipeline_eq, if_pos (by unfold MAX_PIPE_CMDS; omega)]
    · rw [pieces_from_length, pipes_from_false]
    · rw [pieces_from_length, pipes_from_false]; omega
  · intro h
    refine ⟨?_, ?_, ?_, ?_⟩
    · rw [split_pipeline_eq, if_neg (by unfold MAX_PIPE_CMDS; omega)]
    · rw [run_pipeline_too_many os sh line h]
    · rw [run_pipeline_too_many os sh line h]; rfl
    · have hn : 2 ≤ (pieces_from false line).length := by
        rw [pieces_from_length, pipes_from_false]; omega
      obtain ⟨sh', h1, h2, h3, _⟩ := process_command_refused os fuel line sh hn (fun s => by
        rw [run_pipeline_too_many os s _ (by rw [unquoted_pipes_trim]; exact h)]
        exact ⟨rfl, diag_eq_eprint _ _⟩)
      refine ⟨sh', h1, h2, h3, ?_⟩
      intro rest
      rw [run_lines, h1]

set_option maxRecDepth 1000000 in
/-- Witness for C21: `a | b` is accepted with two segments; the line of 129
commands `a` separated by 128 pipes is refused and the next line is processed. -/
theorem C21_segment_cap_witness :
    (∃ segs, split_pipeline "a | b".toList MAX_PIPE_CMDS = some segs ∧
        segs.length = unquoted_pipes "a | b".toList + 1 ∧ segs.length ≤ 128) ∧
      split_pipeline ((List.replicate 128 "a|".toList).flatten ++ "a".toList) MAX_PIPE_CMDS
        = none ∧
      (run_pipeline (example_os [] [])
        ((List.replicate 128 "a|".toList).flatten ++ "a".toList)
        (initial_shell "/".toList none)).1 = EXIT_FAILURE :=
  ⟨(C21_segment_cap (example_os [] []) 0 "a | b".toList
      (initial_shell "/".toList none)).2.1 (by decide),
    ((C21_segment_cap (example_os [] []) 0
      ((List.replicate 128 "a|".toList).flatten ++ "a".toList)
      (initial_shell "/".toList none)).2.2 (by decide)).1,
    ((C21_segment_cap (example_os [] []) 0
      ((List.replicate 128 "a|".toList).flatten ++ "a".toList)
      (initial_shell "/".toList none)).2.2 (by decide)).2.1⟩

/-! ## The pipe detector and the splitter (C29) -/

theorem run_pipeline_code (os : OS) (line : List Char) (sh : Shell) :
    (run_pipeline os line sh).1 = EXIT_SUCCESS ∨ (run_pipeline os line sh).1 = EXIT_FAILURE ∨
      ((run_pipeline os line sh).1 = -2 ∧
        ∃ seg, split_pipeline line MAX_PIPE_CMDS = some [seg]) := by
  unfold run_pipeline
  cases hs : split_pipeline line MAX_PIPE_CMDS with
  | none => exact Or.inr (Or.inl rfl)
  | some segs =>
    simp only
    split
    · next h1 =>
      right; right
      refine ⟨rfl, ?_⟩
      cases segs with
      | nil => simp at h1
      | cons s r =>
        cases r with
        | nil => exact ⟨s, rfl⟩
        | cons _ _ => simp at h1
    · split
      · exact Or.inr (Or.inl rfl)
      · split
        · exact Or.inr (Or.inl rfl)
        · split
          · exact Or.inr (Or.inl rfl)
          · simp only
            split
            · exact Or.inl rfl
            · exact Or.inr (Or.inl rfl)

theorem split_single_iff (line : List Char) :
    (∃ seg, split_pipeline line MAX_PIPE_CMDS = some [seg]) ↔ unquoted_pipes line = 0 := by
  rw [split_pipeline_eq]
  constructor
  · rintro ⟨seg, h⟩
    split at h
    · have h2 := congrArg List.length (Option.some.inj h)
      rw [pieces_from_length, pipes_from_false] at h2
      simpa using h2
    · simp at h
  · intro h
    have hl : (pieces_from false line).length = 1 := by
      rw [pieces_from_length, pipes_from_false, h]
    rw [if_pos (by rw [h]; unfold MAX_PIPE_CMDS; omega)]
    cases hp : pieces_from false line with
    | nil => rw [hp] at hl; simp at hl
    | cons s r =>
      cases r with
      | nil => exact ⟨s, rfl⟩
      | cons _ _ => rw [hp] at hl; simp at hl

theorem has_bar_pipes (line : List Char) : has_bar line = true ↔ 1 ≤ unquoted_pipes line := by
  rw [has_bar_iff, pieces_from_length, pipes_from_false]
  omega

/-- C29: the pipe detector and the splitter agree.  For every line the scan of
`process_command` finds a pipe outside quotes exactly when `split_pipeline` on the
same line does not return 1, that is when it returns -1 or at least 2 segments.
Hence `run_pipeline`, called on a line for which the scan found a pipe, returns
success or failure and never -2, and `process_command` on a line whose trimmed text
has such a pipe and yields a token returns with `rc` set to what `run_pipeline`
returned. -/
theorem C29_detector_splitter_agree (os : OS) (fuel : Nat) (line : List Char) (sh : Shell) :
    (has_bar line = true ↔ ¬ ∃ seg, split_pipeline line MAX_PIPE_CMDS = some [seg]) ∧
    (has_bar line = true ↔
      (split_pipeline line MAX_PIPE_CMDS = none ∨
        ∃ segs, split_pipeline line MAX_PIPE_CMDS = some segs ∧ 2 ≤ segs.length)) ∧
    (has_bar line = true →
      (run_pipeline os line sh).1 ≠ -2 ∧
      ((run_pipeline os line sh).1 = EXIT_SUCCESS ∨
        (run_pipeline os line sh).1 = EXIT_FAILURE)) ∧
    (has_bar (trim_whitespace line) = true →
      (parseline_no_subst (trim_whitespace line)).argv ≠ [] →
      process_command os (fuel + 1) line sh = some (Outcome.returned
        { (run_pipeline os (trim_whitespace line)
            (log_history (trim_whitespace line) sh)).2 with
          rc := (run_pipeline os (trim_whitespace line)
            (log_history (trim_whitespace line) sh)).1 })) := by
  have hfirst : has_bar line = true ↔ ¬ ∃ seg, split_pipeline line MAX_PIPE_CMDS = some [seg] := by
    rw [split_single_iff, has_bar_pipes]; omega
  have hcode : ∀ (l : List Char) (s : Shell), has_bar l = true →
      (run_pipeline os l s).1 ≠ -2 ∧
      ((run_pipeline os l s).1 = EXIT_SUCCESS ∨ (run_pipeline os l s).1 = EXIT_FAILURE) := by
    intro l s h
    have hne : ¬ ∃ seg, split_pipeline l MAX_PIPE_CMDS = some [seg] := by
      rw [split_single_iff]
      have := (has_bar_pipes l).1 h
      omega
    rcases run_pipeline_code os l s with h1 | h1 | ⟨_, h2⟩
    · exact ⟨by rw [h1]; decide, Or.inl h1⟩
    · exact ⟨by rw [h1]; decide, Or.inr h1⟩
    · exact absurd h2 hne
  refine ⟨hfirst, ?_, hcode line sh, ?_⟩
  · rw [has_bar_pipes, split_pipeline_eq]
    constructor
    · intro h
      by_cases hc : unquoted_pipes line + 1 ≤ MAX_PIPE_CMDS
      · right
        exact ⟨_, by rw [if_pos hc], by rw [pieces_from_length, pipes_from_false]; omega⟩
      · left; rw [if_neg hc]
    · rintro (h | ⟨segs, h, hl⟩)
      · split at h
        · simp at h
        · unfold MAX_PIPE_CMDS at *; omega
      · split at h
        · have := Option.some.inj h
          subst this
          rw [pieces_from_length, pipes_from_false] at hl
          omega
        · simp at h
  · intro hb hargv
    have hn : 2 ≤ (pieces_from false line).length := by
      rw [← pieces_trim_length]; exact (has_bar_iff _).1 hb
    rw [process_command_pipeline os fuel line sh hn]
    have hw : (parseline_no_subst (trim_whitespace line)).warned = false := by
      cases hh : (parseline_no_subst (trim_whitespace line)).warned with
      | false => rfl
      | true => exact absurd (parseline_warned_argv _ hh) hargv
    cases ha : (parseline_no_subst (trim_whitespace line)).argv with
    | nil => exact absurd ha hargv
    | cons a0 args =>
      have hp : parseline (trim_whitespace line) sh = (a0 :: args, sh) := by
        simp [parseline, ha, hw]
      rw [hp]
      simp only
      have := (hcode (trim_whitespace line) (log_history (trim_whitespace line) sh) hb).1
      simp [this]

/-- Witness for C29: the line `a | b`. -/
theorem C29_detector_splitter_agree_witness :
    (run_pipeline (example_os [] []) "a | b".toList (initial_shell "/".toList none)).1 ≠ -2 ∧
      ((run_pipeline (example_os [] []) "a | b".toList (initial_shell "/".toList none)).1
          = EXIT_SUCCESS ∨
        (run_pipeline (example_os [] []) "a | b".toList (initial_shell "/".toList none)).1
          = EXIT_FAILURE) :=
  (C29_detector_splitter_agree (example_os [] []) 0 "a | b".toList
    (initial_shell "/".toList none)).2.2.1 (by decide)

/-! ## The dynamic array (C23, C24) -/

theorem da_wf_create (c : Nat) (h : 0 < c) : da_wf (da_create c) := by
  simp [da_wf, da_create, h]

theorem da_holds_create (c : Nat) : da_holds (da_create c) [] := by
  simp [da_holds, da_create]

theorem foldl_da_put_holds (vals : List (List Char)) : ∀ (da : DynamicArray)
    (entries : List (List Char)), da_wf da → da_holds da entries →
    da_holds (vals.foldl da_put da) (entries ++ vals) ∧ da_wf (vals.foldl da_put da) := by
  induction vals with
  | nil => intro da entries hwf h; simpa using ⟨h, hwf⟩
  | cons v vs ih =>
    intro da entries hwf h
    obtain ⟨h1, h2⟩ := da_put_holds da entries v hwf h
    have := ih (da_put da v) (entries ++ [v]) h2 h1
    simpa using this

/-- With a positive initial capacity the array holds exactly the values put, in
call order, and `size` never exceeds `capacity`. -/
theorem da_puts_holds (c : Nat) (vals : List (List Char)) (hc : 0 < c) :
    da_holds (da_puts c vals) vals ∧ da_wf (da_puts c vals) ∧
      (da_puts c vals).size = vals.length ∧
      ∀ i, i < vals.length → da_get (da_puts c vals) i = Ptr.str (vals.getD i []) := by
  have h : da_holds (da_puts c vals) vals ∧ da_wf (da_puts c vals) := by
    have := foldl_da_put_holds vals (da_create c) [] (da_wf_create c hc) (da_holds_create c)
    simpa [da_puts] using this
  exact ⟨h.1, h.2, h.1.1, fun i hi => da_get_of_holds _ _ h.1 i hi⟩

theorem da_put_wf (da : DynamicArray) (v : List Char) (hwf : da_wf da) :
    da_wf (da_put da v) := by
  obtain ⟨hlen, hpos, hsz⟩ := hwf
  unfold da_put da_wf
  by_cases hfull : da.size = da.capacity
  · simp only [hfull, if_true]
    have hl := realloc_slots_length da.data (da.capacity * 2) (by omega)
    exact ⟨by simp [hl], by omega, by omega⟩
  · simp only [hfull, if_false]
    exact ⟨by simpa using hlen, hpos, by omega⟩

theorem da_put_checked_eq (da : DynamicArray) (v : List Char) (hwf : da_wf da) :
    da_put_checked da v = some (da_put da v) := by
  obtain ⟨hlen, hpos, hsz⟩ := hwf
  unfold da_put_checked da_put
  by_cases hfull : da.size = da.capacity
  · simp only [hfull, if_true]
    rw [if_pos (by rw [realloc_slots_length _ _ (by omega)]; omega)]
  · simp only [hfull, if_false]
    rw [if_pos (by omega)]

theorem foldlM_da_put_checked (vals : List (List Char)) : ∀ (da : DynamicArray), da_wf da →
    vals.foldlM da_put_checked da = some (vals.foldl da_put da) := by
  induction vals with
  | nil => intro da _; rfl
  | cons v vs ih =>
    intro da hwf
    rw [List.foldlM_cons, da_put_checked_eq da v hwf]
    exact ih _ (da_put_wf da v hwf)

theorem shift_down_length (n : Nat) : ∀ (d : List Ptr) (i : Nat),
    (shift_down d i n).length = d.length := by
  induction n with
  | zero => intro d i; rfl
  | succ n ih => intro d i; rw [shift_down, ih]; simp

/-- The packing loop moves the slots `i+1 .. i+n` one place down and leaves every
other slot as it is. -/
theorem shift_down_get (n : Nat) : ∀ (d : List Ptr) (i k : Nat),
    (shift_down d i n)[k]? = if i ≤ k ∧ k < i + n ∧ k < d.length then
        some (d.getD (k + 1) Ptr.wild) else d[k]? := by
  induction n with
  | zero =>
    intro d i k
    rw [shift_down, if_neg (by omega)]
  | succ n ih =>
    intro d i k
    rw [shift_down, ih]
    simp only [List.length_set, List.getD_eq_getElem?_getD, List.getElem?_set]
    split_ifs <;>
      first
      | rfl
      | omega
      | (subst_vars; rfl)
      | exact (List.getElem?_eq_none (by omega)).symm

theorem da_holds_get (da : DynamicArray) (entries : List (List Char)) (h : da_holds da entries)
    (j : Nat) (hj : j < da.size) : da.data[j]? = some (Ptr.str (entries.getD j [])) := by
  obtain ⟨h1, h2⟩ := h
  have e : (da.data.take da.size)[j]? = da.data[j]? := List.getElem?_take_of_lt hj
  rw [← e, h2]
  simp [List.getD_eq_getElem?_getD, List.getElem?_map, List.getElem?_eq_getElem (h1 ▸ hj)]

theorem da_holds_le (da : DynamicArray) (entries : List (List Char)) (h : da_holds da entries) :
    da.size ≤ da.data.length := by
  obtain ⟨h1, h2⟩ := h
  have := congrArg List.length h2
  simp only [List.length_take, List.length_map] at this
  omega

/-- A delete below the size removes that entry and keeps the others in order. -/
theorem da_delete_holds (da : DynamicArray) (entries : List (List Char)) (ind : Nat)
    (h : da_holds da entries) (hsz : da.size < 2 ^ 64) (hind : ind < da.size) :
    da_holds (da_delete da ind) (entries.eraseIdx ind) ∧
      (da_delete da ind).size = da.size - 1 ∧
      (da_delete da ind).capacity = da.capacity ∧
      (da_delete da ind).data.length = da.data.length := by
  have hle := da_holds_le da entries h
  have hb : (da.size + 2 ^ 64 - 1) % 2 ^ 64 = da.size - 1 := by omega
  have hlen : entries.length = da.size := h.1.symm
  unfold da_delete
  simp only [hb]
  have hmin : min (da.size - 1) (da.data.set ind Ptr.wild).length - ind = da.size - 1 - ind := by
    simp only [List.length_set]; omega
  refine ⟨⟨?_, ?_⟩, by first | rfl | trivial, by first | rfl | trivial, ?_⟩
  · simp only
    rw [List.length_eraseIdx, if_pos (by omega)]
    omega
  · simp only
    apply List.ext_getElem?
    intro k
    rw [List.getElem?_take, List.getElem?_map, List.getElem?_eraseIdx, shift_down_get]
    simp only [List.length_set, List.getD_eq_getElem?_getD, List.getElem?_set]
    by_cases hk : k < da.size - 1
    · rw [if_pos hk]
      by_cases hik : ind ≤ k
      · rw [if_pos (by omega), if_neg (by omega), if_neg (by omega),
          da_holds_get da entries h (k + 1) (by omega)]
        simp [List.getD_eq_getElem?_getD, List.getElem?_eq_getElem (show k + 1 < entries.length by omega)]
      · rw [if_neg (by omega), if_neg (by omega), if_pos (by omega),
          da_holds_get da entries h k (by omega)]
        simp [List.getD_eq_getElem?_getD, List.getElem?_eq_getElem (show k < entries.length by omega)]
    · rw [if_neg hk, if_neg (by omega), List.getElem?_eq_none (by omega)]
      rfl
  · show (shift_down _ _ _).length = _
    rw [shift_down_length, List.length_set]

theorem parse_loop_heads (fuel : Nat) : ∀ (p : List Char) (acc : List (List Char)),
    (∀ t ∈ acc, t.head? ≠ some '\'') →
    ∀ t ∈ (parse_loop fuel p acc).argv, t.head? ≠ some '\'' := by
  induction fuel with
  | zero => intro p acc h; simpa [parse_loop] using h
  | succ n ih =>
    intro p acc h
    cases p with
    | nil => simpa [parse_loop] using h
    | cons c rest =>
      rw [parse_loop]
      split
      · cases hs : strchr '\'' rest with
        | none => simp
        | some tp =>
          obtain ⟨tok, q⟩ := tp
          simp only
          apply ih
          intro t ht
          rcases List.mem_append.1 ht with ht | ht
          · exact h t ht
          · simp only [List.mem_singleton] at ht
            subst ht
            have hn := (strchr_some_eq hs).2
            intro hh
            exact hn (List.mem_of_mem_head? hh)
      · next hc =>
        cases hs : strchr ' ' (c :: rest) with
        | none => simpa using h
        | some tp =>
          obtain ⟨tok, q⟩ := tp
          simp only
          apply ih
          intro t ht
          rcases List.mem_append.1 ht with ht | ht
          · exact h t ht
          · simp only [List.mem_singleton] at ht
            subst ht
            have he := (strchr_some_eq hs).1
            cases t with
            | nil => simp
            | cons x xs =>
              simp only [List.cons_append, List.cons.injEq] at he
              rw [← he.1]
              simpa using hc

theorem token_head (line t : List Char) (ht : t ∈ (parseline_no_subst line).argv) :
    t.head? ≠ some '\'' :=
  parse_loop_heads _ _ [] (by simp) t ht

theorem builtin_alias_words (sh : Shell) (NAME e w1 w2 : List Char) (more : List (List Char))
    (h1 : w1.head? ≠ some '\'') :
    builtin_alias ("alias".toList :: NAME :: e :: w1 :: w2 :: more) sh =
      (EXIT_FAILURE, sh.eprint USAGE_ALIAS) := by
  unfold builtin_alias
  simp only [List.length_cons]
  rw [if_neg (by omega), if_neg (by omega)]
  split
  · rfl
  · rw [if_neg (by omega), if_pos]
    exact ⟨by omega, Or.inl (by simpa using h1)⟩

/-- C28: no token returned by `parseline_no_subst` begins with a single quote.
Consequently the quote-stripping step of `builtin_alias` leaves every token as it
is, and for every line that `process_command` dispatches to the alias builtin
with two or more value words (`alias NAME = w1 w2 ...`) the builtin returns the
usage error: `process_command` returns with the usage message printed, `rc` set
to failure and the alias store unchanged; in a pipeline stage the child ends with
`_exit(1)`. -/
theorem C28_tokens_never_start_with_quote (os : OS) (fuel : Nat) (line : List Char)
    (sh : Shell) :
    (∀ t ∈ (parseline_no_subst line).argv, t.head? ≠ some '\'') ∧
    (∀ t ∈ (parseline_no_subst line).argv, alias_strip t = t) ∧
    (∀ NAME e w1 w2 more, has_bar (trim_whitespace line) = false →
      (parseline_no_subst (trim_whitespace line)).argv =
        "alias".toList :: NAME :: e :: w1 :: w2 :: more →
      process_command os (fuel + 1) line sh = some (Outcome.returned
        { (log_history (trim_whitespace line) sh).eprint USAGE_ALIAS with
          rc := EXIT_FAILURE }) ∧
      ({ (log_history (trim_whitespace line) sh).eprint USAGE_ALIAS with
          rc := EXIT_FAILURE } : Shell).alias_hm = sh.alias_hm) ∧
    (∀ NAME e w1 w2 more,
      (parseline_no_subst line).argv = "alias".toList :: NAME :: e :: w1 :: w2 :: more →
      builtin_alias (parseline_no_subst line).argv sh = (EXIT_FAILURE, sh.eprint USAGE_ALIAS) ∧
      exec_one_command os (parseline_no_subst line).argv sh = ProcEnd._exit 1) := by
  refine ⟨fun t ht => token_head line t ht, ?_, ?_, ?_⟩
  · intro t ht
    apply alias_strip_other
    rintro ⟨mid, rfl⟩
    exact token_head line _ ht rfl
  · intro NAME e w1 w2 more hb hargv
    have hw1 : w1.head? ≠ some '\'' :=
      token_head (trim_whitespace line) w1 (by rw [hargv]; simp)
    rw [process_command_single os fuel line sh _ _ hb hargv (by decide)]
    simp only [show ¬ "alias".toList = "cd".toList by decide,
      show ¬ "alias".toList = "path".toList by decide,
      show ¬ "alias".toList = "which".toList by decide, if_false, if_true]
    rw [builtin_alias_words _ _ _ _ _ _ hw1]
    exact ⟨rfl, log_history_alias _ _⟩
  · intro NAME e w1 w2 more hargv
    have hw1 : w1.head? ≠ some '\'' := token_head line w1 (by rw [hargv]; simp)
    rw [hargv, builtin_alias_words _ _ _ _ _ _ hw1]
    refine ⟨rfl, ?_⟩
    unfold exec_one_command
    simp only [show builtin_is_builtin_name "alias".toList = true by decide, if_true,
      show ¬ "alias".toList = "cd".toList by decide,
      show ¬ "alias".toList = "path".toList by decide,
      show ¬ "alias".toList = "which".toList by decide, if_false]
    rw [builtin_alias_words _ _ _ _ _ _ hw1]
    rfl

/-- Witness for C28: the line `alias ll = ls -l`. -/
theorem C28_tokens_never_start_with_quote_witness :
    process_command (example_os [] []) (0 + 1) "alias ll = ls -l\n".toList
        (initial_shell "/".toList none) = some (Outcome.returned
        { (log_history (trim_whitespace "alias ll = ls -l\n".toList)
            (initial_shell "/".toList none)).eprint USAGE_ALIAS with
          rc := EXIT_FAILURE }) ∧
      ({ (log_history (trim_whitespace "alias ll = ls -l\n".toList)
            (initial_shell "/".toList none)).eprint USAGE_ALIAS with
          rc := EXIT_FAILURE } : Shell).alias_hm = (initial_shell "/".toList none).alias_hm :=
  (C28_tokens_never_start_with_quote (example_os [] []) 0 "alias ll = ls -l\n".toList
    (initial_shell "/".toList none)).2.2.1 "ll".toList "=".toList "ls".toList "-l".toList []
    (by decide) (by decide)

/-! ## The classifier and the resolver (C26) -/

theorem strtok_all_nil (d : Char) : strtok_all d [] = [] := by
  simp [strtok_all, List.splitOn]

/-- The search of `execute_external_command` is the search of `find_in_path`. -/
theorem execute_external_eq (os : OS) (sh : Shell) (a0 : List Char) (rest : List (List Char)) :
    execute_external_command os sh (a0 :: rest) =
      if is_path_like a0 then
        if os.access_x sh.cwd a0 then ProcEnd.execv a0 (a0 :: rest) else ProcEnd._exit 127
      else
        match find_in_path os sh a0 with
        | some full => ProcEnd.execv full (a0 :: rest)
        | none => ProcEnd._exit 127 := by
  unfold execute_external_command find_in_path
  simp only [List.headD_cons]
  split
  · rfl
  · cases hp : sh.env_PATH with
    | none => rfl
    | some path =>
      simp only
      split
      · next hl =>
        rw [List.length_eq_zero.1 hl, strtok_all_nil]
        rfl
      · rfl

/-- C26, for a non-empty name: for every command name that is not a builtin
name, every `PATH` and every executability oracle, `command_exists` is true exactly
when `execute_external_command` reaches an `execv` call; the path it execs is the
literal name for a name beginning with `/` or `./`, and otherwise the first match
that `find_in_path` reports; when `command_exists` is false the child ends with
`_exit(127)`. -/
theorem C26_classifier_resolver_agree (os : OS) (sh : Shell) (a0 : List Char)
    (rest : List (List Char)) (h0 : a0 ≠ []) (hnb : builtin_is_builtin_name a0 = false) :
    (command_exists os sh (a0 :: rest) = true ↔
      ∃ p, execute_external_command os sh (a0 :: rest) = ProcEnd.execv p (a0 :: rest)) ∧
    (∀ p, execute_external_command os sh (a0 :: rest) = ProcEnd.execv p (a0 :: rest) →
      if is_path_like a0 then p = a0 else find_in_path os sh a0 = some p) ∧
    (command_exists os sh (a0 :: rest) = false →
      execute_external_command os sh (a0 :: rest) = ProcEnd._exit 127) := by
  rw [command_exists_cons os sh a0 rest h0, execute_external_eq]
  simp only [hnb, Bool.false_eq_true, if_false]
  by_cases hp : is_path_like a0 = true
  · simp only [hp, if_true]
    by_cases ha : os.access_x sh.cwd a0 = true
    · simp [ha]
    · simp [ha]
  · simp only [hp, if_false]
    cases hf : find_in_path os sh a0 with
    | none => simp
    | some full => simp

/-- Witness for C26: `ls -l` with `/bin/ls` executable. -/
theorem C26_classifier_resolver_agree_witness :
    (command_exists (example_os ["/bin/ls".toList] []) (initial_shell "/".toList none)
        ["ls".toList, "-l".toList] = true ↔
      ∃ p, execute_external_command (example_os ["/bin/ls".toList] [])
        (initial_shell "/".toList none) ["ls".toList, "-l".toList] =
          ProcEnd.execv p ["ls".toList, "-l".toList]) :=
  (C26_classifier_resolver_agree (example_os ["/bin/ls".toList] [])
    (initial_shell "/".toList none) "ls".toList ["-l".toList] (by decide) (by decide)).1

/-- Counterexample to C26 as stated: the empty name (the token of `''`) is not
a builtin name; with `/bin/` executable `command_exists` is false for it, yet
`execute_external_command` reaches `execv` on `/bin/`, and `process_command` on the
line `''` forks the child that does so. -/
theorem C26_counterexample :
    builtin_is_builtin_name [] = false ∧
      command_exists (example_os ["/bin/".toList] []) (initial_shell "/".toList none) [[]]
        = false ∧
      execute_external_command (example_os ["/bin/".toList] [])
        (initial_shell "/".toList none) [[]] = ProcEnd.execv "/bin/".toList [[]] ∧
      process_command (example_os ["/bin/".toList] []) 1 "''\n".toList
        (initial_shell "/".toList none) =
        some (Outcome.returned
          { initial_shell "/".toList none with
            history_da := da_put (da_create 10) "''".toList,
            trace := [Sys.fork 0 (some [ChildOp.run [[]]
                (ProcEnd.execv "/bin/".toList [[]])]), Sys.waitpid 0] }) := by
  decide

/-! ## The process-level calls of a valid pipeline -/

theorem cd_code_trace (os : OS) (argv : List (List Char)) (sh : Shell) (tr : List Sys) :
    (built_in_cd os argv { sh with trace := tr }).1 = (built_in_cd os argv sh).1 := by
  unfold built_in_cd
  dsimp only
  split
  · rfl
  · split
    · rfl
    · split <;> rfl

theorem path_code_trace (argv : List (List Char)) (sh : Shell) (tr : List Sys) :
    (built_in_path argv { sh with trace := tr }).1 = (built_in_path argv sh).1 := by
  unfold built_in_path
  dsimp only
  repeat' split
  all_goals rfl

theorem which_code_trace (os : OS) (argv : List (List Char)) (sh : Shell) (tr : List Sys) :
    (builtin_which os argv { sh with trace := tr }).1 = (builtin_which os argv sh).1 := by
  unfold builtin_which find_in_path
  dsimp only
  repeat' split
  all_goals rfl

theorem alias_code_trace (argv : List (List Char)) (sh : Shell) (tr : List Sys) :
    (builtin_alias argv { sh with trace := tr }).1 = (builtin_alias argv sh).1 := by
  unfold builtin_alias
  dsimp only
  repeat' split
  all_goals rfl

theorem unalias_code_trace (argv : List (List Char)) (sh : Shell) (tr : List Sys) :
    (builtin_unalias argv { sh with trace := tr }).1 = (builtin_unalias argv sh).1 := by
  unfold builtin_unalias
  dsimp only
  repeat' split
  all_goals rfl

theorem history_code_trace (argv : List (List Char)) (sh : Shell) (tr : List Sys) :
    (builtin_history argv { sh with trace := tr }).1 = (builtin_history argv sh).1 := by
  unfold builtin_history
  dsimp only
  repeat' split
  all_goals rfl

/-- What a child does with a command does not depend on the calls the parent has
recorded. -/
theorem exec_one_command_trace (os : OS) (argv : List (List Char)) (sh : Shell)
    (tr : List Sys) :
    exec_one_command os argv { sh with trace := tr } = exec_one_command os argv sh := by
  unfold exec_one_command
  cases argv with
  | nil => rfl
  | cons a0 args =>
    simp only [cd_code_trace, path_code_trace, which_code_trace, alias_code_trace,
      unalias_code_trace, history_code_trace]
    rfl

theorem child_ops_trace (os : OS) (sh : Shell) (tr : List Sys) (n i : Nat)
    (argv : List (List Char)) :
    child_ops os { sh with trace := tr } n i argv = child_ops os sh n i argv := by
  unfold child_ops
  rw [exec_one_command_trace]

theorem make_pipes_trace (os : OS) (sh : Shell) (m : Nat) : ∀ (k : Nat) (tr : List Sys),
    (∀ j, j < m → os.pipe_ok (k + j) = true) →
    make_pipes os m k { sh with trace := tr } =
      (true, { sh with trace := tr ++ (List.range' k m).map Sys.pipe }) := by
  induction m with
  | zero => intro k tr _; simp [make_pipes]
  | succ m ih =>
    intro k tr h
    have h0 : os.pipe_ok k = true := by simpa using h 0 (by omega)
    rw [make_pipes, if_pos h0]
    have := ih (k + 1) (tr ++ [Sys.pipe k]) (fun j hj => by
      have := h (j + 1) (by omega)
      rw [← this]; congr 1; omega)
    simp only [Shell.log]
    rw [this]
    simp [List.range'_succ]

theorem fork_loop_trace (os : OS) (sh : Shell) (n : Nat) (argvs : List (List (List Char))) :
    ∀ (i : Nat) (tr : List Sys), (∀ j, j < argvs.length → os.fork_ok (i + j) = true) →
    fork_loop os n argvs i { sh with trace := tr } =
      { sh with
        trace := tr ++ (argvs.enumFrom i).map
          (fun p => Sys.fork p.1 (some (child_ops os sh n p.1 p.2))) } := by
  induction argvs with
  | nil => intro i tr _; simp [fork_loop]
  | cons a rest ih =>
    intro i tr h
    have h0 : os.fork_ok i = true := by simpa using h 0 (by simp)
    rw [fork_loop, if_pos h0]
    simp only [Shell.log]
    rw [ih (i + 1) _ (fun j hj => by
      have := h (j + 1) (by simp; omega)
      rw [← this]; congr 1; omega)]
    rw [child_ops_trace]
    simp [List.enumFrom_cons]

theorem parseline_snd (s : List Char) (sh : Shell) (h : (parseline s sh).1 ≠ []) :
    (parseline s sh).2 = sh := by
  have hw : (parseline_no_subst s).warned = false := by
    cases hh : (parseline_no_subst s).warned with
    | false => rfl
    | true => exact absurd (parseline_warned_argv _ hh) h
  simp [parseline, hw]

theorem expand_snd (s : List Char) (sh : Shell)
    (h : (parseline (expand_alias_for_segment s sh).1 sh).1 ≠ []) :
    (expand_alias_for_segment s sh).2 = sh := by
  by_cases hs : (parseline s sh).1 = []
  · exfalso
    apply h
    have : (expand_alias_for_segment s sh).1 = s := by
      unfold expand_alias_for_segment
      cases hp : parseline s sh with
      | mk argv sh1 =>
        rw [hp] at hs
        simp only at hs
        subst hs
        rfl
    rw [this]; exact hs
  · have h2 := parseline_snd s sh hs
    unfold expand_alias_for_segment
    cases hp : parseline s sh with
    | mk argv sh1 =>
      rw [hp] at h2 hs
      simp only at h2 hs
      subst h2
      cases argv with
      | nil => exact absurd rfl hs
      | cons a0 r =>
        simp only
        split <;> rfl

theorem command_exists_nil (os : OS) (sh : Shell) : command_exists os sh [] = false := rfl

/-- When every segment passes validation the first loop of `run_pipeline` leaves
the session as it was and collects the vectors of the segments. -/
theorem prep_loop_valid (os : OS) (sh : Shell) (segs : List (List Char)) :
    ∀ (inv : Bool) (acc : List (List (List Char))),
    (∀ seg ∈ segs, command_exists os sh (stage_argv sh seg) = true) →
    prep_loop os segs sh inv acc = (⟨false, inv, acc ++ segs.map (stage_argv sh)⟩, sh) := by
  induction segs with
  | nil => intro inv acc _; simp [prep_loop]
  | cons seg rest ih =>
    intro inv acc h
    have hv := h seg (by simp)
    have hne : stage_argv sh seg ≠ [] := by
      intro e; rw [e, command_exists_nil] at hv; exact absurd hv (by decide)
    have hraw : trim_inplace seg ≠ [] := fun e => hne (stage_argv_of_trim_nil sh seg e)
    have hne2 : (parseline (expand_alias_for_segment (trim_inplace seg) sh).1 sh).1 ≠ [] := hne
    have he := expand_snd (trim_inplace seg) sh hne2
    have hp := parseline_snd _ sh hne2
    rw [prep_loop]
    simp only [hraw, if_false]
    cases hx : expand_alias_for_segment (trim_inplace seg) sh with
    | mk expanded sh1 =>
      rw [hx] at he hp hne2
      simp only at he hp hne2
      subst he
      have hst : stage_argv sh1 seg = (parseline expanded sh1).1 := by
        unfold stage_argv; rw [hx]
      cases hy : parseline expanded sh1 with
      | mk argv sh2 =>
        rw [hy] at hp hne2 hst
        simp only at hp hne2 hst
        subst hp
        cases argv with
        | nil => exact absurd rfl hne2
        | cons a0 args =>
          simp only
          rw [← hst, if_pos hv, ih _ _ (fun s hs => h s (by simp [hs]))]
          simp

/-- The process-level calls of a pipeline that passes validation when no `pipe`
and no `fork` fails. -/
theorem run_pipeline_trace (os : OS) (sh : Shell) (line : List Char) (segs : List (List Char))
    (hsplit : split_pipeline line MAX_PIPE_CMDS = some segs) (hn : 2 ≤ segs.length)
    (hvalid : ∀ seg ∈ segs, command_exists os sh (stage_argv sh seg) = true)
    (hpipe : ∀ k, k < segs.length - 1 → os.pipe_ok k = true)
    (hfork : ∀ i, i < segs.length → os.fork_ok i = true) :
    (run_pipeline os line sh).2 =
      { sh with
        trace := sh.trace ++ (List.range' 0 (segs.length - 1)).map Sys.pipe ++
          ((segs.map (stage_argv sh)).enumFrom 0).map
            (fun p => Sys.fork p.1 (some (child_ops os sh segs.length p.1 p.2))) ++
          (pipe_fds (segs.length - 1)).map Sys.close ++
          (List.range segs.length).map Sys.waitpid } := by
  unfold run_pipeline
  rw [hsplit]
  have hlen : segs.length ≠ 1 := by omega
  simp only [hlen, if_false]
  rw [prep_loop_valid os sh segs false [] hvalid]
  simp only [Bool.false_eq_true, if_false, List.nil_append]
  have hm := make_pipes_trace os sh (segs.length - 1) 0 sh.trace
    (fun j hj => by simpa using hpipe j hj)
  have hm2 : make_pipes os (segs.length - 1) 0 sh =
      (true, { sh with trace := sh.trace ++ (List.range' 0 (segs.length - 1)).map Sys.pipe }) :=
    hm
  rw [hm2]
  simp only
  rw [fork_loop_trace os sh segs.length (segs.map (stage_argv sh)) 0 _
    (fun j hj => by simpa using hfork j (by simpa using hj))]


/-! ## Pipe wiring (C22) -/

theorem enumFrom_map_range {α β : Type} (l : List α) (d : α) (f : Nat × α → β) :
    (l.enumFrom 0).map f = (List.range l.length).map (fun i => f (i, l.getD i d)) := by
  apply List.ext_getElem
  · simp
  · intro n h1 h2
    simp at h1
    simp [List.getD_eq_getElem?_getD, List.getElem?_eq_getElem h1]

theorem child_ops_stdin (os : OS) (sh : Shell) (n i : Nat) (argv : List (List Char))
    (fd : Fd) :
    ChildOp.dup2 fd Fd.stdin ∈ child_ops os sh n i argv ↔ (0 < i ∧ fd = Fd.pipe_r (i - 1)) := by
  unfold child_ops
  by_cases h1 : i > 0 <;> by_cases h2 : i < n - 1 <;> simp [h1, h2]

theorem child_ops_stdout (os : OS) (sh : Shell) (n i : Nat) (argv : List (List Char))
    (fd : Fd) :
    ChildOp.dup2 fd Fd.stdout ∈ child_ops os sh n i argv ↔ (i < n - 1 ∧ fd = Fd.pipe_w i) := by
  unfold child_ops
  by_cases h1 : i > 0 <;> by_cases h2 : i < n - 1 <;> simp [h1, h2]

theorem child_ops_shape (os : OS) (sh : Shell) (n i : Nat) (argv : List (List Char)) :
    ∃ pre, child_ops os sh n i argv =
        pre ++ (pipe_fds (n - 1)).map ChildOp.close ++
          [ChildOp.run argv (exec_one_command os argv sh)] ∧
      ∀ op ∈ pre, ∃ a b, op = ChildOp.dup2 a b := by
  refine ⟨_, rfl, ?_⟩
  intro op hop
  by_cases h1 : i > 0 <;> by_cases h2 : i < n - 1 <;> simp [h1, h2] at hop
  · rcases hop with rfl | rfl <;> exact ⟨_, _, rfl⟩
  · subst hop; exact ⟨_, _, rfl⟩
  · subst hop; exact ⟨_, _, rfl⟩

theorem pipe_fds_mem (m k : Nat) (h : k < m) :
    Fd.pipe_r k ∈ pipe_fds m ∧ Fd.pipe_w k ∈ pipe_fds m := by
  unfold pipe_fds
  simp only [List.mem_flatMap, List.mem_range]
  exact ⟨⟨k, h, by simp⟩, ⟨k, h, by simp⟩⟩

theorem pipe_fds_only (m : Nat) (fd : Fd) (h : fd ∈ pipe_fds m) :
    ∃ k, k < m ∧ (fd = Fd.pipe_r k ∨ fd = Fd.pipe_w k) := by
  unfold pipe_fds at h
  simp only [List.mem_flatMap, List.mem_range] at h
  obtain ⟨k, hk, hm⟩ := h
  exact ⟨k, hk, by simpa using hm⟩

theorem pipes_made_append (a b : List Sys) : pipes_made (a ++ b) = pipes_made a ++ pipes_made b := by
  simp [pipes_made, List.filterMap_append]

theorem pipes_made_pipes (l : List Nat) : pipes_made (l.map Sys.pipe) = l := by
  induction l with
  | nil => rfl
  | cons x xs ih =>
    simp only [List.map_cons, pipes_made, List.filterMap_cons] at ih ⊢
    rw [ih]

theorem pipes_made_none (l : List Sys) (h : ∀ e ∈ l, ∀ k, e ≠ Sys.pipe k) :
    pipes_made l = [] := by
  induction l with
  | nil => rfl
  | cons x xs ih =>
    have hx := h x (by simp)
    have := ih (fun e he => h e (by simp [he]))
    unfold pipes_made at this ⊢
    cases x with
    | pipe k => exact absurd rfl (hx k)
    | fork i c => simpa [List.filterMap_cons] using this
    | close fd => simpa [List.filterMap_cons] using this
    | waitpid i => simpa [List.filterMap_cons] using this

theorem pipe_fds_length (m : Nat) : (pipe_fds m).length = 2 * m := by
  unfold pipe_fds
  induction m with
  | zero => simp
  | succ m ih =>
    rw [List.range_succ, List.flatMap_append, List.length_append, ih]
    simp
    omega

/-- The calls of a valid pipeline, child by child. -/
theorem run_pipeline_calls (os : OS) (sh : Shell) (line : List Char) (segs : List (List Char))
    (hsplit : split_pipeline line MAX_PIPE_CMDS = some segs) (hn : 2 ≤ segs.length)
    (hvalid : ∀ seg ∈ segs, command_exists os sh (stage_argv sh seg) = true)
    (hpipe : ∀ k, k < segs.length - 1 → os.pipe_ok k = true)
    (hfork : ∀ i, i < segs.length → os.fork_ok i = true) :
    (run_pipeline os line sh).2.trace =
      sh.trace ++ (List.range (segs.length - 1)).map Sys.pipe ++
        (List.range segs.length).map (fun i => Sys.fork i
          (some (child_ops os sh segs.length i (stage_argv sh (segs.getD i []))))) ++
        (pipe_fds (segs.length - 1)).map Sys.close ++
        (List.range segs.length).map Sys.waitpid := by
  rw [run_pipeline_trace os sh line segs hsplit hn hvalid hpipe hfork]
  simp only
  rw [enumFrom_map_range (segs.map (stage_argv sh)) (stage_argv sh [])
    (fun p => Sys.fork p.1 (some (child_ops os sh segs.length p.1 p.2))),
    ← List.range_eq_range']
  simp only [List.length_map]
  congr 3
  apply List.map_congr_left
  intro i hi
  have hi2 : i < segs.length := List.mem_range.1 hi
  simp [List.getD_eq_getElem?_getD, List.getElem?_map, List.getElem?_eq_getElem hi2]

/-- C22: pipe wiring.  For a line of `N >= 2` segments that all pass validation,
when no `pipe` and no `fork` fails, `run_pipeline` records, after what the trace
held, the creation of pipes `0 .. N-2`, the forks of children `0 .. N-1` in
segment order, the parent closing both ends of all `N-1` pipes, and the waits -
in that order, so exactly `N-1` pipes and `N` children.  Child `i` redirects its
standard input exactly when `i > 0`, from the read end of pipe `i-1`, and its
standard output exactly when `i < N-1`, to the write end of pipe `i`; after its
redirections it closes both ends of all `N-1` pipes and then runs the command of
segment `i`. -/
theorem C22_pipe_wiring (os : OS) (sh : Shell) (line : List Char) (segs : List (List Char))
    (hsplit : split_pipeline line MAX_PIPE_CMDS = some segs) (hn : 2 ≤ segs.length)
    (hvalid : ∀ seg ∈ segs, command_exists os sh (stage_argv sh seg) = true)
    (hpipe : ∀ k, k < segs.length - 1 → os.pipe_ok k = true)
    (hfork : ∀ i, i < segs.length → os.fork_ok i = true) :
    (run_pipeline os line sh).2.trace =
      sh.trace ++ (List.range (segs.length - 1)).map Sys.pipe ++
        (List.range segs.length).map (fun i => Sys.fork i
          (some (child_ops os sh segs.length i (stage_argv sh (segs.getD i []))))) ++
        (pipe_fds (segs.length - 1)).map Sys.close ++
        (List.range segs.length).map Sys.waitpid ∧
    pipes_made (run_pipeline os line sh).2.trace =
      pipes_made sh.trace ++ List.range (segs.length - 1) ∧
    spawned (run_pipeline os line sh).2.trace = spawned sh.trace ++ List.range segs.length ∧
    (∀ i argv fd, ChildOp.dup2 fd Fd.stdin ∈ child_ops os sh segs.length i argv ↔
      (0 < i ∧ fd = Fd.pipe_r (i - 1))) ∧
    (∀ i argv fd, ChildOp.dup2 fd Fd.stdout ∈ child_ops os sh segs.length i argv ↔
      (i < segs.length - 1 ∧ fd = Fd.pipe_w i)) ∧
    (∀ i argv, ∃ pre, child_ops os sh segs.length i argv =
        pre ++ (pipe_fds (segs.length - 1)).map ChildOp.close ++
          [ChildOp.run argv (exec_one_command os argv sh)] ∧
      ∀ op ∈ pre, ∃ a b, op = ChildOp.dup2 a b) ∧
    (∀ k, k < segs.length - 1 →
      Fd.pipe_r k ∈ pipe_fds (segs.length - 1) ∧ Fd.pipe_w k ∈ pipe_fds (segs.length - 1)) ∧
    (pipe_fds (segs.length - 1)).length = 2 * (segs.length - 1) := by
  have ht := run_pipeline_calls os sh line segs hsplit hn hvalid hpipe hfork
  refine ⟨ht, ?_, (run_pipeline_status os sh line segs hsplit hn hvalid hpipe).2 hfork,
    fun i argv fd => child_ops_stdin os sh _ i argv fd,
    fun i argv fd => child_ops_stdout os sh _ i argv fd,
    fun i argv => child_ops_shape os sh _ i argv,
    fun k hk => pipe_fds_mem _ k hk, pipe_fds_length _⟩
  rw [ht, pipes_made_append, pipes_made_append, pipes_made_append, pipes_made_append,
    pipes_made_pipes,
    pipes_made_none ((List.range segs.length).map Sys.waitpid) (by
      intro e he k; simp only [List.mem_map] at he; obtain ⟨_, _, rfl⟩ := he; simp),
    pipes_made_none ((pipe_fds (segs.length - 1)).map Sys.close) (by
      intro e he k; simp only [List.mem_map] at he; obtain ⟨_, _, rfl⟩ := he; simp),
    pipes_made_none ((List.range segs.length).map _) (by
      intro e he k; simp only [List.mem_map] at he; obtain ⟨_, _, rfl⟩ := he; simp)]
  simp

/-- Witness for C22: the three stages of `ls | cat | wc`. -/
theorem C22_pipe_wiring_witness :
    pipes_made (run_pipeline
        (example_os ["/bin/ls".toList, "/bin/cat".toList, "/bin/wc".toList] [])
        "ls | cat | wc".toList (initial_shell "/".toList none)).2.trace =
      pipes_made (initial_shell "/".toList none).trace ++
        List.range (["ls ".toList, " cat ".toList, " wc".toList].length - 1) :=
  (C22_pipe_wiring (example_os ["/bin/ls".toList, "/bin/cat".toList, "/bin/wc".toList] [])
    (initial_shell "/".toList none) "ls | cat | wc".toList
    ["ls ".toList, " cat ".toList, " wc".toList] (by decide) (by decide) (by decide)
    (fun _ _ => rfl) (fun _ _ => rfl)).2.1

/-! ## Single-level expansion in a pipeline (C25) -/

theorem expand_of_alias (sh : Shell) (s a0 v : List Char) (rest : List (List Char))
    (hargv : (parseline_no_subst s).argv = a0 :: rest) (hv : hm_get sh.alias_hm a0 = some v) :
    (expand_alias_for_segment s sh).1 = v ++ skip_first_word s := by
  have hd := diag_eq_alias (parseline_diag s sh)
  have hf := parseline_fst s sh
  unfold expand_alias_for_segment
  cases hp : parseline s sh with
  | mk argv sh1 =>
    rw [hp] at hd hf
    simp only at hd hf
    rw [hargv] at hf
    subst hf
    simp only
    rw [hd, hv]

theorem expand_of_no_alias (sh : Shell) (s : List Char)
    (h : ∀ a0 rest, (parseline_no_subst s).argv = a0 :: rest → hm_get sh.alias_hm a0 = none) :
    (expand_alias_for_segment s sh).1 = s := by
  have hd := diag_eq_alias (parseline_diag s sh)
  have hf := parseline_fst s sh
  unfold expand_alias_for_segment
  cases hp : parseline s sh with
  | mk argv sh1 =>
    rw [hp] at hd hf
    simp only at hd hf
    cases argv with
    | nil => rfl
    | cons a0 rest =>
      simp only
      rw [hd, h a0 rest hf.symm]

/-- C25: pipeline expansion is single-level.  For a line of `N >= 2` segments
that all pass validation, when no `pipe` and no `fork` fails, child `i` is forked
to run the vector that the tokenizer returns for one alias expansion of the
trimmed segment `i`, and exactly `N` children are forked, one per segment of the
line.  That vector is the tokens of the alias value followed by the rest of the
segment when the first token of the trimmed segment is an alias - whatever the
leading token of the value is, and whatever pipes the value holds - and the tokens
of the trimmed segment otherwise. -/
theorem C25_single_level_expansion (os : OS) (sh : Shell) (line : List Char)
    (segs : List (List Char))
    (hsplit : split_pipeline line MAX_PIPE_CMDS = some segs) (hn : 2 ≤ segs.length)
    (hvalid : ∀ seg ∈ segs, command_exists os sh (stage_argv sh seg) = true)
    (hpipe : ∀ k, k < segs.length - 1 → os.pipe_ok k = true)
    (hfork : ∀ i, i < segs.length → os.fork_ok i = true) :
    (∀ i, i < segs.length →
      Sys.fork i (some (child_ops os sh segs.length i
        (parseline_no_subst
          (expand_alias_for_segment (trim_inplace (segs.getD i [])) sh).1).argv))
        ∈ (run_pipeline os line sh).2.trace ∧
      ChildOp.run
        (parseline_no_subst
          (expand_alias_for_segment (trim_inplace (segs.getD i [])) sh).1).argv
        (exec_one_command os
          (parseline_no_subst
            (expand_alias_for_segment (trim_inplace (segs.getD i [])) sh).1).argv sh)
        ∈ child_ops os sh segs.length i
          (parseline_no_subst
            (expand_alias_for_segment (trim_inplace (segs.getD i [])) sh).1).argv) ∧
    spawned (run_pipeline os line sh).2.trace = spawned sh.trace ++ List.range segs.length ∧
    (∀ seg a0 rest v, (parseline_no_subst (trim_inplace seg)).argv = a0 :: rest →
      hm_get sh.alias_hm a0 = some v →
      stage_argv sh seg = (parseline_no_subst (v ++ skip_first_word (trim_inplace seg))).argv) ∧
    (∀ seg, (∀ a0 rest, (parseline_no_subst (trim_inplace seg)).argv = a0 :: rest →
        hm_get sh.alias_hm a0 = none) →
      stage_argv sh seg = (parseline_no_subst (trim_inplace seg)).argv) := by
  have ht := run_pipeline_calls os sh line segs hsplit hn hvalid hpipe hfork
  refine ⟨?_, (run_pipeline_status os sh line segs hsplit hn hvalid hpipe).2 hfork, ?_, ?_⟩
  · intro i hi
    constructor
    · rw [ht]
      simp only [List.mem_append, List.mem_map, List.mem_range]
      left; left; right
      exact ⟨i, hi, rfl⟩
    · unfold child_ops
      simp
  · intro seg a0 rest v hargv hv
    unfold stage_argv
    rw [parseline_fst, expand_of_alias sh _ a0 v rest hargv hv]
  · intro seg h
    unfold stage_argv
    rw [parseline_fst, expand_of_no_alias sh _ h]

/-- Witness for C25: with the aliases `a` for `b x`, `b` for `ls` and `p` for
`ls | wc`, the line `a | p` runs two children, on `b x` and on `ls | wc`. -/
theorem C25_single_level_expansion_witness :
    spawned (run_pipeline (example_os ["/bin/b".toList, "/bin/ls".toList] [])
        "a | p".toList
        (alias_session [("a".toList, "b x".toList), ("b".toList, "ls".toList),
          ("p".toList, "ls | wc".toList)])).2.trace =
      spawned (alias_session [("a".toList, "b x".toList), ("b".toList, "ls".toList),
          ("p".toList, "ls | wc".toList)]).trace ++
        List.range ["a ".toList, " p".toList].length ∧
    stage_argv (alias_session [("a".toList, "b x".toList), ("b".toList, "ls".toList),
        ("p".toList, "ls | wc".toList)]) "a ".toList = ["b".toList, "x".toList] ∧
    stage_argv (alias_session [("a".toList, "b x".toList), ("b".toList, "ls".toList),
        ("p".toList, "ls | wc".toList)]) " p".toList =
      ["ls".toList, "|".toList, "wc".toList] :=
  ⟨(C25_single_level_expansion (example_os ["/bin/b".toList, "/bin/ls".toList] [])
      (alias_session [("a".toList, "b x".toList), ("b".toList, "ls".toList),
        ("p".toList, "ls | wc".toList)])
      "a | p".toList ["a ".toList, " p".toList] (by decide) (by decide) (by decide)
      (fun _ _ => rfl) (fun _ _ => rfl)).2.1,
    by decide, by decide⟩

/-! ## A self-referential alias on the single-command path (C27) -/

theorem name_split {NAME : List Char} (hne : NAME ≠ []) :
    ∃ init d, NAME = init ++ [d] := by
  cases h : NAME.getLast? with
  | none => exact absurd (List.getLast?_eq_none_iff.1 h) hne
  | some d => exact ⟨NAME.dropLast, d, (List.dropLast_append_getLast? d h).symm⟩

theorem dropWhile_name (NAME u : List Char) (hne : NAME ≠ [])
    (hsp : ∀ c ∈ NAME, isspace c = false) :
    (NAME ++ u).dropWhile isspace = NAME ++ u := by
  cases NAME with
  | nil => exact absurd rfl hne
  | cons c r =>
    rw [List.cons_append, List.dropWhile_cons_of_neg (by simp [hsp c (by simp)])]

/-- Trimming a bare name between whitespace and a tail. -/
theorem trim_name (w NAME u : List Char) (hw : ∀ c ∈ w, isspace c = true) (hne : NAME ≠ [])
    (hsp : ∀ c ∈ NAME, isspace c = false) :
    trim_whitespace (w ++ NAME ++ u) = NAME ++ rstrip u := by
  obtain ⟨init, d, hd⟩ := name_split hne
  have hdsp : isspace d = false := hsp d (by rw [hd]; simp)
  rw [trim_whitespace_eq, trim_inplace, List.append_assoc, List.dropWhile_append_of_pos hw,
    dropWhile_name NAME u hne hsp]
  rw [hd, List.append_assoc, List.singleton_append, rstrip_append_cons init u d hdsp]
  simp

theorem rstrip_tail_ok (u : List Char)
    (hu : ((∀ c ∈ u, isspace c = true) ∨ u.head? = some ' ') ∧ '\'' ∉ u ∧ '|' ∉ u) :
    tail_ok (rstrip u) := by
  obtain ⟨h1, h2, h3⟩ := hu
  refine ⟨?_, fun h => h2 (mem_rstrip h), fun h => h3 (mem_rstrip h)⟩
  by_cases he : rstrip u = []
  · exact Or.inl he
  · right
    obtain ⟨w, hw, e⟩ := rstrip_decomp u
    rcases h1 with h1 | h1
    · exfalso
      apply he
      unfold rstrip
      rw [List.dropWhile_eq_nil_iff.2 (fun c hc => h1 c (List.mem_reverse.1 hc))]
      rfl
    · cases hr : rstrip u with
      | nil => exact absurd hr he
      | cons x xs =>
        rw [hr] at e
        rw [e] at h1
        simpa using h1

theorem space_runs_single (tok : List Char) (hsp : ' ' ∉ tok) (hne : tok ≠ []) :
    space_runs tok = [tok] := by
  rw [← space_runs_append_space, space_runs_first tok [] hsp hne, space_runs_nil]

/-- The tokens of a bare name followed by an admissible tail begin with the name. -/
theorem tokens_name_tail (NAME t : List Char) (hne : NAME ≠ [])
    (hsp : ∀ c ∈ NAME, isspace c = false) (hq : '\'' ∉ NAME) (ht : tail_ok t)
    (hlast : (NAME ++ t).getLast? ≠ some '\n') :
    ∃ rest, (parseline_no_subst (NAME ++ t)).argv = NAME :: rest := by
  obtain ⟨h1, h2, _⟩ := ht
  have hqq : '\'' ∉ NAME ++ t := by
    intro h
    rcases List.mem_append.1 h with h | h
    · exact hq h
    · exact h2 h
  have hnsp : ' ' ∉ NAME := fun h => absurd (hsp _ h) (by decide)
  rw [parseline_no_quote _ hqq]
  simp only
  have hnl : newline_as_space (NAME ++ t) = NAME ++ t := by
    unfold newline_as_space
    rw [if_neg hlast]
  rw [hnl]
  rcases h1 with h1 | h1
  · subst h1
    rw [List.append_nil, space_runs_single NAME hnsp hne]
    exact ⟨[], rfl⟩
  · cases t with
    | nil => simp at h1
    | cons c r =>
      simp only [List.head?_cons, Option.some.injEq] at h1
      subst h1
      rw [space_runs_first NAME r hnsp hne]
      exact ⟨_, rfl⟩

theorem skip_first_word_name (NAME t : List Char) (hne : NAME ≠ [])
    (hsp : ∀ c ∈ NAME, isspace c = false) (ht : t = [] ∨ t.head? = some ' ') :
    skip_first_word (NAME ++ t) = t := by
  unfold skip_first_word
  rw [dropWhile_name NAME t hne hsp,
    List.dropWhile_append_of_pos (fun c hc => by simp [hsp c hc])]
  rcases ht with ht | ht
  · subst ht; rfl
  · cases t with
    | nil => rfl
    | cons c r =>
      simp only [List.head?_cons, Option.some.injEq] at ht
      subst ht
      rw [List.dropWhile_cons_of_neg (by decide)]

theorem not_builtin_ne {NAME : List Char} (h : builtin_is_builtin_name NAME = false) :
    NAME ≠ "exit".toList ∧ NAME ≠ "cd".toList ∧ NAME ≠ "path".toList ∧
      NAME ≠ "which".toList ∧ NAME ≠ "alias".toList ∧ NAME ≠ "unalias".toList ∧
      NAME ≠ "history".toList := by
  refine ⟨?_, ?_, ?_, ?_, ?_, ?_, ?_⟩ <;> (intro e; subst e; revert h; decide)

/-- One expansion step keeps the line in the form of the name followed by an
admissible tail. -/
theorem reexpand_form (NAME tv line t : List Char) (hne : NAME ≠ [])
    (hsp : ∀ c ∈ NAME, isspace c = false) (htv : tail_ok tv)
    (hL : trim_whitespace line = NAME ++ t) (ht : tail_ok t) :
    reexpand (NAME ++ tv) line = NAME ++ (tv ++ t) ∧
      trim_whitespace (reexpand (NAME ++ tv) line) = NAME ++ rstrip (tv ++ t) ∧
      tail_ok (rstrip (tv ++ t)) := by
  have e : reexpand (NAME ++ tv) line = NAME ++ (tv ++ t) := by
    unfold reexpand
    rw [hL, skip_first_word_name NAME t hne hsp ht.1, List.append_assoc]
  refine ⟨e, ?_, ?_⟩
  · rw [e]
    have := trim_name [] NAME (tv ++ t) (by simp) hne hsp
    simpa using this
  · apply rstrip_tail_ok
    refine ⟨?_, ?_, ?_⟩
    · rcases htv.1 with h | h
      · subst h
        rcases ht.1 with h2 | h2
        · subst h2; left; simp
        · right; simpa using h2
      · right
        cases tv with
        | nil => simp at h
        | cons c r => simpa using h
    · intro h
      rcases List.mem_append.1 h with h | h
      · exact htv.2.1 h
      · exact ht.2.1 h
    · intro h
      rcases List.mem_append.1 h with h | h
      · exact htv.2.2 h
      · exact ht.2.2 h

/-- On a line of that form `process_command` goes to the alias branch. -/
theorem line_form_facts (NAME line t : List Char) (hne : NAME ≠ [])
    (hsp : ∀ c ∈ NAME, isspace c = false) (hq : '\'' ∉ NAME) (hbar : '|' ∉ NAME)
    (hL : trim_whitespace line = NAME ++ t) (ht : tail_ok t) :
    has_bar (trim_whitespace line) = false ∧
      ∃ rest, (parseline_no_subst (trim_whitespace line)).argv = NAME :: rest := by
  constructor
  · rw [hL]
    apply has_bar_loop_no_bar
    intro h
    rcases List.mem_append.1 h with h | h
    · exact hbar h
    · exact ht.2.2 h
  · have hlast : (NAME ++ t).getLast? ≠ some '\n' := by
      intro h
      rw [← hL] at h
      exact absurd (trim_whitespace_last line _ h) (by decide)
    rw [hL]
    exact tokens_name_tail NAME t hne hsp hq ht hlast

/-- One re-entry: on a line of that form, with the name mapped to `v`,
`process_command` calls itself on the expansion of the line. -/
theorem alias_step (os : OS) (NAME v : List Char) (hne : NAME ≠ [])
    (hsp : ∀ c ∈ NAME, isspace c = false) (hq : '\'' ∉ NAME) (hbar : '|' ∉ NAME)
    (hnb : builtin_is_builtin_name NAME = false) (n : Nat) (line t : List Char) (sh : Shell)
    (hL : trim_whitespace line = NAME ++ t) (ht : tail_ok t)
    (hget : hm_get sh.alias_hm NAME = some v) :
    process_command os (n + 1) line sh =
      match process_command os n (reexpand v line)
          { log_history (trim_whitespace line) sh with
            suppress_history := (log_history (trim_whitespace line) sh).suppress_history + 1 }
        with
      | none => none
      | some (Outcome.exited code sh3) => some (Outcome.exited code sh3)
      | some (Outcome.returned sh3) =>
        some (Outcome.returned { sh3 with suppress_history := sh3.suppress_history - 1 }) := by
  obtain ⟨hb, rest, hargv⟩ := line_form_facts NAME line t hne hsp hq hbar hL ht
  obtain ⟨h1, h2, h3, h4, h5, h6, h7⟩ := not_builtin_ne hnb
  rw [process_command_single os n line sh NAME rest hb hargv h1]
  simp only [h2, h3, h4, h5, h6, h7, if_false]
  have hget2 : hm_get (log_history (trim_whitespace line) sh).alias_hm NAME = some v := by
    rw [log_history_alias]; exact hget
  rw [hget2]
  rfl

/-- With the name mapped to a value that begins with the name again, no depth of
re-entry is enough. -/
theorem alias_cycle_none (os : OS) (NAME tv : List Char) (hne : NAME ≠ [])
    (hsp : ∀ c ∈ NAME, isspace c = false) (hq : '\'' ∉ NAME) (hbar : '|' ∉ NAME)
    (hnb : builtin_is_builtin_name NAME = false) (htv : tail_ok tv) :
    ∀ (fuel : Nat) (line t : List Char) (sh : Shell),
      trim_whitespace line = NAME ++ t → tail_ok t →
      hm_get sh.alias_hm NAME = some (NAME ++ tv) →
      process_command os fuel line sh = none := by
  intro fuel
  induction fuel with
  | zero => intro line t sh _ _ _; rfl
  | succ n ih =>
    intro line t sh hL ht hget
    obtain ⟨_, e2, e3⟩ := reexpand_form NAME tv line t hne hsp htv hL ht
    rw [alias_step os NAME _ hne hsp hq hbar hnb n line t sh hL ht hget]
    rw [ih (reexpand (NAME ++ tv) line) (rstrip (tv ++ t)) _ e2 e3
      (by simp only; rw [log_history_alias]; exact hget)]

theorem iterate_form (NAME tv : List Char) (hne : NAME ≠ [])
    (hsp : ∀ c ∈ NAME, isspace c = false) (htv : tail_ok tv) (line t : List Char)
    (hL : trim_whitespace line = NAME ++ t) (ht : tail_ok t) :
    ∀ k : Nat, ∃ t2, trim_whitespace ((reexpand (NAME ++ tv))^[k] line) = NAME ++ t2 ∧
      tail_ok t2 := by
  intro k
  induction k with
  | zero => exact ⟨t, hL, ht⟩
  | succ k ih =>
    obtain ⟨t2, h1, h2⟩ := ih
    rw [Function.iterate_succ_apply']
    obtain ⟨_, e2, e3⟩ := reexpand_form NAME tv _ t2 hne hsp htv h1 h2
    exact ⟨_, e2, e3⟩

/-- C27, for a name written bare: let the alias store map a bare name (non-empty,
without whitespace, quote or pipe) that is not a builtin name to a value made of
the name followed by nothing or by a space and a text without quote or pipe, and
let the line be the name, after optional whitespace, followed by whitespace only
or by a space and a text without quote or pipe.  Then for every `k` the `k`-th
expansion of the line has no pipe outside quotes and its leading token is the name
again, a call of `process_command` on it with the alias registered runs out of
depth exactly when the call on the next expansion does, and `process_command` on
the line returns for no depth of re-entry: it never reaches the builtin or the
external dispatch. -/
theorem C27_no_cycle_guard (os : OS) (sh : Shell) (NAME tv w u : List Char)
    (hne : NAME ≠ []) (hsp : ∀ c ∈ NAME, isspace c = false) (hq : '\'' ∉ NAME)
    (hbar : '|' ∉ NAME) (hnb : builtin_is_builtin_name NAME = false) (htv : tail_ok tv)
    (hget : hm_get sh.alias_hm NAME = some (NAME ++ tv))
    (hw : ∀ c ∈ w, isspace c = true)
    (hu : ((∀ c ∈ u, isspace c = true) ∨ u.head? = some ' ') ∧ '\'' ∉ u ∧ '|' ∉ u) :
    (∀ k : Nat,
      has_bar (trim_whitespace ((reexpand (NAME ++ tv))^[k] (w ++ NAME ++ u))) = false ∧
      (∃ rest, (parseline_no_subst
        (trim_whitespace ((reexpand (NAME ++ tv))^[k] (w ++ NAME ++ u)))).argv = NAME :: rest) ∧
      ∀ (n : Nat) (s : Shell), hm_get s.alias_hm NAME = some (NAME ++ tv) →
        (process_command os (n + 1) ((reexpand (NAME ++ tv))^[k] (w ++ NAME ++ u)) s = none ↔
          process_command os n ((reexpand (NAME ++ tv))^[k + 1] (w ++ NAME ++ u))
            { log_history
                (trim_whitespace ((reexpand (NAME ++ tv))^[k] (w ++ NAME ++ u))) s with
              suppress_history := (log_history
                (trim_whitespace ((reexpand (NAME ++ tv))^[k] (w ++ NAME ++ u)))
                  s).suppress_history + 1 } = none)) ∧
    (∀ fuel : Nat, process_command os fuel (w ++ NAME ++ u) sh = none) := by
  have hL : trim_whitespace (w ++ NAME ++ u) = NAME ++ rstrip u := trim_name w NAME u hw hne hsp
  have ht : tail_ok (rstrip u) := rstrip_tail_ok u hu
  refine ⟨?_, fun fuel =>
    alias_cycle_none os NAME tv hne hsp hq hbar hnb htv fuel _ _ sh hL ht hget⟩
  intro k
  obtain ⟨t2, h1, h2⟩ := iterate_form NAME tv hne hsp htv _ _ hL ht k
  obtain ⟨hb, hargv⟩ := line_form_facts NAME _ t2 hne hsp hq hbar h1 h2
  refine ⟨hb, hargv, ?_⟩
  intro n s hs
  rw [alias_step os NAME _ hne hsp hq hbar hnb n _ t2 s h1 h2 hs,
    Function.iterate_succ_apply']
  constructor
  · intro h
    split at h
    · next hh => exact hh
    · exact absurd h (by simp)
    · exact absurd h (by simp)
  · intro h
    have h' : process_command os n
        (reexpand (NAME ++ tv) ((reexpand (NAME ++ tv))^[k] (w ++ NAME ++ u)))
        { log_history (trim_whitespace ((reexpand (NAME ++ tv))^[k] (w ++ NAME ++ u))) s with
          suppress_history := (log_history
            (trim_whitespace ((reexpand (NAME ++ tv))^[k] (w ++ NAME ++ u)))
              s).suppress_history + 1 } = none := h
    rw [h']

/-- Witness for C27: `alias ls = 'ls -la'` and the line `ls x`, at depth 1000. -/
theorem C27_no_cycle_guard_witness :
    process_command (example_os ["/bin/ls".toList] []) 1000
      ([] ++ "ls".toList ++ " x\n".toList)
      (alias_session [("ls".toList, "ls".toList ++ " -la".toList)]) = none :=
  (C27_no_cycle_guard (example_os ["/bin/ls".toList] [])
    (alias_session [("ls".toList, "ls".toList ++ " -la".toList)])
    "ls".toList " -la".toList [] " x\n".toList (by decide) (by decide) (by decide) (by decide)
    (by decide) (by decide) (by decide) (by decide) (by decide)).2 1000

/-- Counterexample to C27 as stated: the store maps `ls` to `ls`, a pipe-free
value whose leading token is `ls`; the line made of `ls` in quotes, a tab and `x`
is pipe-free and its leading token is `ls`.  The expansion is `ls`, tab, `x`,
whose leading token is not `ls`: `process_command` reaches the external dispatch
and returns at depth 2. -/
theorem C27_counterexample :
    hm_get (alias_session [("ls".toList, "ls".toList)]).alias_hm "ls".toList
        = some "ls".toList ∧
      builtin_is_builtin_name "ls".toList = false ∧
      (parseline_no_subst "ls".toList).argv = ["ls".toList] ∧
      has_bar "'ls'\tx\n".toList = false ∧
      (parseline_no_subst "'ls'\tx\n".toList).argv = ["ls".toList, "\tx".toList] ∧
      process_command (example_os ["/bin/ls".toList] []) 2 "'ls'\tx\n".toList
          (alias_session [("ls".toList, "ls".toList)]) =
        some (Outcome.returned
          { alias_session [("ls".toList, "ls".toList)] with
            history_da := da_put (da_create 10) "'ls'\tx".toList,
            trace := [Sys.fork 0 (some [ChildOp.run ["ls\tx".toList] (ProcEnd._exit 127)]),
              Sys.waitpid 0] }) := by
  decide

end Wsh
